import Mathlib

/-!
# verification of the asn1-per-ts PER-unaligned core

A shallow embedding of the repository's PER-unaligned bit-stream buffer,
type codecs, schema engine and metadata decoder, with proofs of the
specification's claims about them.

The bit stream is modelled as a `List Bool` (big-endian: the head of the
list is the first bit on the wire, i.e. bit 7 of byte 0).  Encoders
return the bits they would append to the buffer; decoders consume a
prefix of the remaining bits and return the decoded value together with
the unconsumed tail.  Fallible operations return `Except Err`.
All recursion that is not structural in an argument uses an explicit
fuel parameter so that every definition is executable by kernel
reduction.
-/

namespace Asn1Per

set_option maxRecDepth 8192

/-- Error taxonomy of the library (spec section 7): each error kind is a
distinct, catchable variant.  `fuelExhausted` is the embedding's stand-in
for non-termination of the source's unbounded loops/recursion. -/
inductive Err where
  | underrun
  | constraintViolation
  | wireFormat
  | unresolvedRef (name : String)
  | noRegistry (name : String)
  | fuelExhausted
  deriving DecidableEq, Repr

/-! ## Bit-level primitives -/

/-- The low `n` bits of `v`, most-significant first (spec 4.1
`writeBits(value, n)`). -/
def natToBits (v : Nat) : Nat → List Bool
  | 0 => []
  | n + 1 => v.testBit n :: natToBits v n

/-- Big-endian interpretation of a bit list. -/
def bitsToNat (bs : List Bool) : Nat :=
  bs.foldl (fun acc b => 2 * acc + (if b then 1 else 0)) 0

/-- Read `n` bits from the head of the stream as an unsigned big-endian
integer (spec 4.1 `readBits(n)`); fails with a buffer underrun when
fewer than `n` bits remain. -/
def readBitsN (n : Nat) (bs : List Bool) : Except Err (Nat × List Bool) :=
  if n ≤ bs.length then .ok (bitsToNat (bs.take n), bs.drop n)
  else .error .underrun

/-- Read a single bit. -/
def readBit1 (bs : List Bool) : Except Err (Bool × List Bool) :=
  match bs with
  | [] => .error .underrun
  | b :: rest => .ok (b, rest)

theorem natToBits_length (v n : Nat) : (natToBits v n).length = n := by
  induction n with
  | zero => rfl
  | succ k ih => simp [natToBits, ih]

theorem bitsToNat_foldl_acc (bs : List Bool) (a : Nat) :
    bs.foldl (fun acc b => 2 * acc + (if b then 1 else 0)) a
      = a * 2 ^ bs.length + bitsToNat bs := by
  induction bs generalizing a with
  | nil => simp [bitsToNat]
  | cons c cs ihc =>
    simp only [List.foldl_cons, List.length_cons, bitsToNat]
    rw [ihc (2 * a + (if c then 1 else 0)), ihc (2 * 0 + (if c then 1 else 0))]
    ring

theorem bitsToNat_cons (b : Bool) (bs : List Bool) :
    bitsToNat (b :: bs) = (if b then 1 else 0) * 2 ^ bs.length + bitsToNat bs := by
  simp only [bitsToNat, List.foldl_cons]
  rw [bitsToNat_foldl_acc bs (2 * 0 + (if b then 1 else 0))]
  simp only [bitsToNat]
  ring

theorem bitsToNat_append (xs ys : List Bool) :
    bitsToNat (xs ++ ys) = bitsToNat xs * 2 ^ ys.length + bitsToNat ys := by
  simp only [bitsToNat, List.foldl_append]
  rw [bitsToNat_foldl_acc ys (List.foldl (fun acc b => 2 * acc + (if b then 1 else 0)) 0 xs)]
  rfl

theorem bitsToNat_natToBits (v n : Nat) :
    bitsToNat (natToBits v n) = v % 2 ^ n := by
  induction n generalizing v with
  | zero => simp [natToBits, bitsToNat, Nat.mod_one]
  | succ k ih =>
    have hv : natToBits v (k + 1) = v.testBit k :: natToBits v k := rfl
    rw [hv, bitsToNat_cons, natToBits_length, ih]
    have hmod : v % 2 ^ (k + 1) = v % 2 ^ k + 2 ^ k * (v / 2 ^ k % 2) := by
      rw [pow_succ, Nat.mod_mul]
    rw [Nat.testBit_to_div_mod]
    rcases Nat.mod_two_eq_zero_or_one (v / 2 ^ k) with h0 | h1
    · rw [h0] at hmod; simp only [h0]; norm_num; omega
    · rw [h1] at hmod; simp only [h1]; norm_num; omega

theorem readBitsN_natToBits (v n : Nat) (rest : List Bool) (h : v < 2 ^ n) :
    readBitsN n (natToBits v n ++ rest) = .ok (v, rest) := by
  unfold readBitsN
  rw [if_pos (by simp [natToBits_length])]
  have htake : (natToBits v n ++ rest).take n = natToBits v n := by
    rw [List.take_append_of_le_length (by simp [natToBits_length])]
    simp [List.take_of_length_le, natToBits_length]
  have hdrop : (natToBits v n ++ rest).drop n = rest := by
    rw [List.drop_append_of_le_length (by simp [natToBits_length])]
    simp [natToBits_length]
  rw [htake, hdrop, bitsToNat_natToBits, Nat.mod_eq_of_lt h]

theorem readBit1_append (b : Bool) (rest : List Bool) :
    readBit1 (b :: rest) = .ok (b, rest) := rfl

/-! ## Bit-length of a natural number -/

/-- Fuel-driven binary length. -/
def bitlenAux : Nat → Nat → Nat
  | 0, _ => 0
  | f + 1, m => if m = 0 then 0 else bitlenAux f (m / 2) + 1

/-- Number of binary digits of `m` (`bitlen 0 = 0`).  The number of bits
used for a constrained whole number in range `[0, m]` is `bitlen m`
(the spec's `ceil(log2(range))` with `range = m + 1`). -/
def bitlen (m : Nat) : Nat := bitlenAux (m + 1) m

theorem bitlenAux_lt (f m : Nat) (hf : m < f) : m < 2 ^ bitlenAux f m := by
  induction f generalizing m with
  | zero => omega
  | succ k ih =>
    unfold bitlenAux
    by_cases h0 : m = 0
    · simp [h0]
    · rw [if_neg h0]
      have hdiv : m / 2 < k := by omega
      have := ih (m / 2) hdiv
      have : m ≤ 2 * (m / 2) + 1 := by omega
      calc m ≤ 2 * (m / 2) + 1 := this
        _ < 2 * 2 ^ bitlenAux k (m / 2) := by omega
        _ = 2 ^ (bitlenAux k (m / 2) + 1) := by ring

theorem lt_two_pow_bitlen (m : Nat) : m < 2 ^ bitlen m :=
  bitlenAux_lt (m + 1) m (by omega)

theorem bitlenAux_mono (f m v : Nat) (hf : m < f) (hv : v ≤ m) :
    v < 2 ^ bitlenAux f m := lt_of_le_of_lt hv (bitlenAux_lt f m hf)

theorem le_lt_two_pow_bitlen {v m : Nat} (hv : v ≤ m) : v < 2 ^ bitlen m :=
  bitlenAux_mono (m + 1) m v (by omega) hv

/-! ## Byte-level primitives -/

/-- Minimal big-endian unsigned byte representation of `n` (at least
one byte), fuel-driven.  `natBytesAux (n+1) n` always has enough fuel. -/
def natBytesAux : Nat → Nat → List Nat
  | 0, _ => []
  | f + 1, n => if n ≤ 255 then [n] else natBytesAux f (n / 256) ++ [n % 256]

/-- Bytes needed to represent `n` as an unsigned big-endian integer, at
least 1 (spec 4.2, semi-constrained integer contents). -/
def natBytes (n : Nat) : List Nat := natBytesAux (n + 1) n

/-- Big-endian unsigned value of a byte list. -/
def bytesToNat (bs : List Nat) : Nat := bs.foldl (fun acc b => 256 * acc + b) 0

theorem bytesToNat_foldl_acc (bs : List Nat) (a : Nat) :
    bs.foldl (fun acc b => 256 * acc + b) a = a * 256 ^ bs.length + bytesToNat bs := by
  induction bs generalizing a with
  | nil => simp [bytesToNat]
  | cons c cs ihc =>
    simp only [List.foldl_cons, List.length_cons, bytesToNat]
    rw [ihc (256 * a + c), ihc (256 * 0 + c)]
    ring

theorem bytesToNat_append (xs ys : List Nat) :
    bytesToNat (xs ++ ys) = bytesToNat xs * 256 ^ ys.length + bytesToNat ys := by
  simp only [bytesToNat, List.foldl_append]
  rw [bytesToNat_foldl_acc ys]
  rfl

theorem bytesToNat_natBytesAux (f n : Nat) (hf : n < f) :
    bytesToNat (natBytesAux f n) = n := by
  induction f generalizing n with
  | zero => omega
  | succ k ih =>
    unfold natBytesAux
    by_cases h : n ≤ 255
    · simp [h, bytesToNat]
    · rw [if_neg h, bytesToNat_append, ih (n / 256) (by omega)]
      simp [bytesToNat]
      omega

theorem bytesToNat_natBytes (n : Nat) : bytesToNat (natBytes n) = n :=
  bytesToNat_natBytesAux (n + 1) n (by omega)

theorem natBytesAux_ne_nil (f n : Nat) (hf : 0 < f) : natBytesAux f n ≠ [] := by
  cases f with
  | zero => omega
  | succ k =>
    unfold natBytesAux
    by_cases h : n ≤ 255 <;> simp [h]

theorem natBytesAux_lt_256 (f n : Nat) : ∀ b ∈ natBytesAux f n, b < 256 := by
  induction f generalizing n with
  | zero => simp [natBytesAux]
  | succ k ih =>
    unfold natBytesAux
    by_cases h : n ≤ 255
    · simp [h]; omega
    · rw [if_neg h]
      intro b hb
      rcases List.mem_append.mp hb with h1 | h2
      · exact ih (n / 256) b h1
      · simp at h2; omega

/-- Minimal big-endian two's-complement byte representation of an
integer (at least one byte), fuel-driven (spec 4.2, unconstrained
integer contents). -/
def twosBytesAux : Nat → Int → List Nat
  | 0, _ => []
  | f + 1, i =>
    if -128 ≤ i ∧ i < 128 then [(i % 256).toNat]
    else twosBytesAux f (i / 256) ++ [(i % 256).toNat]

def twosBytes (i : Int) : List Nat := twosBytesAux (i.natAbs + 1) i

/-- Big-endian two's-complement value of a non-empty byte list. -/
def bytesToInt (bs : List Nat) : Int :=
  match bs with
  | [] => 0
  | b :: _ =>
    if b < 128 then (bytesToNat bs : Int)
    else (bytesToNat bs : Int) - (256 : Int) ^ bs.length

theorem twosBytesAux_ne_nil (f : Nat) (i : Int) (hf : 0 < f) : twosBytesAux f i ≠ [] := by
  cases f with
  | zero => omega
  | succ k =>
    unfold twosBytesAux
    by_cases h : -128 ≤ i ∧ i < 128 <;> simp [h]

theorem twosBytesAux_lt_256 (f : Nat) (i : Int) : ∀ b ∈ twosBytesAux f i, b < 256 := by
  induction f generalizing i with
  | zero => simp [twosBytesAux]
  | succ k ih =>
    unfold twosBytesAux
    by_cases h : -128 ≤ i ∧ i < 128
    · rw [if_pos h]
      intro b hb
      simp at hb
      subst hb
      have h1 : i % 256 < 256 := Int.emod_lt_of_pos i (by norm_num)
      omega
    · rw [if_neg h]
      intro b hb
      rcases List.mem_append.mp hb with h1 | h2
      · exact ih (i / 256) b h1
      · simp at h2
        have h1 : i % 256 < 256 := Int.emod_lt_of_pos i (by norm_num)
        omega

theorem bytesToInt_twosBytesAux (f : Nat) (i : Int) (hf : i.natAbs < f) :
    bytesToInt (twosBytesAux f i) = i := by
  induction f generalizing i with
  | zero => omega
  | succ k ih =>
    unfold twosBytesAux
    by_cases h : -128 ≤ i ∧ i < 128
    · rw [if_pos h]
      have hm : i % 256 = i % 256 := rfl
      by_cases hpos : 0 ≤ i
      · have : i % 256 = i := Int.emod_eq_of_lt hpos (by omega)
        rw [this]
        have hlt : i.toNat < 128 := by omega
        simp [bytesToInt, bytesToNat, hlt]
        omega
      · have h256 : i % 256 = i + 256 := by
          have h1 : (i + 256) % 256 = i % 256 := by
            conv_lhs => rw [show i + 256 = i + 256 * 1 by ring]
            exact Int.add_mul_emod_self_left i 256 1
          rw [← h1]
          exact Int.emod_eq_of_lt (by omega) (by omega)
        rw [h256]
        have hge : ¬ (i + 256).toNat < 128 := by omega
        simp only [bytesToInt, bytesToNat, List.foldl, List.length]
        rw [if_neg (by simpa using hge)]
        simp
        omega
    · rw [if_neg h]
      set q := i / 256 with hq
      set r := (i % 256).toNat with hr
      have hrge : (0 : Int) ≤ i % 256 := Int.emod_nonneg i (by norm_num)
      have hrlt : i % 256 < 256 := Int.emod_lt_of_pos i (by norm_num)
      have hqr : 256 * q + (r : Int) = i := by
        rw [hq, hr, Int.toNat_of_nonneg hrge]
        exact Int.ediv_add_emod i 256
      have hfq : q.natAbs < k := by
        rw [hq]
        have habs : i.natAbs ≤ k := by omega
        by_cases hpos : 0 ≤ i
        · have hi128 : 128 ≤ i := by omega
          have : i / 256 = i / 256 := rfl
          omega
        · have hi : i ≤ -129 := by omega
          omega
      have hpre := ih q hfq
      have hne := twosBytesAux_ne_nil k q (by omega)
      rcases hhead : twosBytesAux k q with _ | ⟨b, bs⟩
      · exact absurd hhead hne
      · rw [hhead] at hpre
        have hlen : ((b :: bs) ++ [r]).length = (b :: bs).length + 1 := by simp
        have hnat : bytesToNat ((b :: bs) ++ [r]) = bytesToNat (b :: bs) * 256 + r := by
          rw [bytesToNat_append]; simp [bytesToNat]
        by_cases hb : b < 128
        · simp only [bytesToInt, hb, if_pos] at hpre
          show bytesToInt ((b :: bs) ++ [r]) = i
          have : (b :: bs) ++ [r] = b :: (bs ++ [r]) := by simp
          rw [this]
          simp only [bytesToInt, hb, if_pos]
          have hnat' : bytesToNat (b :: (bs ++ [r])) = bytesToNat (b :: bs) * 256 + r := by
            rw [show b :: (bs ++ [r]) = (b :: bs) ++ [r] by simp, hnat]
          rw [hnat']
          push_cast
          omega
        · simp only [bytesToInt, hb, if_neg, if_false] at hpre
          show bytesToInt ((b :: bs) ++ [r]) = i
          have hcons : (b :: bs) ++ [r] = b :: (bs ++ [r]) := by simp
          rw [hcons]
          simp only [bytesToInt, hb, if_neg, if_false]
          have hnat' : bytesToNat (b :: (bs ++ [r])) = bytesToNat (b :: bs) * 256 + r := by
            rw [show b :: (bs ++ [r]) = (b :: bs) ++ [r] by simp, hnat]
          rw [hnat']
          have hlen' : (b :: (bs ++ [r])).length = (b :: bs).length + 1 := by simp
          rw [hlen', pow_succ]
          push_cast
          nlinarith [hpre, hqr]

theorem bytesToInt_twosBytes (i : Int) : bytesToInt (twosBytes i) = i :=
  bytesToInt_twosBytesAux (i.natAbs + 1) i (by omega)

/-! ## Monadic list helpers (explicit recursion for easy reasoning) -/

/-- Map a fallible function over a list, failing on the first error. -/
def exceptMap (g : α → Except Err β) : List α → Except Err (List β)
  | [] => .ok []
  | x :: xs => do
    let y ← g x
    let ys ← exceptMap g xs
    .ok (y :: ys)

/-- Decode exactly `count` items with the item decoder `d`. -/
def decodeListN (d : List Bool → Except Err (α × List Bool)) :
    Nat → List Bool → Except Err (List α × List Bool)
  | 0, bs => .ok ([], bs)
  | n + 1, bs => do
    let (v, bs1) ← d bs
    let (vs, bs2) ← decodeListN d n bs1
    .ok (v :: vs, bs2)

/-- Pointwise round-trip relation between an encoded chunk and its decoded
value: the decoder consumes exactly the chunk and yields the value,
whatever follows. -/
def ChunkRT (d : List Bool → Except Err (α × List Bool)) (c : List Bool) (v : α) : Prop :=
  ∀ rest, d (c ++ rest) = .ok (v, rest)

theorem decodeListN_join {d : List Bool → Except Err (α × List Bool)}
    {chunks : List (List Bool)} {vs : List α}
    (h : List.Forall₂ (ChunkRT d) chunks vs) (rest : List Bool) :
    decodeListN d chunks.length (chunks.flatten ++ rest) = .ok (vs, rest) := by
  induction h with
  | nil => simp [decodeListN]
  | cons hc htail ih =>
    rename_i c v cs vs'
    simp only [List.length_cons, List.flatten_cons, List.append_assoc]
    rw [decodeListN]
    rw [hc (cs.flatten ++ rest)]
    simp only [bind, Except.bind]
    rw [ih]

/-! ## Length determinants with fragmentation (spec 4.2) -/

/-- Length-determinant header: either a small count (one- or two-byte
form) or a fragmentation marker `11000 0mm` announcing `m * 16384`
items. -/
inductive LenHead where
  | small (n : Nat)
  | frag (m : Nat)
  deriving DecidableEq, Repr

/-- Encode a small (< 16384) length: `0vvvvvvv` or `10vvvvvv vvvvvvvv`. -/
def encLenSmall (n : Nat) : List Bool :=
  if n ≤ 127 then false :: natToBits n 7
  else true :: false :: natToBits n 14

/-- Read a length-determinant header. -/
def decLenHead : List Bool → Except Err (LenHead × List Bool)
  | false :: bs1 => (readBitsN 7 bs1).map (fun p => (.small p.1, p.2))
  | true :: false :: bs2 => (readBitsN 14 bs2).map (fun p => (.small p.1, p.2))
  | true :: true :: bs2 =>
    match readBitsN 6 bs2 with
    | .error e => .error e
    | .ok (m, bs3) =>
      if 1 ≤ m ∧ m ≤ 4 then .ok (.frag m, bs3) else .error .wireFormat
  | _ => .error .underrun

theorem decLenHead_encLenSmall (n : Nat) (hn : n ≤ 16383) (rest : List Bool) :
    decLenHead (encLenSmall n ++ rest) = .ok (.small n, rest) := by
  unfold encLenSmall
  by_cases h : n ≤ 127
  · rw [if_pos h]
    simp only [List.cons_append, decLenHead]
    rw [readBitsN_natToBits n 7 rest (by norm_num; omega)]
    rfl
  · rw [if_neg h]
    simp only [List.cons_append, decLenHead]
    rw [readBitsN_natToBits n 14 rest (by norm_num; omega)]
    rfl

theorem decLenHead_frag (m : Nat) (hm : 1 ≤ m ∧ m ≤ 4) (rest : List Bool) :
    decLenHead (true :: true :: natToBits m 6 ++ rest) = .ok (.frag m, rest) := by
  simp only [List.cons_append, decLenHead]
  rw [readBitsN_natToBits m 6 rest (by norm_num; omega)]
  simp [hm]

/-- Encode a list of already-encoded item chunks with the PER length
determinant, fragmenting by `m * 16K` items when 16384 or more remain
(spec 4.2 "Length determinant").  Fuel-driven; `chunks.length + 1` fuel
always suffices. -/
def encFragAux : Nat → List (List Bool) → Except Err (List Bool)
  | 0, _ => .error .fuelExhausted
  | f + 1, chunks =>
    if chunks.length ≤ 16383 then .ok (encLenSmall chunks.length ++ chunks.flatten)
    else
      match encFragAux f (chunks.drop (min 4 (chunks.length / 16384) * 16384)) with
      | .error e => .error e
      | .ok body =>
        .ok (true :: true :: natToBits (min 4 (chunks.length / 16384)) 6 ++
          (chunks.take (min 4 (chunks.length / 16384) * 16384)).flatten ++ body)

def encFrag (chunks : List (List Bool)) : Except Err (List Bool) :=
  encFragAux (chunks.length + 1) chunks

/-- Decode a fragmented item list: read a length-determinant header,
read that many items, and continue after each fragment (spec 4.2).
Fuel bounds the number of fragments. -/
def decFragAux (d : List Bool → Except Err (α × List Bool)) :
    Nat → List Bool → Except Err (List α × List Bool)
  | 0, _ => .error .fuelExhausted
  | f + 1, bs => do
    let (head, bs1) ← decLenHead bs
    match head with
    | .small n => decodeListN d n bs1
    | .frag m => do
      let (items1, bs2) ← decodeListN d (m * 16384) bs1
      let (items2, bs3) ← decFragAux d f bs2
      .ok (items1 ++ items2, bs3)

/-- Decode a fragmented item list, with fuel derived from the remaining
bit count (each fragment header consumes bits, so this always
suffices for well-formed input). -/
def decFrag (d : List Bool → Except Err (α × List Bool)) (bs : List Bool) :
    Except Err (List α × List Bool) :=
  decFragAux d (bs.length + 1) bs

theorem encFragAux_length_ge (f : Nat) (chunks : List (List Bool)) (bits : List Bool)
    (h : encFragAux f chunks = .ok bits) : chunks.length / 16384 ≤ bits.length := by
  induction f generalizing chunks bits with
  | zero => simp [encFragAux] at h
  | succ k ih =>
    unfold encFragAux at h
    by_cases hs : chunks.length ≤ 16383
    · rw [if_pos hs] at h
      have : chunks.length / 16384 = 0 := by omega
      simp [this]
    · rw [if_neg hs] at h
      set m := min 4 (chunks.length / 16384) with hm
      rcases hbody : encFragAux k (chunks.drop (m * 16384)) with e | body
      · rw [hbody] at h; simp [bind, Except.bind] at h
      · rw [hbody] at h
        simp only [bind, Except.bind, Except.ok.injEq] at h
        have hlen := ih _ _ hbody
        have hdroplen : (chunks.drop (m * 16384)).length = chunks.length - m * 16384 := by
          simp
        rw [hdroplen] at hlen
        have hm1 : 1 ≤ m := by omega
        have hm4 : m ≤ 4 := by omega
        have hmul : m * 16384 ≤ chunks.length := by
          have : m ≤ chunks.length / 16384 := by omega
          calc m * 16384 ≤ chunks.length / 16384 * 16384 := by omega
            _ ≤ chunks.length := Nat.div_mul_le_self _ _
        have hdiv : chunks.length / 16384 = (chunks.length - m * 16384) / 16384 + m := by
          have h1 : chunks.length = (chunks.length - m * 16384) + m * 16384 := by omega
          conv_lhs => rw [h1]
          rw [Nat.add_mul_div_right _ _ (by norm_num : 0 < 16384)]
        rw [← h]
        simp only [List.length_append, List.length_cons, natToBits_length]
        omega

/-- Round trip of the fragmented framing: decoding the fragment stream
with any fuel at least `chunks.length / 16384 + 1` recovers the values
and leaves the tail. -/
theorem decFragAux_encFragAux {d : List Bool → Except Err (α × List Bool)}
    (F : Nat) :
    ∀ (f : Nat) (chunks : List (List Bool)) (vs : List α) (bits rest : List Bool),
      List.Forall₂ (ChunkRT d) chunks vs →
      encFragAux f chunks = .ok bits →
      chunks.length / 16384 + 1 ≤ F →
      decFragAux d F (bits ++ rest) = .ok (vs, rest) := by
  induction F with
  | zero => omega
  | succ K ihF =>
    intro f chunks vs bits rest hall henc hF
    cases f with
    | zero => simp [encFragAux] at henc
    | succ k =>
      unfold encFragAux at henc
      by_cases hs : chunks.length ≤ 16383
      · rw [if_pos hs] at henc
        simp only [Except.ok.injEq] at henc
        subst henc
        unfold decFragAux
        rw [List.append_assoc, decLenHead_encLenSmall chunks.length (by omega)]
        simp only [bind, Except.bind]
        have := decodeListN_join hall rest
        rw [this]
      · rw [if_neg hs] at henc
        set m := min 4 (chunks.length / 16384) with hm
        rcases hbody : encFragAux k (chunks.drop (m * 16384)) with e | body
        · rw [hbody] at henc; simp [bind, Except.bind] at henc
        · rw [hbody] at henc
          simp only [bind, Except.bind, Except.ok.injEq] at henc
          subst henc
          have hm1 : 1 ≤ m := by omega
          have hm4 : m ≤ 4 := by omega
          have hmul : m * 16384 ≤ chunks.length := by
            have : m ≤ chunks.length / 16384 := by omega
            calc m * 16384 ≤ chunks.length / 16384 * 16384 := by omega
              _ ≤ chunks.length := Nat.div_mul_le_self _ _
          unfold decFragAux
          have hassoc : (true :: true :: natToBits m 6 ++ (chunks.take (m * 16384)).flatten ++ body) ++ rest
              = true :: true :: natToBits m 6 ++ ((chunks.take (m * 16384)).flatten ++ (body ++ rest)) := by
            simp [List.append_assoc]
          rw [hassoc, decLenHead_frag m ⟨hm1, hm4⟩]
          simp only [bind, Except.bind]
          have htake : List.Forall₂ (ChunkRT d) (chunks.take (m * 16384)) (vs.take (m * 16384)) :=
            List.forall₂_take _ hall
          have hdrop : List.Forall₂ (ChunkRT d) (chunks.drop (m * 16384)) (vs.drop (m * 16384)) :=
            List.forall₂_drop _ hall
          have hlen1 : (chunks.take (m * 16384)).length = m * 16384 := by
            simp; omega
          have hjoin := decodeListN_join htake (body ++ rest)
          rw [hlen1] at hjoin
          rw [hjoin]
          have hdiv : (chunks.drop (m * 16384)).length / 16384 + 1 ≤ K := by
            have hdroplen : (chunks.drop (m * 16384)).length = chunks.length - m * 16384 := by simp
            have hdiv2 : chunks.length / 16384 = (chunks.length - m * 16384) / 16384 + m := by
              have h1 : chunks.length = (chunks.length - m * 16384) + m * 16384 := by omega
              conv_lhs => rw [h1]
              rw [Nat.add_mul_div_right _ _ (by norm_num : 0 < 16384)]
            omega
          simp only
          rw [ihF k _ _ _ rest hdrop hbody hdiv]
          simp

/-- Round trip for `decFrag`, whose fuel is derived from the remaining
bit count. -/
theorem decFrag_encFrag {d : List Bool → Except Err (α × List Bool)}
    {chunks : List (List Bool)} {vs : List α} {bits : List Bool}
    (hall : List.Forall₂ (ChunkRT d) chunks vs)
    (henc : encFrag chunks = .ok bits) (rest : List Bool) :
    decFrag d (bits ++ rest) = .ok (vs, rest) := by
  unfold decFrag
  exact decFragAux_encFragAux _ _ chunks vs bits rest hall henc
    (by
      have := encFragAux_length_ge _ chunks bits henc
      simp only [List.length_append]
      omega)

/-! ## Semantic values (spec section 3, "Value shapes per type")

Character strings are modelled as their lists of Unicode code points;
bit strings as their lists of bits (the `(byte-buffer, bit-length)`
pair of the source in normalized form); sequences as association lists
aligned with the declared root fields followed by the declared
extension fields, `none` marking an absent optional field. -/
inductive Value where
  | bool (b : Bool)
  | int (i : Int)
  | enum (name : String)
  | bitstr (bits : List Bool)
  | octets (bytes : List Nat)
  | str (chars : List Nat)
  | oid (arcs : List Nat)
  | null
  | seq (fields : List (String × Option Value))
  | seqOf (items : List Value)
  | choice (key : String) (val : Value)

/-- Size constraint of a sized container (spec section 3,
"Size-constrained containers"). -/
inductive SizeC where
  | fixed (n : Nat)
  | range (lo hi : Nat) (ext : Bool)
  | unconstrained
  deriving DecidableEq, Repr

/-- Character-string flavour (spec 4.2 "Character string"). -/
inductive CharKind where
  | ia5
  | visible
  | utf8
  deriving DecidableEq, Repr

/-- Schema nodes: the compiled-in representation of a type description
(spec section 3, "Schema node").  A sequence field is
`(name, schema, optional, defaultValue)`; `extFields = some l` models a
type whose source had an extension marker (possibly with an empty
addition list), `none` a type without one, and likewise for
`extAlts` and `extValues`. -/
inductive Schema where
  | bool
  | int (min max : Option Int) (ext : Bool)
  | enum (roots : List String) (extValues : Option (List String))
  | bitstr (size : SizeC)
  | octets (size : SizeC)
  | charstr (kind : CharKind) (size : SizeC) (alphabet : Option (List Nat))
  | oid
  | null
  | seq (fields : List (String × Schema × Bool × Option Value))
        (extFields : Option (List (String × Schema × Bool × Option Value)))
  | seqOf (item : Schema) (size : SizeC)
  | choice (alts : List (String × Schema)) (extAlts : Option (List (String × Schema)))
  | ref (name : String)

mutual
/-- Fuel-driven structural equality on values, used by the sequence
encoder to decide whether a supplied DEFAULT field equals its default
(spec 4.3 step 2).  Only soundness (`true` implies equality) matters
for correctness; with ample fuel it is plain deep equality. -/
def beqF : Nat → Value → Value → Bool
  | 0, _, _ => false
  | f + 1, v, w =>
    match v, w with
    | .bool a, .bool b => a == b
    | .int a, .int b => a == b
    | .enum a, .enum b => a == b
    | .bitstr a, .bitstr b => a == b
    | .octets a, .octets b => a == b
    | .str a, .str b => a == b
    | .oid a, .oid b => a == b
    | .null, .null => true
    | .seq fs, .seq gs => beqFieldsF f fs gs
    | .seqOf xs, .seqOf ys => beqListF f xs ys
    | .choice k1 v1, .choice k2 v2 => k1 == k2 && beqF f v1 v2
    | _, _ => false

def beqFieldsF : Nat → List (String × Option Value) → List (String × Option Value) → Bool
  | 0, _, _ => false
  | _ + 1, [], [] => true
  | f + 1, (n1, ov1) :: r1, (n2, ov2) :: r2 =>
    n1 == n2 &&
      (match ov1, ov2 with
       | none, none => true
       | some v1, some v2 => beqF f v1 v2
       | _, _ => false) &&
      beqFieldsF f r1 r2
  | _ + 1, _, _ => false

def beqListF : Nat → List Value → List Value → Bool
  | 0, _, _ => false
  | _ + 1, [], [] => true
  | f + 1, x :: xs, y :: ys => beqF f x y && beqListF f xs ys
  | _ + 1, _, _ => false
end

theorem beq_sound (f : Nat) :
    (∀ v w, beqF f v w = true → v = w) ∧
    (∀ a b, beqFieldsF f a b = true → a = b) ∧
    (∀ a b, beqListF f a b = true → a = b) := by
  induction f with
  | zero =>
    refine ⟨?_, ?_, ?_⟩ <;> intro a b h <;> simp [beqF, beqFieldsF, beqListF] at h
  | succ k ih =>
    obtain ⟨ihv, ihf, ihl⟩ := ih
    refine ⟨?_, ?_, ?_⟩
    · intro v w h
      cases v <;> cases w <;> simp_all [beqF]
      · exact ihf _ _ h
      · exact ihl _ _ h
      · exact ihv _ _ h.2
    · intro a b h
      match a, b with
      | [], [] => rfl
      | [], _ :: _ => simp [beqFieldsF] at h
      | _ :: _, [] => simp [beqFieldsF] at h
      | (n1, ov1) :: r1, (n2, ov2) :: r2 =>
        simp only [beqFieldsF, Bool.and_eq_true] at h
        obtain ⟨⟨hn, hov⟩, hr⟩ := h
        have hn' : n1 = n2 := by simpa using hn
        have hr' : r1 = r2 := ihf _ _ hr
        have hov' : ov1 = ov2 := by
          match ov1, ov2 with
          | none, none => rfl
          | some v1, some v2 => simp at hov ⊢; exact ihv _ _ hov
          | none, some _ => simp at hov
          | some _, none => simp at hov
        rw [hn', hov', hr']
    · intro a b h
      match a, b with
      | [], [] => rfl
      | [], _ :: _ => simp [beqListF] at h
      | _ :: _, [] => simp [beqListF] at h
      | x :: xs, y :: ys =>
        simp only [beqListF, Bool.and_eq_true] at h
        rw [ihv _ _ h.1, ihl _ _ h.2]

/-- A registry of named schemas (`buildAll`'s input). -/
abbrev Registry := List (String × Schema)

/-- A sequence field description. -/
abbrev SeqField := String × Schema × Bool × Option Value

def SeqField.name (f : SeqField) : String := f.1
def SeqField.schema (f : SeqField) : Schema := f.2.1
def SeqField.optional (f : SeqField) : Bool := f.2.2.1
def SeqField.default (f : SeqField) : Option Value := f.2.2.2

def lookupReg (env : Registry) (name : String) : Option Schema :=
  match env with
  | [] => none
  | (n, s) :: rest => if n = name then some s else lookupReg rest name

/-- First index of an element satisfying `p`. -/
def findIdx? (p : α → Bool) : List α → Option Nat
  | [] => none
  | x :: xs => if p x then some 0 else (findIdx? p xs).map (· + 1)

theorem findIdx?_lt_length {p : α → Bool} {l : List α} {i : Nat}
    (h : findIdx? p l = some i) : i < l.length := by
  induction l generalizing i with
  | nil => simp [findIdx?] at h
  | cons x xs ih =>
    unfold findIdx? at h
    by_cases hp : p x
    · rw [if_pos hp] at h; simp at h; simp [← h]
    · rw [if_neg hp] at h
      rcases hj : findIdx? p xs with _ | j
      · rw [hj] at h; simp at h
      · rw [hj] at h
        simp at h
        have := ih hj
        simp [← h]
        omega

theorem findIdx?_get {p : α → Bool} {l : List α} {i : Nat}
    (h : findIdx? p l = some i) (hi : i < l.length) :
    p (l.get ⟨i, hi⟩) = true := by
  induction l generalizing i with
  | nil => simp [findIdx?] at h
  | cons x xs ih =>
    unfold findIdx? at h
    by_cases hp : p x
    · rw [if_pos hp] at h
      simp at h
      subst h
      simpa using hp
    · rw [if_neg hp] at h
      rcases hj : findIdx? p xs with _ | j
      · rw [hj] at h; simp at h
      · rw [hj] at h
        simp at h
        subst h
        have hjlt := findIdx?_lt_length hj
        simpa using ih hj hjlt

theorem findIdx?_eq_none_of_not_mem {l : List String} {name : String}
    (h : name ∉ l) : findIdx? (· = name) l = none := by
  induction l with
  | nil => rfl
  | cons x xs ih =>
    unfold findIdx?
    have hx : x ≠ name := by intro he; exact h (by simp [he])
    rw [if_neg (by simpa using hx)]
    rw [ih (by intro hm; exact h (by simp [hm]))]
    rfl

/-! ## Byte-content framing

Semi-constrained and unconstrained integer contents, octet strings,
UTF-8 contents, OID contents and open-type payloads are all framed as a
byte count (length determinant, fragmented if necessary) followed by
the bytes (spec 4.2). -/

/-- Frame a byte list with the (possibly fragmented) length
determinant. -/
def fragBytes (bytes : List Nat) : Except Err (List Bool) :=
  encFrag (bytes.map (natToBits · 8))

/-- Read a byte-count-framed byte list. -/
def decFragBytes (bs : List Bool) : Except Err (List Nat × List Bool) :=
  decFrag (readBitsN 8) bs

theorem chunkRT_byte {b : Nat} (hb : b < 256) :
    ChunkRT (readBitsN 8) (natToBits b 8) b := by
  intro rest
  exact readBitsN_natToBits b 8 rest (by norm_num; omega)

theorem forall₂_bytes {bytes : List Nat} (hb : ∀ b ∈ bytes, b < 256) :
    List.Forall₂ (ChunkRT (readBitsN 8)) (bytes.map (natToBits · 8)) bytes := by
  induction bytes with
  | nil => simp
  | cons x xs ih =>
    simp only [List.map_cons, List.forall₂_cons]
    exact ⟨chunkRT_byte (hb x (by simp)), ih (fun b h => hb b (by simp [h]))⟩

theorem decFragBytes_fragBytes {bytes : List Nat} {bits : List Bool}
    (hb : ∀ b ∈ bytes, b < 256) (henc : fragBytes bytes = .ok bits) (rest : List Bool) :
    decFragBytes (bits ++ rest) = .ok (bytes, rest) :=
  decFrag_encFrag (forall₂_bytes hb) henc rest

/-! ## Integer codec (spec 4.2 "Integer") -/

/-- Does `i` lie in the root range given by the optional bounds? -/
def inRootRange (mn mx : Option Int) (i : Int) : Bool :=
  (match mn with | some lo => decide (lo ≤ i) | none => true) &&
  (match mx with | some hi => decide (i ≤ hi) | none => true)

/-- Root-shape integer encoding: constrained (both bounds,
`value - min` in `ceil(log2 range)` bits, zero bits when the range has
one value), semi-constrained (min only, framed minimal unsigned bytes
of `value - min`), or unconstrained (framed minimal two's-complement
bytes).  Out-of-constraint values are rejected. -/
def intRootEnc : Option Int → Option Int → Int → Except Err (List Bool)
  | some lo, some hi, i =>
    if lo ≤ i ∧ i ≤ hi then .ok (natToBits (i - lo).toNat (bitlen (hi - lo).toNat))
    else .error .constraintViolation
  | some lo, none, i =>
    if lo ≤ i then fragBytes (natBytes (i - lo).toNat)
    else .error .constraintViolation
  | none, _, i => fragBytes (twosBytes i)

def intRootDec : Option Int → Option Int → List Bool → Except Err (Int × List Bool)
  | some lo, some hi, bs =>
    (match readBitsN (bitlen (hi - lo).toNat) bs with
     | .error e => .error e
     | .ok (n, bs1) => .ok (lo + (n : Int), bs1))
  | some lo, none, bs =>
    (match decFragBytes bs with
     | .error e => .error e
     | .ok (bytes, bs1) => .ok (lo + (bytesToNat bytes : Int), bs1))
  | none, _, bs =>
    (match decFragBytes bs with
     | .error e => .error e
     | .ok (bytes, bs1) => .ok (bytesToInt bytes, bs1))

/-- Integer encoding with the extensibility bit (spec 4.2: `0` = in
root range then root shape, `1` = extension then unconstrained). -/
def encInt (mn mx : Option Int) (ext : Bool) (i : Int) : Except Err (List Bool) :=
  if ext then
    if inRootRange mn mx i then (intRootEnc mn mx i).map (false :: ·)
    else (fragBytes (twosBytes i)).map (true :: ·)
  else intRootEnc mn mx i

def decInt (mn mx : Option Int) (ext : Bool) (bs : List Bool) : Except Err (Int × List Bool) :=
  if ext then
    match bs with
    | [] => .error .underrun
    | false :: bs1 => intRootDec mn mx bs1
    | true :: bs1 =>
      match decFragBytes bs1 with
      | .error e => .error e
      | .ok (bytes, bs2) => .ok (bytesToInt bytes, bs2)
  else intRootDec mn mx bs

theorem intRootDec_intRootEnc {mn mx : Option Int} {i : Int} {bits : List Bool}
    (henc : intRootEnc mn mx i = .ok bits) (rest : List Bool) :
    intRootDec mn mx (bits ++ rest) = .ok (i, rest) := by
  match mn, mx with
  | some lo, some hi =>
    simp only [intRootEnc] at henc
    by_cases h : lo ≤ i ∧ i ≤ hi
    · rw [if_pos h] at henc
      simp only [Except.ok.injEq] at henc
      subst henc
      simp only [intRootDec]
      have hle : (i - lo).toNat ≤ (hi - lo).toNat := by omega
      rw [readBitsN_natToBits _ _ rest (le_lt_two_pow_bitlen hle)]
      simp only [Except.ok.injEq, Prod.mk.injEq]
      exact ⟨by omega, trivial⟩
    · rw [if_neg h] at henc; exact absurd henc (by simp)
  | some lo, none =>
    simp only [intRootEnc] at henc
    by_cases h : lo ≤ i
    · rw [if_pos h] at henc
      simp only [intRootDec]
      rw [decFragBytes_fragBytes (natBytesAux_lt_256 _ _) henc rest]
      simp only [Except.ok.injEq, Prod.mk.injEq]
      rw [bytesToNat_natBytesAux _ _ (by omega)]
      exact ⟨by omega, trivial⟩
    · rw [if_neg h] at henc; exact absurd henc (by simp)
  | none, mx =>
    simp only [intRootEnc] at henc
    simp only [intRootDec]
    rw [decFragBytes_fragBytes (twosBytesAux_lt_256 _ _) henc rest]
    simp [bytesToInt_twosBytesAux (i.natAbs + 1) i (by omega)]

theorem decInt_encInt {mn mx : Option Int} {ext : Bool} {i : Int} {bits : List Bool}
    (henc : encInt mn mx ext i = .ok bits) (rest : List Bool) :
    decInt mn mx ext (bits ++ rest) = .ok (i, rest) := by
  unfold encInt at henc
  unfold decInt
  by_cases hx : ext
  · rw [if_pos hx] at henc ⊢
    by_cases hr : inRootRange mn mx i
    · rw [if_pos hr] at henc
      rcases hroot : intRootEnc mn mx i with e | rbits
      · rw [hroot] at henc; simp [Except.map] at henc
      · rw [hroot] at henc
        simp only [Except.map, Except.ok.injEq] at henc
        subst henc
        simp only [List.cons_append]
        exact intRootDec_intRootEnc hroot rest
    · rw [if_neg hr] at henc
      rcases hfrag : fragBytes (twosBytes i) with e | fbits
      · rw [hfrag] at henc; simp [Except.map] at henc
      · rw [hfrag] at henc
        simp only [Except.map, Except.ok.injEq] at henc
        subst henc
        simp only [List.cons_append]
        rw [decFragBytes_fragBytes (twosBytesAux_lt_256 _ _) hfrag rest]
        simp [bytesToInt_twosBytesAux (i.natAbs + 1) i (by omega)]
  · rw [if_neg hx] at henc ⊢
    exact intRootDec_intRootEnc henc rest

/-! ## Normally-small non-negative integer (spec 4.2 "Enumerated",
glossary): `0` + 6 bits for values up to 63, otherwise `1` + a
semi-constrained integer with lower bound 0. -/

def encNS (n : Nat) : Except Err (List Bool) :=
  if n ≤ 63 then .ok (false :: natToBits n 6)
  else (fragBytes (natBytes n)).map (true :: ·)

def decNS (bs : List Bool) : Except Err (Nat × List Bool) :=
  match bs with
  | [] => .error .underrun
  | false :: bs1 =>
    match readBitsN 6 bs1 with
    | .error e => .error e
    | .ok (n, bs2) => .ok (n, bs2)
  | true :: bs1 =>
    match decFragBytes bs1 with
    | .error e => .error e
    | .ok (bytes, bs2) => .ok (bytesToNat bytes, bs2)

theorem decNS_encNS {n : Nat} {bits : List Bool}
    (henc : encNS n = .ok bits) (rest : List Bool) :
    decNS (bits ++ rest) = .ok (n, rest) := by
  unfold encNS at henc
  by_cases h : n ≤ 63
  · rw [if_pos h] at henc
    simp only [Except.ok.injEq] at henc
    subst henc
    simp only [List.cons_append, decNS]
    rw [readBitsN_natToBits n 6 rest (by norm_num; omega)]
  · rw [if_neg h] at henc
    rcases hfrag : fragBytes (natBytes n) with e | fbits
    · rw [hfrag] at henc; simp [Except.map] at henc
    · rw [hfrag] at henc
      simp only [Except.map, Except.ok.injEq] at henc
      subst henc
      simp only [List.cons_append, decNS]
      rw [decFragBytes_fragBytes (natBytesAux_lt_256 _ _) hfrag rest]
      simp [bytesToNat_natBytesAux (n + 1) n (by omega)]

/-! ## Size determinant for sized containers (spec 4.2 "Size determinant") -/

/-- Frame a list of encoded item chunks under a size constraint:
no bits for a fixed size, `count - lo` as a constrained whole number
for a small constrained range, an extensibility bit first when the
constraint is extensible, and the (possibly fragmented) length
determinant otherwise. -/
def encWithSize : SizeC → List (List Bool) → Except Err (List Bool)
  | .fixed k, chunks =>
    if chunks.length = k then .ok chunks.flatten else .error .constraintViolation
  | .range lo hi ext, chunks =>
    if ext then
      if lo ≤ chunks.length ∧ chunks.length ≤ hi then
        if hi - lo ≤ 65535 then
          .ok (false :: natToBits (chunks.length - lo) (bitlen (hi - lo)) ++ chunks.flatten)
        else (encFrag chunks).map (false :: ·)
      else (encFrag chunks).map (true :: ·)
    else
      if lo ≤ chunks.length ∧ chunks.length ≤ hi then
        if hi - lo ≤ 65535 then
          .ok (natToBits (chunks.length - lo) (bitlen (hi - lo)) ++ chunks.flatten)
        else encFrag chunks
      else .error .constraintViolation
  | .unconstrained, chunks => encFrag chunks

/-- Decode the item list framed by `encWithSize`. -/
def decSize (d : List Bool → Except Err (α × List Bool)) :
    SizeC → List Bool → Except Err (List α × List Bool)
  | .fixed k, bs => decodeListN d k bs
  | .range lo hi ext, bs =>
    if ext then
      match bs with
      | [] => .error .underrun
      | true :: bs1 => decFrag d bs1
      | false :: bs1 =>
        if hi - lo ≤ 65535 then
          match readBitsN (bitlen (hi - lo)) bs1 with
          | .error e => .error e
          | .ok (c, bs2) => decodeListN d (lo + c) bs2
        else decFrag d bs1
    else
      if hi - lo ≤ 65535 then
        match readBitsN (bitlen (hi - lo)) bs with
        | .error e => .error e
        | .ok (c, bs2) => decodeListN d (lo + c) bs2
      else decFrag d bs
  | .unconstrained, bs => decFrag d bs

theorem decSize_count {d : List Bool → Except Err (α × List Bool)}
    {chunks : List (List Bool)} {vs : List α}
    (hall : List.Forall₂ (ChunkRT d) chunks vs) (lo hi : Nat)
    (hlo : lo ≤ chunks.length) (hhi : chunks.length ≤ hi) (hsmall : hi - lo ≤ 65535)
    (rest : List Bool) :
    (match readBitsN (bitlen (hi - lo))
        ((natToBits (chunks.length - lo) (bitlen (hi - lo)) ++ chunks.flatten) ++ rest) with
     | Except.error e => Except.error e
     | Except.ok (c, bs2) => decodeListN d (lo + c) bs2) = .ok (vs, rest) := by
  rw [List.append_assoc]
  rw [readBitsN_natToBits _ _ _ (le_lt_two_pow_bitlen (by omega))]
  show decodeListN d (lo + (chunks.length - lo)) (chunks.flatten ++ rest) = .ok (vs, rest)
  have hcnt : lo + (chunks.length - lo) = chunks.length := by omega
  rw [hcnt]
  exact decodeListN_join hall rest

theorem decSize_encWithSize {sc : SizeC} {d : List Bool → Except Err (α × List Bool)}
    {chunks : List (List Bool)} {vs : List α} {bits : List Bool}
    (hall : List.Forall₂ (ChunkRT d) chunks vs)
    (henc : encWithSize sc chunks = .ok bits) (rest : List Bool) :
    decSize d sc (bits ++ rest) = .ok (vs, rest) := by
  match sc with
  | .fixed k =>
    simp only [encWithSize] at henc
    by_cases h : chunks.length = k
    · rw [if_pos h] at henc
      simp only [Except.ok.injEq] at henc
      subst henc
      simp only [decSize]
      rw [← h]
      exact decodeListN_join hall rest
    · rw [if_neg h] at henc; exact absurd henc (by simp)
  | .unconstrained =>
    simp only [encWithSize] at henc
    simp only [decSize]
    exact decFrag_encFrag hall henc rest
  | .range lo hi ext =>
    simp only [encWithSize] at henc
    by_cases hx : ext
    · subst hx
      rw [if_pos rfl] at henc
      by_cases hin : lo ≤ chunks.length ∧ chunks.length ≤ hi
      · rw [if_pos hin] at henc
        by_cases hsmall : hi - lo ≤ 65535
        · rw [if_pos hsmall] at henc
          simp only [Except.ok.injEq] at henc
          subst henc
          simp only [decSize, List.cons_append, if_pos rfl]
          rw [if_pos hsmall]
          exact decSize_count hall lo hi hin.1 hin.2 hsmall rest
        · rw [if_neg hsmall] at henc
          rcases hfrag : encFrag chunks with e | fbits
          · rw [hfrag] at henc; simp [Except.map] at henc
          · rw [hfrag] at henc
            simp only [Except.map, Except.ok.injEq] at henc
            subst henc
            simp only [decSize, List.cons_append, if_pos rfl]
            rw [if_neg hsmall]
            exact decFrag_encFrag hall hfrag rest
      · rw [if_neg hin] at henc
        rcases hfrag : encFrag chunks with e | fbits
        · rw [hfrag] at henc; simp [Except.map] at henc
        · rw [hfrag] at henc
          simp only [Except.map, Except.ok.injEq] at henc
          subst henc
          simp only [decSize, List.cons_append, if_pos rfl]
          exact decFrag_encFrag hall hfrag rest
    · have hxf : ext = false := by simpa using hx
      subst hxf
      rw [if_neg (by simp)] at henc
      by_cases hin : lo ≤ chunks.length ∧ chunks.length ≤ hi
      · rw [if_pos hin] at henc
        by_cases hsmall : hi - lo ≤ 65535
        · rw [if_pos hsmall] at henc
          simp only [Except.ok.injEq] at henc
          subst henc
          simp only [decSize, if_neg (by simp : ¬ (false = true))]
          rw [if_pos hsmall]
          exact decSize_count hall lo hi hin.1 hin.2 hsmall rest
        · rw [if_neg hsmall] at henc
          simp only [decSize, if_neg (by simp : ¬ (false = true))]
          rw [if_neg hsmall]
          exact decFrag_encFrag hall henc rest
      · rw [if_neg hin] at henc; exact absurd henc (by simp)

/-! ## Open type (spec 4.3 step 4 and glossary): a byte-count-framed
octet-aligned payload; the payload is the PER-unaligned encoding of the
wrapped field padded with zero bits to a whole number of bytes. -/

/-- Pad a bit list with zero bits to a multiple of 8. -/
def padTo8 (bs : List Bool) : List Bool :=
  bs ++ List.replicate ((8 - bs.length % 8) % 8) false

/-- Split a bit list into consecutive 8-bit groups (fuel-driven). -/
def group8Aux : Nat → List Bool → List (List Bool)
  | 0, _ => []
  | f + 1, bs => if bs.isEmpty then [] else bs.take 8 :: group8Aux f (bs.drop 8)

def group8 (bs : List Bool) : List (List Bool) := group8Aux (bs.length + 1) bs

/-- Read one 8-bit group. -/
def dGroup8 (bs : List Bool) : Except Err (List Bool × List Bool) :=
  if 8 ≤ bs.length then .ok (bs.take 8, bs.drop 8) else .error .underrun

theorem group8Aux_len8 (f : Nat) (bs : List Bool) (h8 : bs.length % 8 = 0) (hf : bs.length < f) :
    (∀ g ∈ group8Aux f bs, g.length = 8) ∧ (group8Aux f bs).flatten = bs := by
  induction f generalizing bs with
  | zero => omega
  | succ k ih =>
    unfold group8Aux
    by_cases he : bs.isEmpty
    · simp [he]
      have : bs = [] := List.isEmpty_iff.mp he
      simp [this]
    · rw [if_neg he]
      have hne : bs ≠ [] := by simpa [List.isEmpty_iff] using he
      have hlen : 1 ≤ bs.length := by
        cases bs with
        | nil => exact absurd rfl hne
        | cons x xs => simp
      have hge8 : 8 ≤ bs.length := by omega
      have hdroplen : (bs.drop 8).length = bs.length - 8 := by simp
      have hdropmod : (bs.drop 8).length % 8 = 0 := by omega
      have hdropf : (bs.drop 8).length < k := by omega
      obtain ⟨ihall, ihflat⟩ := ih (bs.drop 8) hdropmod hdropf
      constructor
      · intro g hg
        rcases List.mem_cons.mp hg with h1 | h2
        · rw [h1]; simp; omega
        · exact ihall g h2
      · simp only [List.flatten_cons, ihflat]
        exact List.take_append_drop 8 bs

theorem padTo8_mod (bs : List Bool) : (padTo8 bs).length % 8 = 0 := by
  simp only [padTo8, List.length_append, List.length_replicate]
  omega

theorem chunkRT_group8 {g : List Bool} (hg : g.length = 8) : ChunkRT dGroup8 g g := by
  intro rest
  unfold dGroup8
  rw [if_pos (by simp [hg])]
  rw [List.take_append_of_le_length (by omega), List.drop_append_of_le_length (by omega)]
  simp [hg, List.take_of_length_le]

theorem forall₂_group8 {gs : List (List Bool)} (h : ∀ g ∈ gs, g.length = 8) :
    List.Forall₂ (ChunkRT dGroup8) gs gs := by
  induction gs with
  | nil => simp
  | cons x xs ih =>
    simp only [List.forall₂_cons]
    exact ⟨chunkRT_group8 (h x (by simp)), ih (fun g hg => h g (by simp [hg]))⟩

/-- Wrap an encoded payload as an open type. -/
def encOpen (payload : List Bool) : Except Err (List Bool) :=
  encFrag (group8 (padTo8 payload))

/-- Unwrap an open type and decode the payload with `d0`; bits beyond
the payload proper (the zero padding) are discarded. -/
def decOpen (d0 : List Bool → Except Err (β × List Bool)) (bs : List Bool) :
    Except Err (β × List Bool) :=
  match decFrag dGroup8 bs with
  | .error e => .error e
  | .ok (groups, bs1) =>
    match d0 groups.flatten with
    | .error e => .error e
    | .ok (v, _) => .ok (v, bs1)

theorem decOpen_encOpen {payload : List Bool} {bits : List Bool}
    {d0 : List Bool → Except Err (β × List Bool)} {v : β}
    (hd0 : ∀ r, d0 (payload ++ r) = .ok (v, r))
    (henc : encOpen payload = .ok bits) (rest : List Bool) :
    decOpen d0 (bits ++ rest) = .ok (v, rest) := by
  unfold encOpen at henc
  obtain ⟨hall8, hflat⟩ := group8Aux_len8 ((padTo8 payload).length + 1) (padTo8 payload)
    (padTo8_mod payload) (by omega)
  unfold decOpen
  rw [decFrag_encFrag (forall₂_group8 hall8) henc rest]
  show (match d0 (group8 (padTo8 payload)).flatten with
    | Except.error e => Except.error e
    | Except.ok (v, _) => Except.ok (v, rest)) = Except.ok (v, rest)
  unfold group8
  rw [hflat]
  unfold padTo8
  rw [hd0 (List.replicate ((8 - payload.length % 8) % 8) false)]

/-! ## UTF-8 contents (spec 4.2 "Character string": UTF8String is
byte-length framed UTF-8 with no per-character compaction).  Code
points are encoded with the standard 1-4 byte forms; the decoder is
the structural inverse (no overlong/surrogate strictness, which the
spec does not pin down). -/

def utf8EncChar (c : Nat) : List Nat :=
  if c < 0x80 then [c]
  else if c < 0x800 then [0xC0 + c / 64, 0x80 + c % 64]
  else if c < 0x10000 then [0xE0 + c / 4096, 0x80 + c / 64 % 64, 0x80 + c % 64]
  else [0xF0 + c / 262144, 0x80 + c / 4096 % 64, 0x80 + c / 64 % 64, 0x80 + c % 64]

/-- Continuation-byte check. -/
def utf8Cont (b : Nat) : Prop := 0x80 ≤ b ∧ b < 0xC0

instance : DecidablePred utf8Cont := fun _ => instDecidableAnd

/-- Tail of a 2-byte UTF-8 form. -/
def utf8Dec2 (k : List Nat → Except Err (List Nat)) (b : Nat) :
    List Nat → Except Err (List Nat)
  | b2 :: rest2 =>
    if utf8Cont b2 then
      match k rest2 with
      | .error e => .error e
      | .ok cs => .ok (((b - 0xC0) * 64 + (b2 - 0x80)) :: cs)
    else .error .wireFormat
  | _ => .error .wireFormat

/-- Tail of a 3-byte UTF-8 form. -/
def utf8Dec3 (k : List Nat → Except Err (List Nat)) (b : Nat) :
    List Nat → Except Err (List Nat)
  | b2 :: b3 :: rest3 =>
    if utf8Cont b2 ∧ utf8Cont b3 then
      match k rest3 with
      | .error e => .error e
      | .ok cs => .ok (((b - 0xE0) * 4096 + (b2 - 0x80) * 64 + (b3 - 0x80)) :: cs)
    else .error .wireFormat
  | _ => .error .wireFormat

/-- Tail of a 4-byte UTF-8 form. -/
def utf8Dec4 (k : List Nat → Except Err (List Nat)) (b : Nat) :
    List Nat → Except Err (List Nat)
  | b2 :: b3 :: b4 :: rest4 =>
    if utf8Cont b2 ∧ utf8Cont b3 ∧ utf8Cont b4 then
      match k rest4 with
      | .error e => .error e
      | .ok cs => .ok (((b - 0xF0) * 262144 + (b2 - 0x80) * 4096 +
          (b3 - 0x80) * 64 + (b4 - 0x80)) :: cs)
    else .error .wireFormat
  | _ => .error .wireFormat

/-- Parse a whole byte list as UTF-8 code points (fuel-driven;
`bytes.length + 1` always suffices since every character consumes at
least one byte). -/
def utf8DecAux : Nat → List Nat → Except Err (List Nat)
  | 0, _ => .error .fuelExhausted
  | _ + 1, [] => .ok []
  | f + 1, b :: rest =>
    if b < 0x80 then
      match utf8DecAux f rest with
      | .error e => .error e
      | .ok cs => .ok (b :: cs)
    else if b < 0xC0 then .error .wireFormat
    else if b < 0xE0 then utf8Dec2 (utf8DecAux f) b rest
    else if b < 0xF0 then utf8Dec3 (utf8DecAux f) b rest
    else if b < 0xF8 then utf8Dec4 (utf8DecAux f) b rest
    else .error .wireFormat

def utf8DecAll (bytes : List Nat) : Except Err (List Nat) :=
  utf8DecAux (bytes.length + 1) bytes

theorem utf8EncChar_lt_256 (c : Nat) (hc : c ≤ 0x10FFFF) : ∀ b ∈ utf8EncChar c, b < 256 := by
  unfold utf8EncChar
  by_cases h1 : c < 0x80
  · simp [h1]; omega
  · rw [if_neg h1]
    by_cases h2 : c < 0x800
    · simp [h2]; omega
    · rw [if_neg h2]
      by_cases h3 : c < 0x10000
      · simp [h3]
        refine ⟨by omega, by omega, by omega⟩
      · rw [if_neg h3]
        simp
        refine ⟨by omega, by omega, by omega, by omega⟩

theorem utf8EncChar_length_pos (c : Nat) : 0 < (utf8EncChar c).length := by
  unfold utf8EncChar
  by_cases h1 : c < 0x80
  · simp [h1]
  · rw [if_neg h1]
    by_cases h2 : c < 0x800
    · simp [h2]
    · rw [if_neg h2]
      by_cases h3 : c < 0x10000
      · simp [h3]
      · rw [if_neg h3]; simp

theorem utf8DecAux_step (f : Nat) (c : Nat) (hc : c ≤ 0x10FFFF) (tail : List Nat)
    (cs : List Nat) (htail : utf8DecAux f tail = .ok cs) :
    utf8DecAux (f + 1) (utf8EncChar c ++ tail) = .ok (c :: cs) := by
  unfold utf8EncChar
  by_cases h1 : c < 0x80
  · rw [if_pos h1]
    show utf8DecAux (f + 1) (c :: tail) = .ok (c :: cs)
    unfold utf8DecAux
    rw [if_pos h1, htail]
  · rw [if_neg h1]
    by_cases h2 : c < 0x800
    · rw [if_pos h2]
      show utf8DecAux (f + 1) ((0xC0 + c / 64) :: (0x80 + c % 64) :: tail) = .ok (c :: cs)
      unfold utf8DecAux
      rw [if_neg (by omega), if_neg (by omega), if_pos (by omega)]
      simp only [utf8Dec2]
      rw [if_pos (show utf8Cont (0x80 + c % 64) from ⟨by omega, by omega⟩), htail]
      have hback : (0xC0 + c / 64 - 0xC0) * 64 + (0x80 + c % 64 - 0x80) = c := by omega
      rw [hback]
    · rw [if_neg h2]
      by_cases h3 : c < 0x10000
      · rw [if_pos h3]
        show utf8DecAux (f + 1)
          ((0xE0 + c / 4096) :: (0x80 + c / 64 % 64) :: (0x80 + c % 64) :: tail) = .ok (c :: cs)
        unfold utf8DecAux
        rw [if_neg (by omega), if_neg (by omega), if_neg (by omega), if_pos (by omega)]
        simp only [utf8Dec3]
        rw [if_pos (show utf8Cont (0x80 + c / 64 % 64) ∧ utf8Cont (0x80 + c % 64) from
          ⟨⟨by omega, by omega⟩, by omega, by omega⟩), htail]
        have hback : (0xE0 + c / 4096 - 0xE0) * 4096 + (0x80 + c / 64 % 64 - 0x80) * 64 +
            (0x80 + c % 64 - 0x80) = c := by omega
        rw [hback]
      · rw [if_neg h3]
        show utf8DecAux (f + 1)
          ((0xF0 + c / 262144) :: (0x80 + c / 4096 % 64) :: (0x80 + c / 64 % 64) ::
            (0x80 + c % 64) :: tail) = .ok (c :: cs)
        unfold utf8DecAux
        rw [if_neg (by omega), if_neg (by omega), if_neg (by omega), if_neg (by omega),
          if_pos (by omega)]
        simp only [utf8Dec4]
        rw [if_pos (show utf8Cont (0x80 + c / 4096 % 64) ∧ utf8Cont (0x80 + c / 64 % 64) ∧
            utf8Cont (0x80 + c % 64) from
          ⟨⟨by omega, by omega⟩, ⟨by omega, by omega⟩, by omega, by omega⟩), htail]
        have hback : (0xF0 + c / 262144 - 0xF0) * 262144 + (0x80 + c / 4096 % 64 - 0x80) * 4096 +
            (0x80 + c / 64 % 64 - 0x80) * 64 + (0x80 + c % 64 - 0x80) = c := by omega
        rw [hback]

theorem utf8DecAux_encAll (F : Nat) :
    ∀ (chars : List Nat), chars.length < F → (∀ c ∈ chars, c ≤ 0x10FFFF) →
      utf8DecAux F ((chars.map utf8EncChar).flatten) = .ok chars := by
  induction F with
  | zero => omega
  | succ K ih =>
    intro chars hlen hall
    match chars with
    | [] =>
      show utf8DecAux (K + 1) [] = .ok []
      rfl
    | c :: cs =>
      simp only [List.map_cons, List.flatten_cons]
      have hcs := ih cs (by simp at hlen; omega) (fun x hx => hall x (by simp [hx]))
      exact utf8DecAux_step K c (hall c (by simp)) _ cs hcs

theorem utf8_flatten_length (chars : List Nat) :
    chars.length ≤ ((chars.map utf8EncChar).flatten).length := by
  induction chars with
  | nil => simp
  | cons c cs ih =>
    simp only [List.map_cons, List.flatten_cons, List.length_append, List.length_cons]
    have := utf8EncChar_length_pos c
    omega

theorem utf8DecAll_enc (chars : List Nat) (hall : ∀ c ∈ chars, c ≤ 0x10FFFF) :
    utf8DecAll ((chars.map utf8EncChar).flatten) = .ok chars := by
  unfold utf8DecAll
  apply utf8DecAux_encAll _ _ _ hall
  have := utf8_flatten_length chars
  omega

/-! ## OBJECT IDENTIFIER contents (spec 4.2 "OID"): the canonical BER
encoding of the arcs — first octet `40*a1 + a2`, every further arc (and
a large combined first value) base-128 big-endian with the high bit set
on all but the last byte — framed as an unconstrained octet string. -/

/-- High-bit-marked base-128 prefix digits of `n` (fuel-driven). -/
def oidSubIdAux : Nat → Nat → List Nat
  | 0, _ => []
  | f + 1, n => if n ≤ 127 then [n + 128] else oidSubIdAux f (n / 128) ++ [n % 128 + 128]

/-- Base-128 bytes of one OID subidentifier, high bit set on all but
the final byte. -/
def oidSubId (n : Nat) : List Nat :=
  if n ≤ 127 then [n] else oidSubIdAux (n + 1) (n / 128) ++ [n % 128]

/-- Read one base-128 subidentifier (fuel-driven; one byte consumed per
step). -/
def decSubIdAux : Nat → Nat → List Nat → Except Err (Nat × List Nat)
  | 0, _, _ => .error .fuelExhausted
  | _ + 1, _, [] => .error .wireFormat
  | f + 1, acc, b :: rest =>
    if b < 128 then .ok (acc * 128 + b, rest)
    else decSubIdAux f (acc * 128 + (b - 128)) rest

/-- Parse a byte list into its subidentifiers. -/
def decSubIds : Nat → List Nat → Except Err (List Nat)
  | 0, _ => .error .fuelExhausted
  | _ + 1, [] => .ok []
  | f + 1, b :: bs =>
    match decSubIdAux ((b :: bs).length + 1) 0 (b :: bs) with
    | .error e => .error e
    | .ok (v, rest) =>
      match decSubIds f rest with
      | .error e => .error e
      | .ok vs => .ok (v :: vs)

theorem oidSubIdAux_lt_256 (g m : Nat) : ∀ b ∈ oidSubIdAux g m, b < 256 := by
  induction g generalizing m with
  | zero => simp [oidSubIdAux]
  | succ k ih =>
    unfold oidSubIdAux
    by_cases h : m ≤ 127
    · simp [h]; omega
    · rw [if_neg h]
      intro b hb
      rcases List.mem_append.mp hb with h1 | h2
      · exact ih (m / 128) b h1
      · simp at h2; omega

theorem oidSubId_lt_256 (n : Nat) : ∀ b ∈ oidSubId n, b < 256 := by
  unfold oidSubId
  by_cases h : n ≤ 127
  · simp [h]; omega
  · rw [if_neg h]
    intro b hb
    rcases List.mem_append.mp hb with h1 | h2
    · exact oidSubIdAux_lt_256 _ _ b h1
    · simp at h2; omega

theorem oidSubId_ne_nil (n : Nat) : oidSubId n ≠ [] := by
  unfold oidSubId
  by_cases h : n ≤ 127
  · simp [h]
  · rw [if_neg h]
    simp

theorem decSubIdAux_front (g : Nat) :
    ∀ (m acc F : Nat) (rest : List Nat), m < g →
      decSubIdAux (F + (oidSubIdAux g m).length) acc (oidSubIdAux g m ++ rest)
        = decSubIdAux F (acc * 128 ^ (oidSubIdAux g m).length + m) rest := by
  induction g with
  | zero => omega
  | succ k ih =>
    intro m acc F rest hm
    unfold oidSubIdAux
    by_cases h : m ≤ 127
    · rw [if_pos h]
      simp only [List.length_cons, List.length_nil, pow_one, List.cons_append,
        List.nil_append, Nat.zero_add]
      have hstep : decSubIdAux (F + 1) acc ((m + 128) :: rest)
          = if m + 128 < 128 then Except.ok (acc * 128 + (m + 128), rest)
            else decSubIdAux F (acc * 128 + (m + 128 - 128)) rest := rfl
      rw [hstep, if_neg (by omega)]
      congr 2
    · rw [if_neg h]
      have hlen : (oidSubIdAux k (m / 128) ++ [m % 128 + 128]).length
          = (oidSubIdAux k (m / 128)).length + 1 := by simp
      rw [hlen]
      have hstep : decSubIdAux (F + 1 + (oidSubIdAux k (m / 128)).length) acc
          (oidSubIdAux k (m / 128) ++ ((m % 128 + 128) :: rest))
          = decSubIdAux (F + 1)
            (acc * 128 ^ (oidSubIdAux k (m / 128)).length + m / 128) ((m % 128 + 128) :: rest) :=
        ih (m / 128) acc (F + 1) ((m % 128 + 128) :: rest) (by omega)
      have hassoc : (oidSubIdAux k (m / 128) ++ [m % 128 + 128]) ++ rest
          = oidSubIdAux k (m / 128) ++ ((m % 128 + 128) :: rest) := by simp
      rw [hassoc]
      have hfe : F + ((oidSubIdAux k (m / 128)).length + 1)
          = F + 1 + (oidSubIdAux k (m / 128)).length := by omega
      rw [hfe, hstep]
      have hstep2 : decSubIdAux (F + 1)
          (acc * 128 ^ (oidSubIdAux k (m / 128)).length + m / 128) ((m % 128 + 128) :: rest)
          = if m % 128 + 128 < 128 then
              Except.ok ((acc * 128 ^ (oidSubIdAux k (m / 128)).length + m / 128) * 128 +
                (m % 128 + 128), rest)
            else decSubIdAux F
              ((acc * 128 ^ (oidSubIdAux k (m / 128)).length + m / 128) * 128 +
                (m % 128 + 128 - 128)) rest := rfl
      rw [hstep2, if_neg (by omega)]
      congr 1
      rw [pow_succ]
      have hdm : m / 128 * 128 + m % 128 = m := by omega
      have hsimp : m % 128 + 128 - 128 = m % 128 := by omega
      rw [hsimp]
      ring_nf
      omega

theorem decSubIdAux_oidSubId (n F : Nat) (rest : List Nat) :
    decSubIdAux (F + (oidSubId n).length) 0 (oidSubId n ++ rest) = .ok (n, rest) := by
  unfold oidSubId
  by_cases h : n ≤ 127
  · rw [if_pos h]
    have hstep : decSubIdAux (F + 1) 0 (n :: rest)
        = if n < 128 then Except.ok (0 * 128 + n, rest)
          else decSubIdAux F (0 * 128 + (n - 128)) rest := rfl
    show decSubIdAux (F + 1) 0 (n :: rest) = _
    rw [hstep, if_pos (by omega)]
    simp
  · rw [if_neg h]
    have hlen : (oidSubIdAux (n + 1) (n / 128) ++ [n % 128]).length
        = (oidSubIdAux (n + 1) (n / 128)).length + 1 := by simp
    rw [hlen]
    have hassoc : (oidSubIdAux (n + 1) (n / 128) ++ [n % 128]) ++ rest
        = oidSubIdAux (n + 1) (n / 128) ++ ((n % 128) :: rest) := by simp
    rw [hassoc]
    have hfe : F + ((oidSubIdAux (n + 1) (n / 128)).length + 1)
        = (F + 1) + (oidSubIdAux (n + 1) (n / 128)).length := by omega
    rw [hfe]
    rw [decSubIdAux_front (n + 1) (n / 128) 0 (F + 1) ((n % 128) :: rest) (by omega)]
    have hdm : 0 * 128 ^ (oidSubIdAux (n + 1) (n / 128)).length + n / 128 = n / 128 := by
      ring_nf
    rw [hdm]
    have hstep : decSubIdAux (F + 1) (n / 128) ((n % 128) :: rest)
        = if n % 128 < 128 then Except.ok (n / 128 * 128 + n % 128, rest)
          else decSubIdAux F (n / 128 * 128 + (n % 128 - 128)) rest := rfl
    rw [hstep, if_pos (by omega)]
    have : n / 128 * 128 + n % 128 = n := by omega
    rw [this]

theorem subIds_flatten_length (arcs : List Nat) :
    arcs.length ≤ ((arcs.map oidSubId).flatten).length := by
  induction arcs with
  | nil => simp
  | cons a rest ih =>
    simp only [List.map_cons, List.flatten_cons, List.length_append, List.length_cons]
    have hne := oidSubId_ne_nil a
    have : 1 ≤ (oidSubId a).length := by
      cases hh : oidSubId a with
      | nil => exact absurd hh hne
      | cons x xs => simp
    omega

theorem decSubIds_enc (F : Nat) :
    ∀ (arcs : List Nat), arcs.length < F →
      decSubIds F ((arcs.map oidSubId).flatten) = .ok arcs := by
  induction F with
  | zero => omega
  | succ K ih =>
    intro arcs hlen
    match arcs with
    | [] =>
      show decSubIds (K + 1) [] = .ok []
      rfl
    | a :: rest =>
      simp only [List.map_cons, List.flatten_cons]
      have hinner := ih rest (by simp at hlen; omega)
      rcases hcons : oidSubId a with _ | ⟨b, bs⟩
      · exact absurd hcons (oidSubId_ne_nil a)
      · have heq : oidSubId a ++ (rest.map oidSubId).flatten
            = b :: (bs ++ (rest.map oidSubId).flatten) := by rw [hcons]; simp
        show (match decSubIdAux ((b :: (bs ++ (rest.map oidSubId).flatten)).length + 1) 0
            (b :: (bs ++ (rest.map oidSubId).flatten)) with
          | Except.error e => Except.error e
          | Except.ok (v, r) =>
            match decSubIds K r with
            | Except.error e => Except.error e
            | Except.ok vs => Except.ok (v :: vs)) = Except.ok (a :: rest)
        have hlena : (oidSubId a).length = bs.length + 1 := by rw [hcons]; rfl
        have hfuel : (b :: (bs ++ (rest.map oidSubId).flatten)).length + 1
            = ((rest.map oidSubId).flatten.length + 1) + (oidSubId a).length := by
          rw [hlena]
          simp only [List.length_cons, List.length_append]
          omega
        rw [hfuel]
        have hsub := decSubIdAux_oidSubId a ((rest.map oidSubId).flatten.length + 1)
          ((rest.map oidSubId).flatten)
        rw [← heq, hsub]
        show (match decSubIds K ((rest.map oidSubId).flatten) with
          | Except.error e => Except.error e
          | Except.ok vs => Except.ok (a :: vs)) = Except.ok (a :: rest)
        rw [hinner]

/-- Encode an OID value: validity as in spec section 3 (first arc in
0..2; second arc below 40 when the first is 0 or 1; at least the two
leading arcs), then the canonical BER bytes framed as an unconstrained
octet string. -/
def encOid (arcs : List Nat) : Except Err (List Bool) :=
  match arcs with
  | a1 :: a2 :: restArcs =>
    if a1 ≤ 2 ∧ (a1 ≤ 1 → a2 ≤ 39) then
      fragBytes (((40 * a1 + a2) :: restArcs).map oidSubId).flatten
    else .error .constraintViolation
  | _ => .error .constraintViolation

def decOid (bs : List Bool) : Except Err (List Nat × List Bool) :=
  match decFragBytes bs with
  | .error e => .error e
  | .ok (bytes, bs1) =>
    match decSubIds (bytes.length + 1) bytes with
    | .error e => .error e
    | .ok [] => .error .wireFormat
    | .ok (x :: restIds) =>
      if x < 40 then .ok (0 :: x :: restIds, bs1)
      else if x < 80 then .ok (1 :: (x - 40) :: restIds, bs1)
      else .ok (2 :: (x - 80) :: restIds, bs1)

theorem decOid_encOid {arcs : List Nat} {bits : List Bool}
    (henc : encOid arcs = .ok bits) (rest : List Bool) :
    decOid (bits ++ rest) = .ok (arcs, rest) := by
  match arcs with
  | [] => simp [encOid] at henc
  | [a1] => simp [encOid] at henc
  | a1 :: a2 :: restArcs =>
    simp only [encOid] at henc
    by_cases hv : a1 ≤ 2 ∧ (a1 ≤ 1 → a2 ≤ 39)
    · rw [if_pos hv] at henc
      have hbytes : ∀ b ∈ (((40 * a1 + a2) :: restArcs).map oidSubId).flatten, b < 256 := by
        intro b hb
        rw [List.mem_flatten] at hb
        obtain ⟨l, hl, hbl⟩ := hb
        rw [List.mem_map] at hl
        obtain ⟨n, _, hn⟩ := hl
        exact oidSubId_lt_256 n b (hn ▸ hbl)
      unfold decOid
      rw [decFragBytes_fragBytes hbytes henc rest]
      have hids := decSubIds_enc
        ((((40 * a1 + a2) :: restArcs).map oidSubId).flatten.length + 1)
        ((40 * a1 + a2) :: restArcs)
        (by have := subIds_flatten_length ((40 * a1 + a2) :: restArcs); omega)
      show (match decSubIds
          ((((40 * a1 + a2) :: restArcs).map oidSubId).flatten.length + 1)
          (((40 * a1 + a2) :: restArcs).map oidSubId).flatten with
        | Except.error e => Except.error e
        | Except.ok [] => Except.error Err.wireFormat
        | Except.ok (x :: restIds) =>
          if x < 40 then Except.ok (0 :: x :: restIds, rest)
          else if x < 80 then Except.ok (1 :: (x - 40) :: restIds, rest)
          else Except.ok (2 :: (x - 80) :: restIds, rest)) = Except.ok (a1 :: a2 :: restArcs, rest)
      rw [hids]
      show (if 40 * a1 + a2 < 40 then Except.ok (0 :: (40 * a1 + a2) :: restArcs, rest)
        else if 40 * a1 + a2 < 80 then Except.ok (1 :: (40 * a1 + a2 - 40) :: restArcs, rest)
        else Except.ok (2 :: (40 * a1 + a2 - 80) :: restArcs, rest))
        = Except.ok (a1 :: a2 :: restArcs, rest)
      by_cases h0 : a1 = 0
      · subst h0
        have ha2 : a2 ≤ 39 := hv.2 (by omega)
        rw [if_pos (by omega)]
        norm_num
      · by_cases h1 : a1 = 1
        · subst h1
          have ha2 : a2 ≤ 39 := hv.2 (by omega)
          rw [if_neg (by omega), if_pos (by omega)]
          norm_num
        · have h2 : a1 = 2 := by omega
          subst h2
          rw [if_neg (by omega), if_neg (by omega)]
          norm_num
    · rw [if_neg hv] at henc; exact absurd henc (by simp)

/-! ## Enumerated codec (spec 4.2 "Enumerated") -/

def encEnum (roots : List String) (extValues : Option (List String)) (name : String) :
    Except Err (List Bool) :=
  match findIdx? (· = name) roots with
  | some i =>
    (match extValues with
     | none => .ok (natToBits i (bitlen (roots.length - 1)))
     | some _ => .ok (false :: natToBits i (bitlen (roots.length - 1))))
  | none =>
    (match extValues with
     | none => .error .constraintViolation
     | some exts =>
       match findIdx? (· = name) exts with
       | some j => (encNS j).map (true :: ·)
       | none => .error .constraintViolation)

def decEnumRoot (roots : List String) (bs : List Bool) : Except Err (String × List Bool) :=
  match readBitsN (bitlen (roots.length - 1)) bs with
  | .error e => .error e
  | .ok (i, bs1) =>
    match roots[i]? with
    | some nm => .ok (nm, bs1)
    | none => .error .wireFormat

def decEnum (roots : List String) (extValues : Option (List String)) (bs : List Bool) :
    Except Err (String × List Bool) :=
  match extValues with
  | none => decEnumRoot roots bs
  | some exts =>
    match bs with
    | [] => .error .underrun
    | false :: bs1 => decEnumRoot roots bs1
    | true :: bs1 =>
      match decNS bs1 with
      | .error e => .error e
      | .ok (j, bs2) =>
        match exts[j]? with
        | some nm => .ok (nm, bs2)
        | none => .error .wireFormat

theorem getElem?_of_findIdx? {l : List String} {name : String} {i : Nat}
    (h : findIdx? (· = name) l = some i) : l[i]? = some name := by
  have hlt := findIdx?_lt_length h
  have hget := findIdx?_get h hlt
  have hval : l.get ⟨i, hlt⟩ = name := by simpa using hget
  rw [List.getElem?_eq_getElem hlt]
  exact congrArg some hval

theorem decEnumRoot_enc {roots : List String} {name : String} {i : Nat}
    (hidx : findIdx? (· = name) roots = some i) (rest : List Bool) :
    decEnumRoot roots (natToBits i (bitlen (roots.length - 1)) ++ rest) = .ok (name, rest) := by
  have hlt := findIdx?_lt_length hidx
  unfold decEnumRoot
  rw [readBitsN_natToBits _ _ rest (le_lt_two_pow_bitlen (by omega))]
  show (match roots[i]? with
    | some nm => Except.ok (nm, rest)
    | none => Except.error Err.wireFormat) = Except.ok (name, rest)
  rw [getElem?_of_findIdx? hidx]

theorem decEnum_encEnum {roots : List String} {extValues : Option (List String)}
    {name : String} {bits : List Bool}
    (henc : encEnum roots extValues name = .ok bits) (rest : List Bool) :
    decEnum roots extValues (bits ++ rest) = .ok (name, rest) := by
  rcases hidx : findIdx? (· = name) roots with _ | i
  · match extValues with
    | none =>
      have hform : encEnum roots none name = .error .constraintViolation := by
        simp only [encEnum, hidx]
      rw [hform] at henc
      simp at henc
    | some exts =>
      rcases hjdx : findIdx? (· = name) exts with _ | j
      · have hform : encEnum roots (some exts) name = .error .constraintViolation := by
          simp only [encEnum, hidx, hjdx]
        rw [hform] at henc
        simp at henc
      · have hform : encEnum roots (some exts) name = (encNS j).map (true :: ·) := by
          simp only [encEnum, hidx, hjdx]
        rw [hform] at henc
        rcases hns : encNS j with e | nsbits
        · rw [hns] at henc; simp [Except.map] at henc
        · rw [hns] at henc
          simp only [Except.map, Except.ok.injEq] at henc
          subst henc
          show decEnum roots (some exts) ((true :: nsbits) ++ rest) = .ok (name, rest)
          simp only [decEnum, List.cons_append]
          rw [decNS_encNS hns rest]
          show (match exts[j]? with
            | some nm => Except.ok (nm, rest)
            | none => Except.error Err.wireFormat) = Except.ok (name, rest)
          rw [getElem?_of_findIdx? hjdx]
  · match extValues with
    | none =>
      have hform : encEnum roots none name
          = .ok (natToBits i (bitlen (roots.length - 1))) := by
        simp only [encEnum, hidx]
      rw [hform] at henc
      simp only [Except.ok.injEq] at henc
      subst henc
      exact decEnumRoot_enc hidx rest
    | some exts =>
      have hform : encEnum roots (some exts) name
          = .ok (false :: natToBits i (bitlen (roots.length - 1))) := by
        simp only [encEnum, hidx]
      rw [hform] at henc
      simp only [Except.ok.injEq] at henc
      subst henc
      show decEnum roots (some exts)
        ((false :: natToBits i (bitlen (roots.length - 1))) ++ rest) = .ok (name, rest)
      simp only [decEnum, List.cons_append]
      exact decEnumRoot_enc hidx rest

/-! ## Character codec for bits-per-character strings (spec 4.2
"Character string"): 7 bits for IA5String and VisibleString (the
latter restricted to the printable range on encode), `ceil(log2 |A|)`
bits of alphabet index for a permitted alphabet. -/

def encChar (kind : CharKind) (alphabet : Option (List Nat)) (c : Nat) :
    Except Err (List Bool) :=
  match alphabet with
  | some a =>
    (match findIdx? (· = c) a with
     | some i => .ok (natToBits i (bitlen (a.length - 1)))
     | none => .error .constraintViolation)
  | none =>
    match kind with
    | .ia5 => if c < 128 then .ok (natToBits c 7) else .error .constraintViolation
    | .visible =>
      if 0x20 ≤ c ∧ c ≤ 0x7E then .ok (natToBits c 7) else .error .constraintViolation
    | .utf8 => .error .constraintViolation

def decChar (kind : CharKind) (alphabet : Option (List Nat)) (bs : List Bool) :
    Except Err (Nat × List Bool) :=
  match alphabet with
  | some a =>
    (match readBitsN (bitlen (a.length - 1)) bs with
     | .error e => .error e
     | .ok (i, bs1) =>
       match a[i]? with
       | some c => .ok (c, bs1)
       | none => .error .wireFormat)
  | none => readBitsN 7 bs

theorem getElem?_nat_of_findIdx? {l : List Nat} {c : Nat} {i : Nat}
    (h : findIdx? (· = c) l = some i) : l[i]? = some c := by
  have hlt := findIdx?_lt_length h
  have hget := findIdx?_get h hlt
  have hval : l.get ⟨i, hlt⟩ = c := by simpa using hget
  rw [List.getElem?_eq_getElem hlt]
  exact congrArg some hval

theorem chunkRT_char {kind : CharKind} {alphabet : Option (List Nat)} {c : Nat}
    {bits : List Bool} (henc : encChar kind alphabet c = .ok bits) :
    ChunkRT (decChar kind alphabet) bits c := by
  intro rest
  match alphabet with
  | some a =>
    rcases hidx : findIdx? (· = c) a with _ | i
    · have hform : encChar kind (some a) c = .error .constraintViolation := by
        simp only [encChar, hidx]
      rw [hform] at henc; simp at henc
    · have hform : encChar kind (some a) c = .ok (natToBits i (bitlen (a.length - 1))) := by
        simp only [encChar, hidx]
      rw [hform] at henc
      simp only [Except.ok.injEq] at henc
      subst henc
      have hlt := findIdx?_lt_length hidx
      show decChar kind (some a) (natToBits i (bitlen (a.length - 1)) ++ rest) = Except.ok (c, rest)
      simp only [decChar]
      rw [readBitsN_natToBits _ _ rest (le_lt_two_pow_bitlen (by omega))]
      show (match a[i]? with
        | some c0 => Except.ok (c0, rest)
        | none => Except.error Err.wireFormat) = Except.ok (c, rest)
      rw [getElem?_nat_of_findIdx? hidx]
  | none =>
    match kind with
    | .ia5 =>
      simp only [encChar] at henc
      by_cases h : c < 128
      · rw [if_pos h] at henc
        simp only [Except.ok.injEq] at henc
        subst henc
        show decChar .ia5 none (natToBits c 7 ++ rest) = Except.ok (c, rest)
        simp only [decChar]
        exact readBitsN_natToBits c 7 rest (by norm_num; omega)
      · rw [if_neg h] at henc; simp at henc
    | .visible =>
      simp only [encChar] at henc
      by_cases h : 0x20 ≤ c ∧ c ≤ 0x7E
      · rw [if_pos h] at henc
        simp only [Except.ok.injEq] at henc
        subst henc
        show decChar .visible none (natToBits c 7 ++ rest) = Except.ok (c, rest)
        simp only [decChar]
        exact readBitsN_natToBits c 7 rest (by norm_num; omega)
      · rw [if_neg h] at henc; simp at henc
    | .utf8 => simp [encChar] at henc

/-! ## Choice alternative lookup -/

/-- Find an alternative by name, returning its index and schema. -/
def lookupAlt (key : String) : List (String × Schema) → Option (Nat × Schema)
  | [] => none
  | (n, s) :: rest =>
    if n = key then some (0, s)
    else (lookupAlt key rest).map (fun p => (p.1 + 1, p.2))

theorem lookupAlt_getElem? {key : String} {alts : List (String × Schema)}
    {i : Nat} {s : Schema} (h : lookupAlt key alts = some (i, s)) :
    alts[i]? = some (key, s) := by
  induction alts generalizing i with
  | nil => simp [lookupAlt] at h
  | cons a rest ih =>
    match a with
    | (n, s0) =>
      unfold lookupAlt at h
      by_cases hn : n = key
      · rw [if_pos hn] at h
        simp at h
        obtain ⟨h1, h2⟩ := h
        subst hn h2
        rw [← h1]
        simp
      · rw [if_neg hn] at h
        rcases hrec : lookupAlt key rest with _ | ⟨j, s1⟩
        · rw [hrec] at h; simp at h
        · rw [hrec] at h
          simp at h
          obtain ⟨h1, h2⟩ := h
          subst h2
          rw [← h1]
          simpa using ih hrec

theorem lookupAlt_lt_length {key : String} {alts : List (String × Schema)}
    {i : Nat} {s : Schema} (h : lookupAlt key alts = some (i, s)) :
    i < alts.length := by
  have := lookupAlt_getElem? h
  by_contra hge
  rw [List.getElem?_eq_none (by omega)] at this
  exact absurd this (by simp)

theorem lookupAlt_eq_none_of_not_mem {key : String} {alts : List (String × Schema)}
    (h : key ∉ alts.map Prod.fst) : lookupAlt key alts = none := by
  induction alts with
  | nil => rfl
  | cons a rest ih =>
    match a with
    | (n, s0) =>
      unfold lookupAlt
      simp only [List.map_cons, List.mem_cons] at h
      push_neg at h
      obtain ⟨h1, h2⟩ := h
      rw [if_neg (fun he => h1 he.symm), ih h2]
      rfl

/-! ## Sequence root fields (spec 4.3): a presence-bit preamble for
every OPTIONAL or DEFAULT root field (a DEFAULT field is marked absent
when the supplied value equals the default, eliding its encoding),
then the present fields' encodings in declaration order. -/

/-- Round-trip relation between an encoder and a decoder over schemas:
whatever the encoder produces, the decoder consumes exactly that prefix
and returns the value. -/
def RTrel (e : Schema → Value → Except Err (List Bool))
    (d : Schema → List Bool → Except Err (Value × List Bool)) : Prop :=
  ∀ s v bits rest, e s v = .ok bits → d s (bits ++ rest) = .ok (v, rest)

/-- Number of preamble bits of a root field list. -/
def countOpt : List SeqField → Nat
  | [] => 0
  | (_, _, fopt, fdef) :: fs => (if fopt || fdef.isSome then 1 else 0) + countOpt fs

/-- Take `k` bits off the stream. -/
def readBitList (k : Nat) (bs : List Bool) : Except Err (List Bool × List Bool) :=
  if k ≤ bs.length then .ok (bs.take k, bs.drop k) else .error .underrun

theorem readBitList_exact (pre : List Bool) (rest : List Bool) :
    readBitList pre.length (pre ++ rest) = .ok (pre, rest) := by
  unfold readBitList
  rw [if_pos (by simp)]
  rw [List.take_append_of_le_length (by omega), List.drop_append_of_le_length (by omega)]
  simp

/-- Encode the root fields of a sequence against the supplied
association list, producing the preamble bits and the concatenated
field encodings. -/
def encFields (e : Schema → Value → Except Err (List Bool)) (beqFuel : Nat) :
    List SeqField → List (String × Option Value) → Except Err (List Bool × List Bool)
  | [], [] => .ok ([], [])
  | [], _ :: _ => .error .constraintViolation
  | _ :: _, [] => .error .constraintViolation
  | (fn, fsch, fopt, fdef) :: fs, (vn, ov) :: vs =>
    if fn = vn then
      match encFields e beqFuel fs vs with
      | .error e1 => .error e1
      | .ok (pre, body) =>
        match fdef with
        | some dv =>
          (match ov with
           | none => .error .constraintViolation
           | some v =>
             if beqF beqFuel v dv then .ok (false :: pre, body)
             else
               match e fsch v with
               | .error e1 => .error e1
               | .ok b => .ok (true :: pre, b ++ body))
        | none =>
          if fopt then
            (match ov with
             | none => .ok (false :: pre, body)
             | some v =>
               match e fsch v with
               | .error e1 => .error e1
               | .ok b => .ok (true :: pre, b ++ body))
          else
            (match ov with
             | none => .error .constraintViolation
             | some v =>
               match e fsch v with
               | .error e1 => .error e1
               | .ok b => .ok (pre, b ++ body))
    else .error .constraintViolation

/-- Decode the root fields, consuming preamble bits alongside: a
mandatory field is always decoded; an absent OPTIONAL field yields no
value; an absent DEFAULT field is filled in with its default. -/
def decFields (d : Schema → List Bool → Except Err (Value × List Bool)) :
    List SeqField → List Bool → List Bool →
      Except Err (List (String × Option Value) × List Bool)
  | [], _, bs => .ok ([], bs)
  | (fn, fsch, fopt, fdef) :: fs, preBits, bs =>
    match fdef with
    | some dv =>
      (match preBits with
       | [] => .error .wireFormat
       | p :: preRest =>
         if p then
           match d fsch bs with
           | .error e1 => .error e1
           | .ok (v, bs1) =>
             match decFields d fs preRest bs1 with
             | .error e1 => .error e1
             | .ok (vs, bs2) => .ok ((fn, some v) :: vs, bs2)
         else
           match decFields d fs preRest bs with
           | .error e1 => .error e1
           | .ok (vs, bs2) => .ok ((fn, some dv) :: vs, bs2))
    | none =>
      if fopt then
        (match preBits with
         | [] => .error .wireFormat
         | p :: preRest =>
           if p then
             match d fsch bs with
             | .error e1 => .error e1
             | .ok (v, bs1) =>
               match decFields d fs preRest bs1 with
               | .error e1 => .error e1
               | .ok (vs, bs2) => .ok ((fn, some v) :: vs, bs2)
           else
             match decFields d fs preRest bs with
             | .error e1 => .error e1
             | .ok (vs, bs2) => .ok ((fn, none) :: vs, bs2))
      else
        match d fsch bs with
        | .error e1 => .error e1
        | .ok (v, bs1) =>
          match decFields d fs preBits bs1 with
          | .error e1 => .error e1
          | .ok (vs, bs2) => .ok ((fn, some v) :: vs, bs2)

theorem encFields_pre_length {e : Schema → Value → Except Err (List Bool)} {beqFuel : Nat}
    {fields : List SeqField} {vals : List (String × Option Value)}
    {pre body : List Bool}
    (henc : encFields e beqFuel fields vals = .ok (pre, body)) :
    pre.length = countOpt fields := by
  induction fields generalizing vals pre body with
  | nil =>
    match vals with
    | [] =>
      simp only [encFields, Except.ok.injEq, Prod.mk.injEq] at henc
      rw [← henc.1]
      rfl
    | _ :: _ => simp [encFields] at henc
  | cons f fs ih =>
    match f, vals with
    | (fn, fsch, fopt, fdef), [] => simp [encFields] at henc
    | (fn, fsch, fopt, fdef), (vn, ov) :: vs =>
      simp only [encFields] at henc
      by_cases hname : fn = vn
      · rw [if_pos hname] at henc
        rcases hrec : encFields e beqFuel fs vs with e1 | ⟨pre1, body1⟩
        · simp only [hrec] at henc
          exact absurd henc (by simp)
        · simp only [hrec] at henc
          have ihlen := ih hrec
          match fdef with
          | some dv =>
            match ov with
            | none => simp at henc
            | some v =>
              simp only at henc
              by_cases hbeq : beqF beqFuel v dv
              · rw [if_pos hbeq] at henc
                simp at henc
                obtain ⟨h1, -⟩ := henc
                subst h1
                simp [countOpt, ihlen] <;> omega
              · rw [if_neg hbeq] at henc
                rcases hb : e fsch v with e1 | b
                · simp only [hb] at henc
                  exact absurd henc (by simp)
                · simp only [hb] at henc
                  simp at henc
                  obtain ⟨h1, -⟩ := henc
                  subst h1
                  simp [countOpt, ihlen] <;> omega
          | none =>
            by_cases hopt : fopt
            · subst hopt
              match ov with
              | none =>
                simp at henc
                obtain ⟨h1, -⟩ := henc
                subst h1
                simp [countOpt, ihlen] <;> omega
              | some v =>
                rcases hb : e fsch v with e1 | b
                · simp only [hb] at henc
                  simp at henc
                · simp only [hb] at henc
                  simp at henc
                  obtain ⟨h1, -⟩ := henc
                  subst h1
                  simp [countOpt, ihlen] <;> omega
            · have hoptf : fopt = false := by simpa using hopt
              subst hoptf
              match ov with
              | none => simp at henc
              | some v =>
                rcases hb : e fsch v with e1 | b
                · simp only [hb] at henc
                  simp at henc
                · simp only [hb] at henc
                  simp at henc
                  obtain ⟨h1, -⟩ := henc
                  subst h1
                  simp [countOpt, ihlen] <;> omega
      · rw [if_neg hname] at henc; simp at henc

theorem decFields_encFields {e : Schema → Value → Except Err (List Bool)}
    {d : Schema → List Bool → Except Err (Value × List Bool)} (hrt : RTrel e d)
    {beqFuel : Nat} {fields : List SeqField} {vals : List (String × Option Value)}
    {pre body : List Bool}
    (henc : encFields e beqFuel fields vals = .ok (pre, body)) :
    ∀ rest, decFields d fields pre (body ++ rest) = .ok (vals, rest) := by
  induction fields generalizing vals pre body with
  | nil =>
    intro rest
    cases vals with
    | nil =>
      simp only [encFields, Except.ok.injEq, Prod.mk.injEq] at henc
      obtain ⟨h1, h2⟩ := henc
      subst h1
      subst h2
      simp [decFields]
    | cons hd tl => simp [encFields] at henc
  | cons f fs ih =>
    intro rest
    obtain ⟨fn, fsch, fopt, fdef⟩ := f
    cases vals with
    | nil => simp [encFields] at henc
    | cons hv vs =>
      obtain ⟨vn, ov⟩ := hv
      simp only [encFields] at henc
      by_cases hname : fn = vn
      · rw [if_pos hname] at henc
        subst hname
        rcases hrec : encFields e beqFuel fs vs with e1 | ⟨pre1, body1⟩
        · simp only [hrec] at henc
          exact absurd henc (by simp)
        · simp only [hrec] at henc
          cases fdef with
          | some dv =>
            cases ov with
            | none => simp at henc
            | some v =>
              simp only at henc
              by_cases hbeq : beqF beqFuel v dv
              · rw [if_pos hbeq] at henc
                simp only [Except.ok.injEq, Prod.mk.injEq] at henc
                obtain ⟨h1, h2⟩ := henc
                subst h1
                subst h2
                have hveq : v = dv := (beq_sound beqFuel).1 v dv hbeq
                subst hveq
                simp only [decFields]
                rw [if_neg (by simp)]
                simp only [ih hrec rest]
              · rw [if_neg hbeq] at henc
                rcases hb : e fsch v with e1 | b
                · simp only [hb] at henc
                  exact absurd henc (by simp)
                · simp only [hb] at henc
                  simp only [Except.ok.injEq, Prod.mk.injEq] at henc
                  obtain ⟨h1, h2⟩ := henc
                  subst h1
                  subst h2
                  simp only [decFields]
                  rw [if_pos trivial, List.append_assoc]
                  simp only [hrt fsch v b (body1 ++ rest) hb]
                  simp only [ih hrec rest]
          | none =>
            by_cases hopt : fopt
            · subst hopt
              cases ov with
              | none =>
                simp at henc
                obtain ⟨h1, h2⟩ := henc
                subst h1
                subst h2
                simp only [decFields, if_pos trivial]
                rw [if_neg (by simp)]
                simp only [ih hrec rest]
              | some v =>
                rcases hb : e fsch v with e1 | b
                · simp only [hb] at henc
                  simp at henc
                · simp only [hb] at henc
                  simp at henc
                  obtain ⟨h1, h2⟩ := henc
                  subst h1
                  subst h2
                  simp only [decFields, if_pos trivial]
                  rw [List.append_assoc]
                  simp only [hrt fsch v b (body1 ++ rest) hb]
                  simp only [ih hrec rest]
            · have hoptf : fopt = false := by simpa using hopt
              subst hoptf
              cases ov with
              | none => simp at henc
              | some v =>
                rcases hb : e fsch v with e1 | b
                · simp only [hb] at henc
                  simp at henc
                · simp only [hb] at henc
                  simp at henc
                  obtain ⟨h1, h2⟩ := henc
                  subst h1
                  subst h2
                  simp only [decFields]
                  rw [if_neg (by simp), List.append_assoc]
                  simp only [hrt fsch v b (body1 ++ rest) hb]
                  simp only [ih hrec rest]
      · rw [if_neg hname] at henc; simp at henc

/-! ## Sequence extension fields (spec 4.3 step 4): a normally-small
count, a presence bitmap, then each present addition wrapped as an
open type.  Unknown slots (bitmap longer than the declared additions)
are skipped on decode by reading and discarding their open type. -/

def encExtFields (e : Schema → Value → Except Err (List Bool)) (beqFuel : Nat) :
    List SeqField → List (String × Option Value) → Except Err (List Bool × List Bool)
  | [], [] => .ok ([], [])
  | [], _ :: _ => .error .constraintViolation
  | _ :: _, [] => .error .constraintViolation
  | (fn, fsch, fopt, fdef) :: fs, (vn, ov) :: vs =>
    if fn = vn then
      match encExtFields e beqFuel fs vs with
      | .error e1 => .error e1
      | .ok (bm, opens) =>
        match fdef with
        | some dv =>
          (match ov with
           | none => .error .constraintViolation
           | some v =>
             if beqF beqFuel v dv then .ok (false :: bm, opens)
             else
               match e fsch v with
               | .error e1 => .error e1
               | .ok b =>
                 match encOpen b with
                 | .error e1 => .error e1
                 | .ok ob => .ok (true :: bm, ob ++ opens))
        | none =>
          if fopt then
            (match ov with
             | none => .ok (false :: bm, opens)
             | some v =>
               match e fsch v with
               | .error e1 => .error e1
               | .ok b =>
                 match encOpen b with
                 | .error e1 => .error e1
                 | .ok ob => .ok (true :: bm, ob ++ opens))
          else
            (match ov with
             | none => .error .constraintViolation
             | some v =>
               match e fsch v with
               | .error e1 => .error e1
               | .ok b =>
                 match encOpen b with
                 | .error e1 => .error e1
                 | .ok ob => .ok (true :: bm, ob ++ opens))
    else .error .constraintViolation

/-- The value of an extension-addition list when no addition is present
on the wire: defaults filled in, the rest absent. -/
def extAbsent : List SeqField → List (String × Option Value)
  | [] => []
  | (fn, _, _, fdef) :: fs => (fn, fdef) :: extAbsent fs

def decExtFields (d : Schema → List Bool → Except Err (Value × List Bool)) :
    List SeqField → List Bool → List Bool →
      Except Err (List (String × Option Value) × List Bool)
  | [], _, bs => .ok ([], bs)
  | (fn, fsch, _, fdef) :: fs, flags, bs =>
    match flags with
    | true :: flagsRest =>
      (match decOpen (d fsch) bs with
       | .error e1 => .error e1
       | .ok (v, bs1) =>
         match decExtFields d fs flagsRest bs1 with
         | .error e1 => .error e1
         | .ok (vs, bs2) => .ok ((fn, some v) :: vs, bs2))
    | false :: flagsRest =>
      (match decExtFields d fs flagsRest bs with
       | .error e1 => .error e1
       | .ok (vs, bs2) => .ok ((fn, fdef) :: vs, bs2))
    | [] =>
      (match decExtFields d fs [] bs with
       | .error e1 => .error e1
       | .ok (vs, bs2) => .ok ((fn, fdef) :: vs, bs2))

/-- Skip the open types of unknown extension slots. -/
def skipOpens : List Bool → List Bool → Except Err (List Bool)
  | [], bs => .ok bs
  | false :: r, bs => skipOpens r bs
  | true :: r, bs =>
    match decFrag dGroup8 bs with
    | .error e1 => .error e1
    | .ok (_, bs1) => skipOpens r bs1

theorem encExtFields_bm_length {e : Schema → Value → Except Err (List Bool)} {beqFuel : Nat}
    {fields : List SeqField} {vals : List (String × Option Value)}
    {bm opens : List Bool}
    (henc : encExtFields e beqFuel fields vals = .ok (bm, opens)) :
    bm.length = fields.length := by
  induction fields generalizing vals bm opens with
  | nil =>
    cases vals with
    | nil =>
      simp only [encExtFields, Except.ok.injEq, Prod.mk.injEq] at henc
      rw [← henc.1]
      rfl
    | cons hd tl => simp [encExtFields] at henc
  | cons f fs ih =>
    obtain ⟨fn, fsch, fopt, fdef⟩ := f
    cases vals with
    | nil => simp [encExtFields] at henc
    | cons hv vs =>
      obtain ⟨vn, ov⟩ := hv
      simp only [encExtFields] at henc
      by_cases hname : fn = vn
      · rw [if_pos hname] at henc
        rcases hrec : encExtFields e beqFuel fs vs with e1 | ⟨bm1, opens1⟩
        · simp only [hrec] at henc
          exact absurd henc (by simp)
        · simp only [hrec] at henc
          have ihlen := ih hrec
          cases fdef with
          | some dv =>
            cases ov with
            | none => simp at henc
            | some v =>
              simp only at henc
              by_cases hbeq : beqF beqFuel v dv
              · rw [if_pos hbeq] at henc
                simp at henc
                obtain ⟨h1, -⟩ := henc
                subst h1
                simp [ihlen]
              · rw [if_neg hbeq] at henc
                rcases hb : e fsch v with e1 | b
                · simp only [hb] at henc
                  exact absurd henc (by simp)
                · simp only [hb] at henc
                  rcases hob : encOpen b with e1 | ob
                  · simp only [hob] at henc
                    exact absurd henc (by simp)
                  · simp only [hob] at henc
                    simp at henc
                    obtain ⟨h1, -⟩ := henc
                    subst h1
                    simp [ihlen]
          | none =>
            by_cases hopt : fopt
            · subst hopt
              cases ov with
              | none =>
                simp at henc
                obtain ⟨h1, -⟩ := henc
                subst h1
                simp [ihlen]
              | some v =>
                rcases hb : e fsch v with e1 | b
                · simp only [hb] at henc
                  simp at henc
                · simp only [hb] at henc
                  rcases hob : encOpen b with e1 | ob
                  · simp only [hob] at henc
                    simp at henc
                  · simp only [hob] at henc
                    simp at henc
                    obtain ⟨h1, -⟩ := henc
                    subst h1
                    simp [ihlen]
            · have hoptf : fopt = false := by simpa using hopt
              subst hoptf
              cases ov with
              | none => simp at henc
              | some v =>
                rcases hb : e fsch v with e1 | b
                · simp only [hb] at henc
                  simp at henc
                · simp only [hb] at henc
                  rcases hob : encOpen b with e1 | ob
                  · simp only [hob] at henc
                    simp at henc
                  · simp only [hob] at henc
                    simp at henc
                    obtain ⟨h1, -⟩ := henc
                    subst h1
                    simp [ihlen]
      · rw [if_neg hname] at henc; simp at henc

theorem encExtFields_absent {e : Schema → Value → Except Err (List Bool)} {beqFuel : Nat}
    {fields : List SeqField} {vals : List (String × Option Value)}
    {bm opens : List Bool}
    (henc : encExtFields e beqFuel fields vals = .ok (bm, opens))
    (hnone : bm.any id = false) :
    vals = extAbsent fields ∧ opens = [] := by
  induction fields generalizing vals bm opens with
  | nil =>
    cases vals with
    | nil =>
      simp only [encExtFields, Except.ok.injEq, Prod.mk.injEq] at henc
      exact ⟨rfl, henc.2.symm⟩
    | cons hd tl => simp [encExtFields] at henc
  | cons f fs ih =>
    obtain ⟨fn, fsch, fopt, fdef⟩ := f
    cases vals with
    | nil => simp [encExtFields] at henc
    | cons hv vs =>
      obtain ⟨vn, ov⟩ := hv
      simp only [encExtFields] at henc
      by_cases hname : fn = vn
      · rw [if_pos hname] at henc
        subst hname
        rcases hrec : encExtFields e beqFuel fs vs with e1 | ⟨bm1, opens1⟩
        · simp only [hrec] at henc
          exact absurd henc (by simp)
        · simp only [hrec] at henc
          cases fdef with
          | some dv =>
            cases ov with
            | none => simp at henc
            | some v =>
              simp only at henc
              by_cases hbeq : beqF beqFuel v dv
              · rw [if_pos hbeq] at henc
                simp at henc
                obtain ⟨h1, h2⟩ := henc
                subst h1
                subst h2
                have hveq : v = dv := (beq_sound beqFuel).1 v dv hbeq
                subst hveq
                simp at hnone
                obtain ⟨ih1, ih2⟩ := ih hrec (by simpa using hnone)
                subst ih1
                exact ⟨by simp [extAbsent], ih2⟩
              · rw [if_neg hbeq] at henc
                rcases hb : e fsch v with e1 | b
                · simp only [hb] at henc
                  exact absurd henc (by simp)
                · simp only [hb] at henc
                  rcases hob : encOpen b with e1 | ob
                  · simp only [hob] at henc
                    exact absurd henc (by simp)
                  · simp only [hob] at henc
                    simp at henc
                    obtain ⟨h1, -⟩ := henc
                    subst h1
                    simp at hnone
          | none =>
            by_cases hopt : fopt
            · subst hopt
              cases ov with
              | none =>
                simp at henc
                obtain ⟨h1, h2⟩ := henc
                subst h1
                subst h2
                simp at hnone
                obtain ⟨ih1, ih2⟩ := ih hrec (by simpa using hnone)
                subst ih1
                exact ⟨by simp [extAbsent], ih2⟩
              | some v =>
                rcases hb : e fsch v with e1 | b
                · simp only [hb] at henc
                  simp at henc
                · simp only [hb] at henc
                  rcases hob : encOpen b with e1 | ob
                  · simp only [hob] at henc
                    simp at henc
                  · simp only [hob] at henc
                    simp at henc
                    obtain ⟨h1, -⟩ := henc
                    subst h1
                    simp at hnone
            · have hoptf : fopt = false := by simpa using hopt
              subst hoptf
              cases ov with
              | none => simp at henc
              | some v =>
                rcases hb : e fsch v with e1 | b
                · simp only [hb] at henc
                  simp at henc
                · simp only [hb] at henc
                  rcases hob : encOpen b with e1 | ob
                  · simp only [hob] at henc
                    simp at henc
                  · simp only [hob] at henc
                    simp at henc
                    obtain ⟨h1, -⟩ := henc
                    subst h1
                    simp at hnone
      · rw [if_neg hname] at henc; simp at henc

theorem decExtFields_encExtFields {e : Schema → Value → Except Err (List Bool)}
    {d : Schema → List Bool → Except Err (Value × List Bool)} (hrt : RTrel e d)
    {beqFuel : Nat} {fields : List SeqField} {vals : List (String × Option Value)}
    {bm opens : List Bool}
    (henc : encExtFields e beqFuel fields vals = .ok (bm, opens)) :
    ∀ rest, decExtFields d fields bm (opens ++ rest) = .ok (vals, rest) := by
  induction fields generalizing vals bm opens with
  | nil =>
    intro rest
    cases vals with
    | nil =>
      simp only [encExtFields, Except.ok.injEq, Prod.mk.injEq] at henc
      obtain ⟨h1, h2⟩ := henc
      subst h1
      subst h2
      simp [decExtFields]
    | cons hd tl => simp [encExtFields] at henc
  | cons f fs ih =>
    intro rest
    obtain ⟨fn, fsch, fopt, fdef⟩ := f
    cases vals with
    | nil => simp [encExtFields] at henc
    | cons hv vs =>
      obtain ⟨vn, ov⟩ := hv
      simp only [encExtFields] at henc
      by_cases hname : fn = vn
      · rw [if_pos hname] at henc
        subst hname
        rcases hrec : encExtFields e beqFuel fs vs with e1 | ⟨bm1, opens1⟩
        · simp only [hrec] at henc
          exact absurd henc (by simp)
        · simp only [hrec] at henc
          cases fdef with
          | some dv =>
            cases ov with
            | none => simp at henc
            | some v =>
              simp only at henc
              by_cases hbeq : beqF beqFuel v dv
              · rw [if_pos hbeq] at henc
                simp at henc
                obtain ⟨h1, h2⟩ := henc
                subst h1
                subst h2
                have hveq : v = dv := (beq_sound beqFuel).1 v dv hbeq
                subst hveq
                simp only [decExtFields]
                simp only [ih hrec rest]
              · rw [if_neg hbeq] at henc
                rcases hb : e fsch v with e1 | b
                · simp only [hb] at henc
                  exact absurd henc (by simp)
                · simp only [hb] at henc
                  rcases hob : encOpen b with e1 | ob
                  · simp only [hob] at henc
                    exact absurd henc (by simp)
                  · simp only [hob] at henc
                    simp at henc
                    obtain ⟨h1, h2⟩ := henc
                    subst h1
                    subst h2
                    simp only [decExtFields]
                    rw [List.append_assoc]
                    have hopen := decOpen_encOpen
                      (fun r => hrt fsch v b r hb) hob (opens1 ++ rest)
                    simp only [hopen]
                    simp only [ih hrec rest]
          | none =>
            by_cases hopt : fopt
            · subst hopt
              cases ov with
              | none =>
                simp at henc
                obtain ⟨h1, h2⟩ := henc
                subst h1
                subst h2
                simp only [decExtFields]
                simp only [ih hrec rest]
              | some v =>
                rcases hb : e fsch v with e1 | b
                · simp only [hb] at henc
                  simp at henc
                · simp only [hb] at henc
                  rcases hob : encOpen b with e1 | ob
                  · simp only [hob] at henc
                    simp at henc
                  · simp only [hob] at henc
                    simp at henc
                    obtain ⟨h1, h2⟩ := henc
                    subst h1
                    subst h2
                    simp only [decExtFields]
                    rw [List.append_assoc]
                    have hopen := decOpen_encOpen
                      (fun r => hrt fsch v b r hb) hob (opens1 ++ rest)
                    simp only [hopen]
                    simp only [ih hrec rest]
            · have hoptf : fopt = false := by simpa using hopt
              subst hoptf
              cases ov with
              | none => simp at henc
              | some v =>
                rcases hb : e fsch v with e1 | b
                · simp only [hb] at henc
                  simp at henc
                · simp only [hb] at henc
                  rcases hob : encOpen b with e1 | ob
                  · simp only [hob] at henc
                    simp at henc
                  · simp only [hob] at henc
                    simp at henc
                    obtain ⟨h1, h2⟩ := henc
                    subst h1
                    subst h2
                    simp only [decExtFields]
                    rw [List.append_assoc]
                    have hopen := decOpen_encOpen
                      (fun r => hrt fsch v b r hb) hob (opens1 ++ rest)
                    simp only [hopen]
                    simp only [ih hrec rest]
      · rw [if_neg hname] at henc; simp at henc

theorem decExtFields_extAbsent (d : Schema → List Bool → Except Err (Value × List Bool))
    (fields : List SeqField) (bs : List Bool) :
    decExtFields d fields [] bs = .ok (extAbsent fields, bs) := by
  induction fields with
  | nil => simp [decExtFields, extAbsent]
  | cons f fs ih =>
    obtain ⟨fn, fsch, fopt, fdef⟩ := f
    simp only [decExtFields, extAbsent]
    simp only [ih]

/-! ## The codec interpreter

`encodeStep`/`decodeStep` implement one layer of the PER-unaligned
codecs (spec 4.2-4.5), delegating to the child encoder/decoder `e`/`d`
for nested types; `encodeF`/`decodeF` tie the knot with a fuel
parameter decremented at every nesting level (needed because `$ref`
chains through `buildAll` registries may be cyclic). -/

def decChoiceRoot (d : Schema → List Bool → Except Err (Value × List Bool))
    (alts : List (String × Schema)) (bs : List Bool) : Except Err (Value × List Bool) :=
  match readBitsN (bitlen (alts.length - 1)) bs with
  | .error e1 => .error e1
  | .ok (i, bs1) =>
    match alts[i]? with
    | some (nm, sch) =>
      (match d sch bs1 with
       | .error e1 => .error e1
       | .ok (v, bs2) => .ok (.choice nm v, bs2))
    | none => .error .wireFormat

def encodeStep (e : Schema → Value → Except Err (List Bool)) (beqFuel : Nat)
    (env : Registry) : Schema → Value → Except Err (List Bool)
  | .bool, .bool b => .ok [b]
  | .int mn mx ext, .int i => encInt mn mx ext i
  | .enum roots extVals, .enum name => encEnum roots extVals name
  | .bitstr size, .bitstr bits => encWithSize size (bits.map (fun b => [b]))
  | .octets size, .octets bytes =>
    if bytes.all (· < 256) then encWithSize size (bytes.map (natToBits · 8))
    else .error .constraintViolation
  | .charstr .utf8 size _, .str chars =>
    if chars.all (· ≤ 0x10FFFF) then
      encWithSize size (((chars.map utf8EncChar).flatten).map (natToBits · 8))
    else .error .constraintViolation
  | .charstr .ia5 size alpha, .str chars =>
    (match exceptMap (encChar .ia5 alpha) chars with
     | .error e1 => .error e1
     | .ok chunks => encWithSize size chunks)
  | .charstr .visible size alpha, .str chars =>
    (match exceptMap (encChar .visible alpha) chars with
     | .error e1 => .error e1
     | .ok chunks => encWithSize size chunks)
  | .oid, .oid arcs => encOid arcs
  | .null, .null => .ok []
  | .seq fields extF, .seq vals =>
    (match extF with
     | none =>
       if vals.length = fields.length then
         match encFields e beqFuel fields vals with
         | .error e1 => .error e1
         | .ok (pre, body) => .ok (pre ++ body)
       else .error .constraintViolation
     | some efs =>
       match encFields e beqFuel fields (vals.take fields.length) with
       | .error e1 => .error e1
       | .ok (pre, body) =>
         match encExtFields e beqFuel efs (vals.drop fields.length) with
         | .error e1 => .error e1
         | .ok (bm, opens) =>
           if bm.any id then
             match encNS (efs.length - 1) with
             | .error e1 => .error e1
             | .ok ns => .ok (true :: (pre ++ body ++ ns ++ bm ++ opens))
           else .ok (false :: (pre ++ body)))
  | .seqOf item size, .seqOf items =>
    (match exceptMap (e item) items with
     | .error e1 => .error e1
     | .ok chunks => encWithSize size chunks)
  | .choice alts extAlts, .choice key v =>
    (match lookupAlt key alts with
     | some p =>
       (match e p.2 v with
        | .error e1 => .error e1
        | .ok b =>
          match extAlts with
          | none => .ok (natToBits p.1 (bitlen (alts.length - 1)) ++ b)
          | some _ => .ok (false :: natToBits p.1 (bitlen (alts.length - 1)) ++ b))
     | none =>
       match extAlts with
       | none => .error .constraintViolation
       | some ealts =>
         match lookupAlt key ealts with
         | some p =>
           (match e p.2 v with
            | .error e1 => .error e1
            | .ok b =>
              match encOpen b with
              | .error e1 => .error e1
              | .ok ob =>
                match encNS p.1 with
                | .error e1 => .error e1
                | .ok ns => .ok (true :: (ns ++ ob)))
         | none => .error .constraintViolation)
  | .ref name, v =>
    (match lookupReg env name with
     | some s1 => e s1 v
     | none => .error (.unresolvedRef name))
  | _, _ => .error .constraintViolation

def decodeStep (d : Schema → List Bool → Except Err (Value × List Bool))
    (env : Registry) : Schema → List Bool → Except Err (Value × List Bool)
  | .bool, bs =>
    (match readBit1 bs with
     | .error e1 => .error e1
     | .ok (b, bs1) => .ok (.bool b, bs1))
  | .int mn mx ext, bs => (decInt mn mx ext bs).map (fun p => (.int p.1, p.2))
  | .enum roots extVals, bs => (decEnum roots extVals bs).map (fun p => (.enum p.1, p.2))
  | .bitstr size, bs => (decSize readBit1 size bs).map (fun p => (.bitstr p.1, p.2))
  | .octets size, bs => (decSize (readBitsN 8) size bs).map (fun p => (.octets p.1, p.2))
  | .charstr .utf8 size _, bs =>
    (match decSize (readBitsN 8) size bs with
     | .error e1 => .error e1
     | .ok (bytes, bs1) =>
       match utf8DecAll bytes with
       | .error e1 => .error e1
       | .ok chars => .ok (.str chars, bs1))
  | .charstr .ia5 size alpha, bs =>
    (decSize (decChar .ia5 alpha) size bs).map (fun p => (.str p.1, p.2))
  | .charstr .visible size alpha, bs =>
    (decSize (decChar .visible alpha) size bs).map (fun p => (.str p.1, p.2))
  | .oid, bs => (decOid bs).map (fun p => (.oid p.1, p.2))
  | .null, bs => .ok (.null, bs)
  | .seq fields extF, bs =>
    (match extF with
     | none =>
       match readBitList (countOpt fields) bs with
       | .error e1 => .error e1
       | .ok (preBits, bs1) =>
         match decFields d fields preBits bs1 with
         | .error e1 => .error e1
         | .ok (vals, bs2) => .ok (.seq vals, bs2)
     | some efs =>
       match bs with
       | [] => .error .underrun
       | extBit :: bs0 =>
         match readBitList (countOpt fields) bs0 with
         | .error e1 => .error e1
         | .ok (preBits, bs1) =>
           match decFields d fields preBits bs1 with
           | .error e1 => .error e1
           | .ok (vals, bs2) =>
             if extBit then
               match decNS bs2 with
               | .error e1 => .error e1
               | .ok (nsm1, bs3) =>
                 match readBitList (nsm1 + 1) bs3 with
                 | .error e1 => .error e1
                 | .ok (flags, bs4) =>
                   match decExtFields d efs (flags.take efs.length) bs4 with
                   | .error e1 => .error e1
                   | .ok (evals, bs5) =>
                     match skipOpens (flags.drop efs.length) bs5 with
                     | .error e1 => .error e1
                     | .ok bs6 => .ok (.seq (vals ++ evals), bs6)
             else .ok (.seq (vals ++ extAbsent efs), bs2))
  | .seqOf item size, bs => (decSize (d item) size bs).map (fun p => (.seqOf p.1, p.2))
  | .choice alts extAlts, bs =>
    (match extAlts with
     | none => decChoiceRoot d alts bs
     | some ealts =>
       match bs with
       | [] => .error .underrun
       | false :: bs1 => decChoiceRoot d alts bs1
       | true :: bs1 =>
         match decNS bs1 with
         | .error e1 => .error e1
         | .ok (j, bs2) =>
           match ealts[j]? with
           | some p =>
             (match decOpen (d p.2) bs2 with
              | .error e1 => .error e1
              | .ok (v, bs3) => .ok (.choice p.1 v, bs3))
           | none => .error .wireFormat)
  | .ref name, bs =>
    (match lookupReg env name with
     | some s1 => d s1 bs
     | none => .error (.unresolvedRef name))

/-- PER-unaligned encoder over the schema interpreter: consumes a
value, yields the bits that would be appended to the buffer. -/
def encodeF : Nat → Registry → Schema → Value → Except Err (List Bool)
  | 0, _, _, _ => .error .fuelExhausted
  | n + 1, env, s, v => encodeStep (encodeF n env) n env s v

/-- PER-unaligned decoder over the schema interpreter: consumes a
prefix of the remaining bits, yields the value and the tail. -/
def decodeF : Nat → Registry → Schema → List Bool → Except Err (Value × List Bool)
  | 0, _, _, _ => .error .fuelExhausted
  | n + 1, env, s, bs => decodeStep (decodeF n env) env s bs

theorem exceptMap_ok_forall₂ {g : α → Except Err β} {xs : List α} {ys : List β}
    (h : exceptMap g xs = .ok ys) :
    List.Forall₂ (fun y x => g x = .ok y) ys xs := by
  induction xs generalizing ys with
  | nil =>
    simp only [exceptMap, Except.ok.injEq] at h
    subst h
    exact List.Forall₂.nil
  | cons x xs ih =>
    simp only [exceptMap] at h
    rcases hx : g x with e1 | y
    · rw [hx] at h; simp [bind, Except.bind] at h
    · rw [hx] at h
      simp only [bind, Except.bind] at h
      rcases hxs : exceptMap g xs with e1 | ys1
      · rw [hxs] at h; simp at h
      · rw [hxs] at h
        simp only [Except.ok.injEq] at h
        subst h
        exact List.Forall₂.cons hx (ih hxs)

theorem forall₂_bits (l : List Bool) :
    List.Forall₂ (ChunkRT readBit1) (l.map (fun b => [b])) l := by
  induction l with
  | nil => simp
  | cons x xs ih => exact List.Forall₂.cons (fun r => rfl) ih

theorem utf8_flatten_lt_256 {chars : List Nat} (hall : ∀ c ∈ chars, c ≤ 0x10FFFF) :
    ∀ b ∈ (chars.map utf8EncChar).flatten, b < 256 := by
  intro b hb
  rw [List.mem_flatten] at hb
  obtain ⟨l, hl, hbl⟩ := hb
  rw [List.mem_map] at hl
  obtain ⟨c, hc, hcl⟩ := hl
  subst hcl
  exact utf8EncChar_lt_256 c (hall c hc) b hbl

theorem decodeStep_encodeStep
    {e : Schema → Value → Except Err (List Bool)}
    {d : Schema → List Bool → Except Err (Value × List Bool)}
    (hrt : RTrel e d) (beqFuel : Nat) (env : Registry)
    (s : Schema) (v : Value) (bits : List Bool)
    (henc : encodeStep e beqFuel env s v = .ok bits) (rest : List Bool) :
    decodeStep d env s (bits ++ rest) = .ok (v, rest) := by
  cases s with
  | bool =>
    cases v
    case bool b =>
      simp only [encodeStep, Except.ok.injEq] at henc
      subst henc
      simp [decodeStep, readBit1]
    all_goals simp [encodeStep] at henc
  | int mn mx ext =>
    cases v
    case int i =>
      simp only [encodeStep] at henc
      simp only [decodeStep]
      rw [decInt_encInt henc rest]
      rfl
    all_goals simp [encodeStep] at henc
  | enum roots extVals =>
    cases v
    case enum nm =>
      simp only [encodeStep] at henc
      simp only [decodeStep]
      rw [decEnum_encEnum henc rest]
      rfl
    all_goals simp [encodeStep] at henc
  | bitstr size =>
    cases v
    case bitstr bv =>
      simp only [encodeStep] at henc
      simp only [decodeStep]
      rw [decSize_encWithSize (forall₂_bits bv) henc rest]
      rfl
    all_goals simp [encodeStep] at henc
  | octets size =>
    cases v
    case octets bytes =>
      simp only [encodeStep] at henc
      by_cases hall : (bytes.all fun b => b < 256) = true
      · rw [if_pos hall] at henc
        simp only [decodeStep]
        rw [decSize_encWithSize (forall₂_bytes (by simpa using hall)) henc rest]
        rfl
      · rw [if_neg hall] at henc
        exact absurd henc (by simp)
    all_goals simp [encodeStep] at henc
  | charstr kind size alpha =>
    cases kind with
    | utf8 =>
      cases v
      case str chars =>
        simp only [encodeStep] at henc
        by_cases hall : (chars.all fun c => c ≤ 0x10FFFF) = true
        · rw [if_pos hall] at henc
          have hall2 : ∀ c ∈ chars, c ≤ 0x10FFFF := by simpa using hall
          simp only [decodeStep]
          rw [decSize_encWithSize (forall₂_bytes (utf8_flatten_lt_256 hall2)) henc rest]
          simp only [utf8DecAll_enc chars hall2]
        · rw [if_neg hall] at henc
          exact absurd henc (by simp)
      all_goals simp [encodeStep] at henc
    | ia5 =>
      cases v
      case str chars =>
        simp only [encodeStep] at henc
        rcases hmap : exceptMap (encChar .ia5 alpha) chars with e1 | chunks
        · simp [hmap] at henc
        · simp only [hmap] at henc
          have hall : List.Forall₂ (ChunkRT (decChar .ia5 alpha)) chunks chars :=
            List.Forall₂.imp (fun _ _ hcx => chunkRT_char hcx) (exceptMap_ok_forall₂ hmap)
          simp only [decodeStep]
          rw [decSize_encWithSize hall henc rest]
          rfl
      all_goals simp [encodeStep] at henc
    | visible =>
      cases v
      case str chars =>
        simp only [encodeStep] at henc
        rcases hmap : exceptMap (encChar .visible alpha) chars with e1 | chunks
        · simp [hmap] at henc
        · simp only [hmap] at henc
          have hall : List.Forall₂ (ChunkRT (decChar .visible alpha)) chunks chars :=
            List.Forall₂.imp (fun _ _ hcx => chunkRT_char hcx) (exceptMap_ok_forall₂ hmap)
          simp only [decodeStep]
          rw [decSize_encWithSize hall henc rest]
          rfl
      all_goals simp [encodeStep] at henc
  | oid =>
    cases v
    case oid arcs =>
      simp only [encodeStep] at henc
      simp only [decodeStep]
      rw [decOid_encOid henc rest]
      rfl
    all_goals simp [encodeStep] at henc
  | null =>
    cases v
    case null =>
      simp only [encodeStep, Except.ok.injEq] at henc
      subst henc
      simp [decodeStep]
    all_goals simp [encodeStep] at henc
  | seq fields extF =>
    cases v
    case seq vals =>
      cases extF with
      | none =>
        simp only [encodeStep] at henc
        by_cases hlen : vals.length = fields.length
        · rw [if_pos hlen] at henc
          rcases hf : encFields e beqFuel fields vals with e1 | pb
          · simp [hf] at henc
          · obtain ⟨pre, body⟩ := pb
            simp only [hf, Except.ok.injEq] at henc
            subst henc
            have hpre := encFields_pre_length hf
            simp only [decodeStep, List.append_assoc, ← hpre,
              readBitList_exact pre (body ++ rest),
              decFields_encFields hrt hf rest]
        · rw [if_neg hlen] at henc
          exact absurd henc (by simp)
      | some efs =>
        simp only [encodeStep] at henc
        rcases hf : encFields e beqFuel fields (vals.take fields.length) with e1 | pb
        · simp [hf] at henc
        · obtain ⟨pre, body⟩ := pb
          simp only [hf] at henc
          rcases hx : encExtFields e beqFuel efs (vals.drop fields.length) with e1 | bo
          · simp [hx] at henc
          · obtain ⟨bm, opens⟩ := bo
            simp only [hx] at henc
            have hpre := encFields_pre_length hf
            have hbm := encExtFields_bm_length hx
            by_cases hany : bm.any id = true
            · rw [if_pos hany] at henc
              rcases hns : encNS (efs.length - 1) with e1 | ns
              · simp [hns] at henc
              · simp only [hns, Except.ok.injEq] at henc
                subst henc
                have hefs_pos : 0 < efs.length := by
                  by_contra h0
                  have hz : bm.length = 0 := by omega
                  rw [List.eq_nil_of_length_eq_zero hz] at hany
                  simp at hany
                have hsucc : efs.length - 1 + 1 = efs.length := by omega
                simp only [decodeStep, List.cons_append, List.append_assoc, ← hpre,
                  readBitList_exact pre (body ++ (ns ++ (bm ++ (opens ++ rest)))),
                  decFields_encFields hrt hf (ns ++ (bm ++ (opens ++ rest)))]
                rw [if_pos trivial]
                simp only [decNS_encNS hns (bm ++ (opens ++ rest))]
                rw [hsucc, ← hbm]
                simp only [readBitList_exact bm (opens ++ rest)]
                have htk : List.take bm.length bm = bm := by simp
                have hdp : List.drop bm.length bm = ([] : List Bool) := by simp
                simp only [htk, hdp, decExtFields_encExtFields hrt hx rest, skipOpens]
                rw [List.take_append_drop]
            · rw [if_neg hany] at henc
              simp only [Except.ok.injEq] at henc
              subst henc
              have hall_false : bm.any id = false := by
                cases hraw : bm.any id with
                | false => rfl
                | true => exact absurd hraw hany
              obtain ⟨hvals, _⟩ := encExtFields_absent hx hall_false
              simp only [decodeStep, List.cons_append, List.append_assoc, ← hpre,
                readBitList_exact pre (body ++ rest),
                decFields_encFields hrt hf rest,
                Bool.false_eq_true, if_false]
              rw [← hvals, List.take_append_drop]
    all_goals
      cases extF <;> simp [encodeStep] at henc
  | seqOf item size =>
    cases v
    case seqOf items =>
      simp only [encodeStep] at henc
      rcases hmap : exceptMap (e item) items with e1 | chunks
      · simp [hmap] at henc
      · simp only [hmap] at henc
        have hall : List.Forall₂ (ChunkRT (d item)) chunks items :=
          List.Forall₂.imp (fun _ _ hcx r => hrt item _ _ r hcx) (exceptMap_ok_forall₂ hmap)
        simp only [decodeStep]
        rw [decSize_encWithSize hall henc rest]
        rfl
    all_goals simp [encodeStep] at henc
  | choice alts extAlts =>
    cases v
    case choice key w =>
      simp only [encodeStep] at henc
      rcases hla : lookupAlt key alts with _ | p
      · simp only [hla] at henc
        cases extAlts with
        | none => exact absurd henc (by simp)
        | some ealts =>
          rcases hle : lookupAlt key ealts with _ | q
          · simp [hle] at henc
          · obtain ⟨j, sch⟩ := q
            simp only [hle] at henc
            rcases hb : e sch w with e1 | b
            · simp [hb] at henc
            · simp only [hb] at henc
              rcases hop : encOpen b with e1 | ob
              · simp [hop] at henc
              · simp only [hop] at henc
                rcases hns : encNS j with e1 | ns
                · simp [hns] at henc
                · simp only [hns, Except.ok.injEq] at henc
                  subst henc
                  simp only [decodeStep, List.cons_append, List.append_assoc,
                    decNS_encNS hns (ob ++ rest),
                    lookupAlt_getElem? hle,
                    decOpen_encOpen (fun r => hrt sch w b r hb) hop rest]
      · obtain ⟨i, sch⟩ := p
        simp only [hla] at henc
        rcases hb : e sch w with e1 | b
        · simp [hb] at henc
        · simp only [hb] at henc
          have hi := lookupAlt_lt_length hla
          cases extAlts with
          | none =>
            simp only [Except.ok.injEq] at henc
            subst henc
            simp only [decodeStep, decChoiceRoot, List.append_assoc]
            rw [readBitsN_natToBits i (bitlen (alts.length - 1)) (b ++ rest)
              (le_lt_two_pow_bitlen (by omega))]
            simp only [lookupAlt_getElem? hla, hrt sch w b rest hb]
          | some ealts =>
            simp only [Except.ok.injEq] at henc
            subst henc
            simp only [decodeStep, List.cons_append, decChoiceRoot, List.append_assoc]
            rw [readBitsN_natToBits i (bitlen (alts.length - 1)) (b ++ rest)
              (le_lt_two_pow_bitlen (by omega))]
            simp only [lookupAlt_getElem? hla, hrt sch w b rest hb]
    all_goals simp [encodeStep] at henc
  | ref name =>
    simp only [encodeStep] at henc
    rcases hreg : lookupReg env name with _ | s1
    · simp [hreg] at henc
    · simp only [hreg] at henc
      simp only [decodeStep, hreg]
      exact hrt s1 v bits rest henc

theorem decodeF_encodeF (fuel : Nat) (env : Registry) :
    RTrel (encodeF fuel env) (decodeF fuel env) := by
  induction fuel with
  | zero =>
    intro s v bits rest henc
    simp [encodeF] at henc
  | succ n ih =>
    intro s v bits rest henc
    exact decodeStep_encodeStep ih n env s v bits henc rest

/-! ## Byte-level entry points (spec 4.1 `toBytes`/`fromBytes`, 4.6
`encode`/`decode`): the encoder's bit stream is zero-padded to a whole
number of bytes; the decoder turns the input bytes back into a bit
stream and ignores bits left over after the value. -/

/-- Pack a bit stream into bytes, zero-padding the final byte. -/
def bytesOfBits (bits : List Bool) : List Nat :=
  (group8 (padTo8 bits)).map bitsToNat

/-- Unpack bytes into their bit stream, most-significant bit first. -/
def bitsOfBytes (bytes : List Nat) : List Bool :=
  (bytes.map (natToBits · 8)).flatten

/-- Top-level encode: schema-driven PER-unaligned encoding to bytes. -/
def encode (fuel : Nat) (env : Registry) (s : Schema) (v : Value) :
    Except Err (List Nat) :=
  (encodeF fuel env s v).map bytesOfBits

/-- Top-level decode: schema-driven PER-unaligned decoding from bytes;
padding bits after the value are ignored. -/
def decode (fuel : Nat) (env : Registry) (s : Schema) (bytes : List Nat) :
    Except Err Value :=
  match decodeF fuel env s (bitsOfBytes bytes) with
  | .error e => .error e
  | .ok (v, _) => .ok v

theorem bitsToNat_lt (bs : List Bool) : bitsToNat bs < 2 ^ bs.length := by
  induction bs with
  | nil => simp [bitsToNat]
  | cons b t ih =>
    rw [bitsToNat_cons]
    simp only [List.length_cons, pow_succ]
    rcases b with _ | _ <;> simp <;> omega

theorem bitsToNat_inj : ∀ {xs ys : List Bool}, xs.length = ys.length →
    bitsToNat xs = bitsToNat ys → xs = ys := by
  intro xs
  induction xs with
  | nil =>
    intro ys hlen _
    cases ys with
    | nil => rfl
    | cons y t => simp at hlen
  | cons x tx ih =>
    intro ys hlen heq
    cases ys with
    | nil => simp at hlen
    | cons y ty =>
      simp only [List.length_cons, Nat.add_right_cancel_iff] at hlen
      rw [bitsToNat_cons, bitsToNat_cons, hlen] at heq
      have hx := bitsToNat_lt tx
      have hy := bitsToNat_lt ty
      rw [hlen] at hx
      have hxy : x = y ∧ bitsToNat tx = bitsToNat ty := by
        rcases x with _ | _ <;> rcases y with _ | _ <;> simp at heq ⊢ <;> omega
      rw [hxy.1, ih hlen hxy.2]

theorem natToBits_bitsToNat (g : List Bool) : natToBits (bitsToNat g) g.length = g := by
  apply bitsToNat_inj (by simp [natToBits_length])
  rw [bitsToNat_natToBits, Nat.mod_eq_of_lt (bitsToNat_lt g)]

theorem bitsOfBytes_bytesOfBits (bits : List Bool) :
    bitsOfBytes (bytesOfBits bits) = padTo8 bits := by
  obtain ⟨hall8, hflat⟩ := group8Aux_len8 ((padTo8 bits).length + 1) (padTo8 bits)
    (padTo8_mod bits) (by omega)
  unfold bitsOfBytes bytesOfBits
  rw [List.map_map]
  have hmap : (group8 (padTo8 bits)).map ((fun b => natToBits b 8) ∘ bitsToNat)
      = group8 (padTo8 bits) := by
    have h1 : (group8 (padTo8 bits)).map ((fun b => natToBits b 8) ∘ bitsToNat)
        = (group8 (padTo8 bits)).map id := by
      apply List.map_congr_left
      intro g hg
      have h8 := hall8 g hg
      show natToBits (bitsToNat g) 8 = id g
      rw [← h8]
      exact natToBits_bitsToNat g
    rw [h1, List.map_id]
  rw [hmap]
  exact hflat

/-- C3: for every codec (any schema interpreted over any registry,
including recursive `buildAll`-style registries, at any fuel) and
every value the encoder accepts — acceptance is exactly "v satisfies
c's constraints", since the encoder validates every constraint —
decoding the produced bytes yields the value back exactly:
integers, bit strings, octet strings, character strings, OIDs,
sequences (absent optionals stay absent as `none`, default-valued
fields come back equal to the supplied value) and choices. -/
theorem c3_round_trip (fuel : Nat) (env : Registry) (s : Schema) (v : Value)
    (bytes : List Nat) (henc : encode fuel env s v = .ok bytes) :
    decode fuel env s bytes = .ok v := by
  unfold encode at henc
  rcases hbits : encodeF fuel env s v with e1 | bits
  · rw [hbits] at henc
    simp [Except.map] at henc
  · rw [hbits] at henc
    simp only [Except.map, Except.ok.injEq] at henc
    subst henc
    unfold decode
    rw [bitsOfBytes_bytesOfBits]
    show (match decodeF fuel env s (bits ++ List.replicate ((8 - bits.length % 8) % 8) false) with
      | Except.error e => Except.error e
      | Except.ok (v, _) => Except.ok v) = Except.ok v
    rw [decodeF_encodeF fuel env s v bits (List.replicate ((8 - bits.length % 8) % 8) false) hbits]

/-- Witness for C3 at a concrete codec and value. -/
theorem c3_round_trip_witness :
    encode 1 [] Schema.bool (Value.bool true) = .ok [128] ∧
    decode 1 [] Schema.bool [128] = .ok (Value.bool true) :=
  ⟨rfl, c3_round_trip 1 [] Schema.bool (Value.bool true) [128] rfl⟩

/-! ## Concrete schemas from the test suite

Modelled from the spec: the ASN.1 text-to-schema pipeline
(`parseAsn1Module` / `convertModuleToSchemaNodes`, absent from `src/`)
turns the Intercode module of the end-to-end tests into schema nodes
with type references resolved inline; the schemas below are those
nodes written out directly, following the module text quoted in the
test file and the spec's description of the conversion. -/

/-- `RetailChannelData ::= ENUMERATED { smsTicket(0), ...,
ticketVendingMachine(6), ... }` (extensible, no extension values). -/
def RetailChannelData : Schema :=
  .enum ["smsTicket", "mobileApplication", "webSite", "ticketOffice",
         "depositaryTerminal", "onBoardTerminal", "ticketVendingMachine"] (some [])

/-- `ProductRetailerData ::= SEQUENCE { ... all OPTIONAL ..., ... }`. -/
def ProductRetailerData : Schema :=
  .seq [("retailChannel", RetailChannelData, true, none),
        ("retailGeneratorId", .int (some 0) (some 255) false, true, none),
        ("retailServerId", .int (some 0) (some 255) false, true, none),
        ("retailerId", .int (some 0) (some 4095) false, true, none),
        ("retailPointId", .int none none false, true, none)] (some [])

/-- `IntercodeIssuingData ::= SEQUENCE { intercodeVersion INTEGER (0..7),
intercodeInstanciation INTEGER (0..7), networkId OCTET STRING (SIZE (3)),
productRetailer ProductRetailerData OPTIONAL, ... }`. -/
def IntercodeIssuingData : Schema :=
  .seq [("intercodeVersion", .int (some 0) (some 7) false, false, none),
        ("intercodeInstanciation", .int (some 0) (some 7) false, false, none),
        ("networkId", .octets (.fixed 3), false, none),
        ("productRetailer", ProductRetailerData, true, none)] (some [])

/-- `IntercodeDynamicData ::= SEQUENCE { dynamicContentDay INTEGER (-1..1070)
DEFAULT 0, dynamicContentTime INTEGER (0..86399) OPTIONAL,
dynamicContentUTCOffset INTEGER (-60..60) OPTIONAL,
dynamicContentDuration INTEGER (0..86399) OPTIONAL, ... }`. -/
def IntercodeDynamicData : Schema :=
  .seq [("dynamicContentDay", .int (some (-1)) (some 1070) false, false, some (.int 0)),
        ("dynamicContentTime", .int (some 0) (some 86399) false, true, none),
        ("dynamicContentUTCOffset", .int (some (-60)) (some 60) false, true, none),
        ("dynamicContentDuration", .int (some 0) (some 86399) false, true, none)] (some [])

/-- The Intercode spec F.3.1 sample value from the end-to-end test. -/
def issuingValue : Value :=
  .seq [("intercodeVersion", some (.int 1)),
        ("intercodeInstanciation", some (.int 1)),
        ("networkId", some (.octets [0x25, 0x09, 0x15])),
        ("productRetailer", some (.seq [
           ("retailChannel", some (.enum "mobileApplication")),
           ("retailGeneratorId", some (.int 0)),
           ("retailServerId", some (.int 32)),
           ("retailerId", some (.int 1037)),
           ("retailPointId", some (.int 6))]))]

/-- The Intercode spec F.4 sample value from the end-to-end test. -/
def dynamicValue : Value :=
  .seq [("dynamicContentDay", some (.int 0)),
        ("dynamicContentTime", some (.int 59710)),
        ("dynamicContentUTCOffset", some (.int (-8))),
        ("dynamicContentDuration", some (.int 600))]

/-- C1: the IntercodeIssuingData codec encodes the spec F.3.1 value to
exactly the 11 bytes `49 25 09 15 7C 40 08 10 34 04 18`, and decoding
those bytes reproduces the value field for field. -/
theorem c1_intercode_issuing :
    encode 10 [] IntercodeIssuingData issuingValue
      = .ok [0x49, 0x25, 0x09, 0x15, 0x7C, 0x40, 0x08, 0x10, 0x34, 0x04, 0x18] ∧
    decode 10 [] IntercodeIssuingData [0x49, 0x25, 0x09, 0x15, 0x7C, 0x40, 0x08, 0x10, 0x34, 0x04, 0x18]
      = .ok issuingValue :=
  ⟨rfl, rfl⟩

/-- C2: the IntercodeDynamicData codec encodes the spec F.4 value to
exactly the 6 bytes `3B A4 F9 A0 09 60` — the default-valued
`dynamicContentDay = 0` elided from the wire — and decoding those
bytes reproduces the value with `dynamicContentDay` reinstated as the
default 0. -/
theorem c2_intercode_dynamic :
    encode 10 [] IntercodeDynamicData dynamicValue
      = .ok [0x3B, 0xA4, 0xF9, 0xA0, 0x09, 0x60] ∧
    decode 10 [] IntercodeDynamicData [0x3B, 0xA4, 0xF9, 0xA0, 0x09, 0x60]
      = .ok dynamicValue :=
  ⟨rfl, rfl⟩

/-- Character-string value from a Lean string's code points. -/
def strVal (s : String) : Value := .str (s.toList.map (fun c => c.toNat))

/-- Modelled from the spec: the two-field SEQUENCE-with-defaults schema
node of the schema-document-encoding test (`SchemaCodec` itself is
absent from `src/`). -/
def docDefaultsSchema : Schema :=
  .seq [("id", .int (some 0) (some 255) false, false, some (.int 5)),
        ("name", .charstr .ia5 (.range 0 64 false) none, false, some (strVal "hello"))] none

/-- C4: under the two-field SEQUENCE-with-defaults schema, the document
`{id: 5, name: "hello"}` (both fields equal to their defaults) encodes
to the single byte `00` and decodes back from it, while
`{id: 42, name: "world"}` encodes to exactly `CA 82 F7 DF CB 66 40`
and decodes back from those bytes. -/
theorem c4_document_defaults :
    encode 5 [] docDefaultsSchema (.seq [("id", some (.int 5)), ("name", some (strVal "hello"))])
      = .ok [0x00] ∧
    decode 5 [] docDefaultsSchema [0x00]
      = .ok (.seq [("id", some (.int 5)), ("name", some (strVal "hello"))]) ∧
    encode 5 [] docDefaultsSchema (.seq [("id", some (.int 42)), ("name", some (strVal "world"))])
      = .ok [0xCA, 0x82, 0xF7, 0xDF, 0xCB, 0x66, 0x40] ∧
    decode 5 [] docDefaultsSchema [0xCA, 0x82, 0xF7, 0xDF, 0xCB, 0x66, 0x40]
      = .ok (.seq [("id", some (.int 42)), ("name", some (strVal "world"))]) :=
  ⟨rfl, rfl, rfl, rfl⟩

/-! ## BitBuffer (spec 4.1)

Modelled from the spec: `BitBuffer.ts` is absent from `src/`. The
buffer is its bit content plus a read cursor; reads past the available
bits fail with the distinguished underrun error; writes append. -/

structure BitBuffer where
  data : List Bool
  pos : Nat
  deriving DecidableEq, Repr

/-- Build a read buffer over whole input bytes, cursor at bit 0. -/
def BitBuffer.fromBytes (bytes : List Nat) : BitBuffer :=
  ⟨bitsOfBytes bytes, 0⟩

/-- Bits written into the buffer. -/
def BitBuffer.bitLength (b : BitBuffer) : Nat := b.data.length

/-- Bits available between the read cursor and the bit-length. -/
def BitBuffer.remaining (b : BitBuffer) : Nat := b.data.length - b.pos

/-- Append one bit (1 = set, anything else clear). -/
def BitBuffer.writeBit (b : BitBuffer) (bit : Nat) : BitBuffer :=
  ⟨b.data ++ [bit == 1], b.pos⟩

/-- Read one bit as 0/1; underrun past the end. -/
def BitBuffer.readBit (b : BitBuffer) : Except Err (Nat × BitBuffer) :=
  match b.data[b.pos]? with
  | some bit => .ok (if bit then 1 else 0, ⟨b.data, b.pos + 1⟩)
  | none => .error .underrun

/-- Read `n` bits MSB-first as an unsigned integer; underrun when
fewer than `n` bits remain. -/
def BitBuffer.readBits (b : BitBuffer) (n : Nat) : Except Err (Nat × BitBuffer) :=
  if b.pos + n ≤ b.data.length then
    .ok (bitsToNat ((b.data.drop b.pos).take n), ⟨b.data, b.pos + n⟩)
  else .error .underrun

/-- Read `n` whole bytes bit-by-bit (no alignment); underrun when
fewer than `8 * n` bits remain. -/
def BitBuffer.readOctets (b : BitBuffer) (n : Nat) : Except Err (List Nat × BitBuffer) :=
  if b.pos + 8 * n ≤ b.data.length then
    .ok ((group8 ((b.data.drop b.pos).take (8 * n))).map bitsToNat, ⟨b.data, b.pos + 8 * n⟩)
  else .error .underrun

/-- C7: every read requesting more bits than remain between the cursor
and the bit-length fails with the distinguished underrun error; a
buffer from zero bytes has `remaining = 0` and every `readBit` or
`readBits 1` on it fails; once a buffer's bits are consumed
(`remaining = 0`) the next `readBit` fails. -/
theorem c7_bitbuffer_underrun (b : BitBuffer) (n : Nat) :
    (b.remaining = 0 → b.readBit = .error .underrun) ∧
    (b.remaining < n → b.readBits n = .error .underrun) ∧
    (b.remaining < 8 * n → b.readOctets n = .error .underrun) ∧
    (BitBuffer.fromBytes []).remaining = 0 ∧
    (BitBuffer.fromBytes []).readBit = .error .underrun ∧
    (BitBuffer.fromBytes []).readBits 1 = .error .underrun := by
  refine ⟨?_, ?_, ?_, rfl, rfl, rfl⟩
  · intro h
    unfold BitBuffer.readBit BitBuffer.remaining at *
    rw [List.getElem?_eq_none (by omega)]
  · intro h
    unfold BitBuffer.readBits BitBuffer.remaining at *
    rw [if_neg (by omega)]
  · intro h
    unfold BitBuffer.readOctets BitBuffer.remaining at *
    rw [if_neg (by omega)]

/-- Witness for C7 on a one-byte buffer and an over-long read. -/
theorem c7_bitbuffer_underrun_witness :
    (BitBuffer.fromBytes [255]).readBits 9 = .error .underrun ∧
    (BitBuffer.fromBytes [255]).readOctets 2 = .error .underrun ∧
    (BitBuffer.mk [] 0).readBit = .error .underrun :=
  ⟨(c7_bitbuffer_underrun (BitBuffer.fromBytes [255]) 9).2.1 (by decide),
   (c7_bitbuffer_underrun (BitBuffer.fromBytes [255]) 2).2.2.1 (by decide),
   (c7_bitbuffer_underrun (BitBuffer.mk [] 0) 1).1 (by decide)⟩

/-! ## BooleanCodec (src/src/codecs/BooleanCodec.ts) and
NullCodec (src/src/codecs/NullCodec.ts), translated from the source;
the mutation of the TypeScript buffer becomes explicit state
passing, and the underrun exception of `readBit` an `Except`. -/

namespace BooleanCodec

/-- `encode(buffer, value) { buffer.writeBit(value ? 1 : 0); }` -/
def encode (buffer : BitBuffer) (value : Bool) : BitBuffer :=
  buffer.writeBit (if value then 1 else 0)

/-- `decode(buffer) { return buffer.readBit() === 1; }` -/
def decode (buffer : BitBuffer) : Except Err (Bool × BitBuffer) :=
  match buffer.readBit with
  | .error e => .error e
  | .ok (bit, b1) => .ok (bit == 1, b1)

end BooleanCodec

namespace NullCodec

/-- `encode(_buffer, _value) { /* no bits written */ }` -/
def encode (buffer : BitBuffer) : BitBuffer := buffer

/-- `decode(_buffer) { return null; }` -/
def decode (buffer : BitBuffer) : Unit × BitBuffer := ((), buffer)

end NullCodec

/-- C8: BooleanCodec.encode appends exactly one bit — set for `true`,
clear for `false` — and decode consumes exactly one bit of whatever
buffer it reads, returning `true` iff that bit is 1; decoding an
encoded bit from the cursor at its position round-trips both values. -/
theorem c8_boolean_codec (buffer : BitBuffer) (value : Bool) :
    (BooleanCodec.encode buffer value).bitLength = buffer.bitLength + 1 ∧
    (BooleanCodec.encode buffer value).data = buffer.data ++ [value] ∧
    (∀ v b1, BooleanCodec.decode buffer = .ok (v, b1) →
      b1.pos = buffer.pos + 1 ∧ b1.data = buffer.data ∧
      (v = true ↔ buffer.data[buffer.pos]? = some true)) ∧
    (buffer.pos = buffer.bitLength →
      BooleanCodec.decode (BooleanCodec.encode buffer value)
        = .ok (value, ⟨buffer.data ++ [value], buffer.pos + 1⟩)) := by
  refine ⟨?_, ?_, ?_, ?_⟩
  · rcases value with _ | _ <;>
      simp [BooleanCodec.encode, BitBuffer.writeBit, BitBuffer.bitLength]
  · rcases value with _ | _ <;>
      simp [BooleanCodec.encode, BitBuffer.writeBit]
  · intro v b1 h
    unfold BooleanCodec.decode BitBuffer.readBit at h
    rcases hg : buffer.data[buffer.pos]? with _ | bit
    · rw [hg] at h
      simp at h
    · rw [hg] at h
      simp only [Except.ok.injEq, Prod.mk.injEq] at h
      obtain ⟨hv, hb1⟩ := h
      refine ⟨by rw [← hb1], by rw [← hb1], ?_⟩
      rcases bit with _ | _ <;> simp [← hv]
  · intro hend
    have hbit : (buffer.data ++ [value])[buffer.pos]? = some value := by
      rw [hend]
      show (buffer.data ++ [value])[buffer.data.length]? = some value
      simp
    rcases value with _ | _ <;>
      simp [BooleanCodec.decode, BooleanCodec.encode, BitBuffer.writeBit,
        BitBuffer.readBit, hbit]

/-- Witness for C8 at a concrete buffer and value. -/
theorem c8_boolean_codec_witness :
    BooleanCodec.decode (BooleanCodec.encode (BitBuffer.mk [] 0) true)
      = .ok (true, ⟨[true], 1⟩) :=
  (c8_boolean_codec (BitBuffer.mk [] 0) true).2.2.2 rfl

/-- C10: NullCodec.decode consumes zero bits and returns the null
value on every buffer state — including one with zero remaining bits —
and never errors (its result type is not even fallible); encode
appends zero bits, leaving the bit-length unchanged. -/
theorem c10_null_codec (buffer : BitBuffer) :
    NullCodec.decode buffer = ((), buffer) ∧
    (NullCodec.decode buffer).2.pos = buffer.pos ∧
    NullCodec.encode buffer = buffer ∧
    (NullCodec.encode buffer).bitLength = buffer.bitLength :=
  ⟨rfl, rfl, rfl, rfl⟩

/-- C6: the encoder rejects out-of-constraint values with the
constraint-violation error: a non-extensible constrained integer below
its minimum or above its maximum, an enumerated identifier outside the
declared value set (root and extension), and a choice alternative name
not among the declared alternatives (root and extension). In this
functional embedding a failing encode produces no bits at all, so the
caller's buffer is untouched. -/
theorem c6_encoder_rejection (fuel : Nat) (env : Registry) :
    (∀ (lo hi i : Int), (i < lo ∨ hi < i) →
      encodeF (fuel + 1) env (.int (some lo) (some hi) false) (.int i)
        = .error .constraintViolation) ∧
    (∀ (roots : List String) (name : String), name ∉ roots →
      encodeF (fuel + 1) env (.enum roots none) (.enum name)
        = .error .constraintViolation) ∧
    (∀ (roots exts : List String) (name : String), name ∉ roots → name ∉ exts →
      encodeF (fuel + 1) env (.enum roots (some exts)) (.enum name)
        = .error .constraintViolation) ∧
    (∀ (alts : List (String × Schema)) (key : String) (w : Value),
      key ∉ alts.map Prod.fst →
      encodeF (fuel + 1) env (.choice alts none) (.choice key w)
        = .error .constraintViolation) ∧
    (∀ (alts ealts : List (String × Schema)) (key : String) (w : Value),
      key ∉ alts.map Prod.fst → key ∉ ealts.map Prod.fst →
      encodeF (fuel + 1) env (.choice alts (some ealts)) (.choice key w)
        = .error .constraintViolation) := by
  refine ⟨?_, ?_, ?_, ?_, ?_⟩
  · intro lo hi i hout
    show encodeStep (encodeF fuel env) fuel env (.int (some lo) (some hi) false) (.int i)
      = .error .constraintViolation
    simp only [encodeStep, encInt, if_neg (by simp : ¬ (false = true)), intRootEnc]
    rw [if_neg (by omega)]
  · intro roots name hmem
    show encodeStep (encodeF fuel env) fuel env (.enum roots none) (.enum name)
      = .error .constraintViolation
    simp only [encodeStep, encEnum, findIdx?_eq_none_of_not_mem hmem]
  · intro roots exts name hr he
    show encodeStep (encodeF fuel env) fuel env (.enum roots (some exts)) (.enum name)
      = .error .constraintViolation
    simp only [encodeStep, encEnum, findIdx?_eq_none_of_not_mem hr,
      findIdx?_eq_none_of_not_mem he]
  · intro alts key w hmem
    show encodeStep (encodeF fuel env) fuel env (.choice alts none) (.choice key w)
      = .error .constraintViolation
    simp only [encodeStep, lookupAlt_eq_none_of_not_mem hmem]
  · intro alts ealts key w hr he
    show encodeStep (encodeF fuel env) fuel env (.choice alts (some ealts)) (.choice key w)
      = .error .constraintViolation
    simp only [encodeStep, lookupAlt_eq_none_of_not_mem hr,
      lookupAlt_eq_none_of_not_mem he]

/-- Witness for C6 at concrete out-of-constraint values. -/
theorem c6_encoder_rejection_witness :
    encodeF 1 [] (.int (some 0) (some 255) false) (.int 300)
      = .error .constraintViolation ∧
    encodeF 1 [] (.enum ["red", "green"] none) (.enum "blue")
      = .error .constraintViolation ∧
    encodeF 1 [] (.choice [("x", .bool)] none) (.choice "y" (.bool true))
      = .error .constraintViolation :=
  ⟨(c6_encoder_rejection 0 []).1 0 255 300 (by omega),
   (c6_encoder_rejection 0 []).2.1 ["red", "green"] "blue" (by decide),
   (c6_encoder_rejection 0 []).2.2.2.1 [("x", .bool)] "y" (.bool true) (by
     intro hmem
     simp at hmem)⟩

/-! ## Schema building (spec 4.6)

Modelled from the spec: `SchemaBuilder.ts` is absent from `src/`.
`build` walks a schema node top-down validating its shape; a `$ref`
met without a registry fails at once ("Cannot resolve $ref ... without
a schema registry", `Err.noRegistry`), while with a registry the
reference becomes a lazy proxy — it is not resolved at build time, and
a dangling name only fails later, when encode/decode first
dereferences it (`Err.unresolvedRef`, the "Unresolved $ref" error the
interpreter's `.ref` case raises). `buildAll` builds every entry of a
registry against that shared registry. -/

/-- Walk a work list of schema nodes as `build` does. -/
def buildF : Nat → Option Registry → List Schema → Except Err Unit
  | 0, _, _ => .error .fuelExhausted
  | _ + 1, _, [] => .ok ()
  | n + 1, reg, s :: rest =>
    match s with
    | .ref name =>
      (match reg with
       | none => .error (.noRegistry name)
       | some _ => buildF n reg rest)
    | .seq fields extF =>
      buildF n reg (fields.map SeqField.schema
        ++ (match extF with | some efs => efs.map SeqField.schema | none => [])
        ++ rest)
    | .seqOf item _ => buildF n reg (item :: rest)
    | .choice alts extAlts =>
      buildF n reg (alts.map Prod.snd
        ++ (match extAlts with | some es => es.map Prod.snd | none => [])
        ++ rest)
    | _ => buildF n reg rest

/-- `SchemaBuilder.build(schema, registry?)`. -/
def build (fuel : Nat) (reg : Option Registry) (s : Schema) : Except Err Unit :=
  buildF fuel reg [s]

/-- `SchemaBuilder.buildAll(registry)`: build every entry against the
shared registry. -/
def buildAll (fuel : Nat) (reg : Registry) : Except Err Unit :=
  buildF fuel (some reg) (reg.map Prod.snd)

/-- The dangling-reference registry of the `buildAll` test:
`{MyType: SEQUENCE {data: $ref NonExistent}}`. -/
def myTypeReg : Registry :=
  [("MyType", .seq [("data", .ref "NonExistent", false, none)] none)]

theorem buildF_some_ok (fuel : Nat) (reg : Registry) (schemas : List Schema) :
    buildF fuel (some reg) schemas = .ok ()
      ∨ buildF fuel (some reg) schemas = .error .fuelExhausted := by
  induction fuel generalizing schemas with
  | zero => right; rfl
  | succ n ih =>
    match schemas with
    | [] => left; rfl
    | s :: rest =>
      cases s <;> simp only [buildF] <;> apply ih

/-- C9: with a registry, building never resolves `$ref`s, so
`buildAll` succeeds (never raising the unresolved-reference or
missing-registry errors) even when a `$ref` names a type absent from
the registry; the failure is deferred to the first encode that
dereferences the dangling name, which raises the "Unresolved $ref"
error; `build` on a `$ref` without any registry fails immediately with
the "Cannot resolve $ref without a schema registry" error. The
dangling-reference test registry is checked concretely. -/
theorem c9_buildall_defers_refs (fuel : Nat) :
    (∀ (reg : Registry) (schemas : List Schema) (name : String),
      buildF fuel (some reg) schemas ≠ .error (.unresolvedRef name) ∧
      buildF fuel (some reg) schemas ≠ .error (.noRegistry name)) ∧
    (∀ (env : Registry) (name : String) (v : Value), lookupReg env name = none →
      encodeF (fuel + 1) env (.ref name) v = .error (.unresolvedRef name)) ∧
    (∀ name : String, build (fuel + 2) none (.ref name) = .error (.noRegistry name)) ∧
    buildAll 8 myTypeReg = .ok () ∧
    encodeF 8 myTypeReg (.seq [("data", .ref "NonExistent", false, none)] none)
      (.seq [("data", some (.bool true))]) = .error (.unresolvedRef "NonExistent") := by
  refine ⟨?_, ?_, ?_, rfl, rfl⟩
  · intro reg schemas name
    rcases buildF_some_ok fuel reg schemas with h | h <;> rw [h] <;> exact ⟨by simp, by simp⟩
  · intro env name v hmiss
    show encodeStep (encodeF fuel env) fuel env (.ref name) v = .error (.unresolvedRef name)
    simp only [encodeStep, hmiss]
  · intro name
    rfl

/-- Witness for C9 at the dangling-reference registry. -/
theorem c9_buildall_defers_refs_witness :
    encodeF 3 [] (.ref "Ghost") (.bool true) = .error (.unresolvedRef "Ghost") ∧
    build 4 none (.ref "SomeType") = .error (.noRegistry "SomeType") :=
  ⟨(c9_buildall_defers_refs 2).2.1 [] "Ghost" (.bool true) rfl,
   (c9_buildall_defers_refs 2).2.2.1 "SomeType"⟩

/-! ## Decoded-node tree and stripMetadata (spec 4.7)

The node tree is modelled from the spec: `decodeWithMetadata` brackets
`decode`, primitives return their decoded value in a `prim` node,
composites hold child nodes; SEQUENCE records a child for every
declared field, marking syntactically absent fields `present = false`
and defaulted fields `isDefault = true`. Only the flags `optional`,
`present`, `isDefault` are carried: they are the only metadata
`stripMetadata` consults (`bitOffset`/`bitLength`/`rawBytes` play no
part in the strip equivalence). `stripMetadata` itself is translated
from the source (`stripMetadata` in the repository's metadata
module). -/

structure Meta where
  optional : Bool
  present : Bool
  isDefault : Bool
  deriving DecidableEq, Repr

inductive DNode where
  | prim (meta : Meta) (v : Value)
  | seqN (meta : Meta) (fields : List (String × DNode))
  | seqOfN (meta : Meta) (items : List DNode)
  | choiceN (meta : Meta) (key : String) (child : DNode)

def DNode.meta : DNode → Meta
  | .prim m _ => m
  | .seqN m _ => m
  | .seqOfN m _ => m
  | .choiceN m _ _ => m

def DNode.withMeta : DNode → Meta → DNode
  | .prim _ v, m => .prim m v
  | .seqN _ f, m => .seqN m f
  | .seqOfN _ i, m => .seqOfN m i
  | .choiceN _ k c, m => .choiceN m k c

/-- `stripMetadata` (translated from the source): primitives return
the node value unchanged; SEQUENCE omits keys whose child is optional,
not present and not a default; SEQUENCE OF maps the children; CHOICE
recurses into the chosen value. Fuel-driven over the tree depth. -/
def stripMetadata : Nat → DNode → Value
  | _, .prim _ v => v
  | 0, .seqN _ _ => .null
  | 0, .seqOfN _ _ => .null
  | 0, .choiceN _ _ _ => .null
  | n + 1, .seqN _ fields => .seq (fields.map (fun p =>
      if p.2.meta.optional && !p.2.meta.present && !p.2.meta.isDefault then (p.1, none)
      else (p.1, some (stripMetadata n p.2))))
  | n + 1, .seqOfN _ items => .seqOf (items.map (stripMetadata n))
  | n + 1, .choiceN _ key child => .choice key (stripMetadata n child)

/-- One SEQUENCE entry of the strip: omitted keys become `none`. -/
def stripEntry (n : Nat) (p : String × DNode) : String × Option Value :=
  if p.2.meta.optional && !p.2.meta.present && !p.2.meta.isDefault then (p.1, none)
  else (p.1, some (stripMetadata n p.2))

theorem stripMetadata_seqN (n : Nat) (m : Meta) (fields : List (String × DNode)) :
    stripMetadata (n + 1) (.seqN m fields) = .seq (fields.map (stripEntry n)) := rfl

theorem stripMetadata_withMeta (n : Nat) (nd : DNode) (m : Meta) :
    stripMetadata n (nd.withMeta m) = stripMetadata n nd := by
  cases n <;> cases nd <;> rfl

theorem meta_withMeta (nd : DNode) (m : Meta) : (nd.withMeta m).meta = m := by
  cases nd <;> rfl

/-- Root-field decoding with metadata (spec 4.7: a child node for
every declared field; absent optionals get `present = false`, elided
defaults a default node with `isDefault = true`). -/
def decFieldsM (dm : Schema → List Bool → Except Err (DNode × List Bool)) :
    List SeqField → List Bool → List Bool →
      Except Err (List (String × DNode) × List Bool)
  | [], _, bs => .ok ([], bs)
  | (fn, fsch, fopt, fdef) :: fs, preBits, bs =>
    match fdef with
    | some dv =>
      (match preBits with
       | [] => .error .wireFormat
       | p :: preRest =>
         if p then
           match dm fsch bs with
           | .error e1 => .error e1
           | .ok (nd, bs1) =>
             match decFieldsM dm fs preRest bs1 with
             | .error e1 => .error e1
             | .ok (nds, bs2) => .ok ((fn, nd.withMeta ⟨true, true, false⟩) :: nds, bs2)
         else
           match decFieldsM dm fs preRest bs with
           | .error e1 => .error e1
           | .ok (nds, bs2) => .ok ((fn, .prim ⟨true, false, true⟩ dv) :: nds, bs2))
    | none =>
      if fopt then
        (match preBits with
         | [] => .error .wireFormat
         | p :: preRest =>
           if p then
             match dm fsch bs with
             | .error e1 => .error e1
             | .ok (nd, bs1) =>
               match decFieldsM dm fs preRest bs1 with
               | .error e1 => .error e1
               | .ok (nds, bs2) => .ok ((fn, nd.withMeta ⟨true, true, false⟩) :: nds, bs2)
           else
             match decFieldsM dm fs preRest bs with
             | .error e1 => .error e1
             | .ok (nds, bs2) => .ok ((fn, .prim ⟨true, false, false⟩ .null) :: nds, bs2))
      else
        match dm fsch bs with
        | .error e1 => .error e1
        | .ok (nd, bs1) =>
          match decFieldsM dm fs preBits bs1 with
          | .error e1 => .error e1
          | .ok (nds, bs2) => .ok ((fn, nd.withMeta ⟨false, true, false⟩) :: nds, bs2)

/-- Node for an extension field that is absent from the wire. -/
def extAbsentNode : Option Value → DNode
  | some dv => .prim ⟨true, false, true⟩ dv
  | none => .prim ⟨true, false, false⟩ .null

def extAbsentM : List SeqField → List (String × DNode)
  | [] => []
  | (fn, _, _, fdef) :: fs => (fn, extAbsentNode fdef) :: extAbsentM fs

/-- Extension-field decoding with metadata. -/
def decExtFieldsM (dm : Schema → List Bool → Except Err (DNode × List Bool)) :
    List SeqField → List Bool → List Bool →
      Except Err (List (String × DNode) × List Bool)
  | [], _, bs => .ok ([], bs)
  | (fn, fsch, _, fdef) :: fs, flags, bs =>
    match flags with
    | true :: flagsRest =>
      (match decOpen (dm fsch) bs with
       | .error e1 => .error e1
       | .ok (nd, bs1) =>
         match decExtFieldsM dm fs flagsRest bs1 with
         | .error e1 => .error e1
         | .ok (nds, bs2) => .ok ((fn, nd.withMeta ⟨true, true, false⟩) :: nds, bs2))
    | false :: flagsRest =>
      (match decExtFieldsM dm fs flagsRest bs with
       | .error e1 => .error e1
       | .ok (nds, bs2) => .ok ((fn, extAbsentNode fdef) :: nds, bs2))
    | [] =>
      (match decExtFieldsM dm fs [] bs with
       | .error e1 => .error e1
       | .ok (nds, bs2) => .ok ((fn, extAbsentNode fdef) :: nds, bs2))

def decChoiceRootM (dm : Schema → List Bool → Except Err (DNode × List Bool))
    (alts : List (String × Schema)) (bs : List Bool) : Except Err (DNode × List Bool) :=
  match readBitsN (bitlen (alts.length - 1)) bs with
  | .error e1 => .error e1
  | .ok (i, bs1) =>
    match alts[i]? with
    | some (nm, sch) =>
      (match dm sch bs1 with
       | .error e1 => .error e1
       | .ok (nd, bs2) => .ok (.choiceN ⟨false, true, false⟩ nm nd, bs2))
    | none => .error .wireFormat

/-- One layer of `decodeWithMetadata` (spec 4.7): primitives delegate
to the plain decode of the same layer and wrap the value; composites
decode their children with metadata. -/
def decodeMStep (dm : Schema → List Bool → Except Err (DNode × List Bool))
    (d : Schema → List Bool → Except Err (Value × List Bool))
    (env : Registry) : Schema → List Bool → Except Err (DNode × List Bool)
  | .bool, bs =>
    (match decodeStep d env .bool bs with
     | .error e1 => .error e1
     | .ok (v, bs1) => .ok (.prim ⟨false, true, false⟩ v, bs1))
  | .int mn mx ext, bs =>
    (match decodeStep d env (.int mn mx ext) bs with
     | .error e1 => .error e1
     | .ok (v, bs1) => .ok (.prim ⟨false, true, false⟩ v, bs1))
  | .enum roots extVals, bs =>
    (match decodeStep d env (.enum roots extVals) bs with
     | .error e1 => .error e1
     | .ok (v, bs1) => .ok (.prim ⟨false, true, false⟩ v, bs1))
  | .bitstr size, bs =>
    (match decodeStep d env (.bitstr size) bs with
     | .error e1 => .error e1
     | .ok (v, bs1) => .ok (.prim ⟨false, true, false⟩ v, bs1))
  | .octets size, bs =>
    (match decodeStep d env (.octets size) bs with
     | .error e1 => .error e1
     | .ok (v, bs1) => .ok (.prim ⟨false, true, false⟩ v, bs1))
  | .charstr kind size alpha, bs =>
    (match decodeStep d env (.charstr kind size alpha) bs with
     | .error e1 => .error e1
     | .ok (v, bs1) => .ok (.prim ⟨false, true, false⟩ v, bs1))
  | .oid, bs =>
    (match decodeStep d env .oid bs with
     | .error e1 => .error e1
     | .ok (v, bs1) => .ok (.prim ⟨false, true, false⟩ v, bs1))
  | .null, bs =>
    (match decodeStep d env .null bs with
     | .error e1 => .error e1
     | .ok (v, bs1) => .ok (.prim ⟨false, true, false⟩ v, bs1))
  | .seq fields extF, bs =>
    (match extF with
     | none =>
       match readBitList (countOpt fields) bs with
       | .error e1 => .error e1
       | .ok (preBits, bs1) =>
         match decFieldsM dm fields preBits bs1 with
         | .error e1 => .error e1
         | .ok (nds, bs2) => .ok (.seqN ⟨false, true, false⟩ nds, bs2)
     | some efs =>
       match bs with
       | [] => .error .underrun
       | extBit :: bs0 =>
         match readBitList (countOpt fields) bs0 with
         | .error e1 => .error e1
         | .ok (preBits, bs1) =>
           match decFieldsM dm fields preBits bs1 with
           | .error e1 => .error e1
           | .ok (nds, bs2) =>
             if extBit then
               match decNS bs2 with
               | .error e1 => .error e1
               | .ok (nsm1, bs3) =>
                 match readBitList (nsm1 + 1) bs3 with
                 | .error e1 => .error e1
                 | .ok (flags, bs4) =>
                   match decExtFieldsM dm efs (flags.take efs.length) bs4 with
                   | .error e1 => .error e1
                   | .ok (ends, bs5) =>
                     match skipOpens (flags.drop efs.length) bs5 with
                     | .error e1 => .error e1
                     | .ok bs6 => .ok (.seqN ⟨false, true, false⟩ (nds ++ ends), bs6)
             else .ok (.seqN ⟨false, true, false⟩ (nds ++ extAbsentM efs), bs2))
  | .seqOf item size, bs =>
    (decSize (dm item) size bs).map (fun p => (.seqOfN ⟨false, true, false⟩ p.1, p.2))
  | .choice alts extAlts, bs =>
    (match extAlts with
     | none => decChoiceRootM dm alts bs
     | some ealts =>
       match bs with
       | [] => .error .underrun
       | false :: bs1 => decChoiceRootM dm alts bs1
       | true :: bs1 =>
         match decNS bs1 with
         | .error e1 => .error e1
         | .ok (j, bs2) =>
           match ealts[j]? with
           | some p =>
             (match decOpen (dm p.2) bs2 with
              | .error e1 => .error e1
              | .ok (nd, bs3) => .ok (.choiceN ⟨false, true, false⟩ p.1 nd, bs3))
           | none => .error .wireFormat)
  | .ref name, bs =>
    (match lookupReg env name with
     | some s1 => dm s1 bs
     | none => .error (.unresolvedRef name))

/-- `decodeWithMetadata`: the fuel-indexed node decoder. -/
def decodeMF : Nat → Registry → Schema → List Bool → Except Err (DNode × List Bool)
  | 0, _, _, _ => .error .fuelExhausted
  | n + 1, env, s, bs => decodeMStep (decodeMF n env) (decodeF n env) env s bs

/-- Strip simulation between a plain decoder and a node decoder:
whenever the plain decoder succeeds, the node decoder succeeds on the
same input with the same tail, and stripping the node (with any
sufficient fuel) gives the plain value. -/
def DRel (n : Nat) (d0 : List Bool → Except Err (Value × List Bool))
    (dm0 : List Bool → Except Err (DNode × List Bool)) : Prop :=
  ∀ bs v rest, d0 bs = .ok (v, rest) →
    ∃ nd, dm0 bs = .ok (nd, rest) ∧ ∀ m, n ≤ m → stripMetadata m nd = v

def MRel (n : Nat) (d : Schema → List Bool → Except Err (Value × List Bool))
    (dm : Schema → List Bool → Except Err (DNode × List Bool)) : Prop :=
  ∀ s, DRel n (d s) (dm s)

theorem decodeListN_rel {n : Nat} {d0 : List Bool → Except Err (Value × List Bool)}
    {dm0 : List Bool → Except Err (DNode × List Bool)} (h : DRel n d0 dm0) :
    ∀ (k : Nat) (bs : List Bool) (vs : List Value) (rest : List Bool),
      decodeListN d0 k bs = .ok (vs, rest) →
      ∃ nds, decodeListN dm0 k bs = .ok (nds, rest) ∧
        ∀ m, n ≤ m → nds.map (stripMetadata m) = vs := by
  intro k
  induction k with
  | zero =>
    intro bs vs rest hd
    simp only [decodeListN, Except.ok.injEq, Prod.mk.injEq] at hd
    exact ⟨[], by simp [decodeListN, hd.2], by simp [← hd.1]⟩
  | succ k ih =>
    intro bs vs rest hd
    simp only [decodeListN, bind, Except.bind] at hd
    rcases h1 : d0 bs with e1 | p1
    · rw [h1] at hd; simp at hd
    · obtain ⟨v1, bs1⟩ := p1
      rw [h1] at hd
      simp only at hd
      rcases h2 : decodeListN d0 k bs1 with e1 | p2
      · rw [h2] at hd; simp at hd
      · obtain ⟨vs1, bs2⟩ := p2
        rw [h2] at hd
        simp only [Except.ok.injEq, Prod.mk.injEq] at hd
        obtain ⟨hvs, hrest⟩ := hd
        subst hvs hrest
        obtain ⟨nd, hnd, hstrip⟩ := h bs v1 bs1 h1
        obtain ⟨nds, hnds, hstrips⟩ := ih bs1 vs1 bs2 h2
        refine ⟨nd :: nds, ?_, ?_⟩
        · simp only [decodeListN, bind, Except.bind, hnd, hnds]
        · intro m hm
          simp [hstrip m hm, hstrips m hm]

theorem decFragAux_rel {n : Nat} {d0 : List Bool → Except Err (Value × List Bool)}
    {dm0 : List Bool → Except Err (DNode × List Bool)} (h : DRel n d0 dm0) :
    ∀ (f : Nat) (bs : List Bool) (vs : List Value) (rest : List Bool),
      decFragAux d0 f bs = .ok (vs, rest) →
      ∃ nds, decFragAux dm0 f bs = .ok (nds, rest) ∧
        ∀ m, n ≤ m → nds.map (stripMetadata m) = vs := by
  intro f
  induction f with
  | zero =>
    intro bs vs rest hd
    simp [decFragAux] at hd
  | succ f ih =>
    intro bs vs rest hd
    simp only [decFragAux, bind, Except.bind] at hd
    rcases hh : decLenHead bs with e1 | ph
    · rw [hh] at hd; simp at hd
    · obtain ⟨head, bs1⟩ := ph
      rw [hh] at hd
      simp only at hd
      match head with
      | .small k =>
        simp only at hd
        obtain ⟨nds, hnds, hstrips⟩ := decodeListN_rel h k bs1 vs rest hd
        exact ⟨nds, by simp only [decFragAux, bind, Except.bind, hh, hnds], hstrips⟩
      | .frag mfrag =>
        simp only at hd
        rcases h1 : decodeListN d0 (mfrag * 16384) bs1 with e1 | p1
        · rw [h1] at hd; simp at hd
        · obtain ⟨items1, bs2⟩ := p1
          rw [h1] at hd
          simp only at hd
          rcases h2 : decFragAux d0 f bs2 with e1 | p2
          · rw [h2] at hd; simp at hd
          · obtain ⟨items2, bs3⟩ := p2
            rw [h2] at hd
            simp only [Except.ok.injEq, Prod.mk.injEq] at hd
            obtain ⟨hvs, hrest⟩ := hd
            subst hvs hrest
            obtain ⟨nds1, hnds1, hstrips1⟩ := decodeListN_rel h (mfrag * 16384) bs1 items1 bs2 h1
            obtain ⟨nds2, hnds2, hstrips2⟩ := ih bs2 items2 bs3 h2
            refine ⟨nds1 ++ nds2, ?_, ?_⟩
            · simp only [decFragAux, bind, Except.bind, hh, hnds1, hnds2]
            · intro m hm
              simp [hstrips1 m hm, hstrips2 m hm]

theorem decFrag_rel {n : Nat} {d0 : List Bool → Except Err (Value × List Bool)}
    {dm0 : List Bool → Except Err (DNode × List Bool)} (h : DRel n d0 dm0)
    {bs : List Bool} {vs : List Value} {rest : List Bool}
    (hd : decFrag d0 bs = .ok (vs, rest)) :
    ∃ nds, decFrag dm0 bs = .ok (nds, rest) ∧
      ∀ m, n ≤ m → nds.map (stripMetadata m) = vs :=
  decFragAux_rel h (bs.length + 1) bs vs rest hd

theorem decSize_rel {n : Nat} {d0 : List Bool → Except Err (Value × List Bool)}
    {dm0 : List Bool → Except Err (DNode × List Bool)} (h : DRel n d0 dm0) :
    ∀ (sc : SizeC) (bs : List Bool) (vs : List Value) (rest : List Bool),
      decSize d0 sc bs = .ok (vs, rest) →
      ∃ nds, decSize dm0 sc bs = .ok (nds, rest) ∧
        ∀ m, n ≤ m → nds.map (stripMetadata m) = vs := by
  intro sc bs vs rest hd
  match sc with
  | .fixed k =>
    exact decodeListN_rel h k bs vs rest hd
  | .unconstrained =>
    exact decFrag_rel h hd
  | .range lo hi ext =>
    simp only [decSize] at hd ⊢
    by_cases hx : ext = true
    · subst hx
      rw [if_pos rfl] at hd ⊢
      match bs with
      | [] => simp at hd
      | true :: bs1 =>
        exact decFrag_rel h hd
      | false :: bs1 =>
        simp only [] at hd ⊢
        by_cases hsmall : hi - lo ≤ 65535
        · rw [if_pos hsmall] at hd ⊢
          rcases hr : readBitsN (bitlen (hi - lo)) bs1 with e1 | pr
          · rw [hr] at hd; simp at hd
          · obtain ⟨c, bs2⟩ := pr
            rw [hr] at hd
            simp only at hd
            exact decodeListN_rel h (lo + c) bs2 vs rest hd
        · rw [if_neg hsmall] at hd ⊢
          exact decFrag_rel h hd
    · have hxf : ext = false := by simpa using hx
      subst hxf
      rw [if_neg (by simp)] at hd ⊢
      by_cases hsmall : hi - lo ≤ 65535
      · rw [if_pos hsmall] at hd ⊢
        rcases hr : readBitsN (bitlen (hi - lo)) bs with e1 | pr
        · rw [hr] at hd; simp at hd
        · obtain ⟨c, bs2⟩ := pr
          rw [hr] at hd
          simp only at hd
          exact decodeListN_rel h (lo + c) bs2 vs rest hd
      · rw [if_neg hsmall] at hd ⊢
        exact decFrag_rel h hd

theorem decOpen_rel {n : Nat} {d0 : List Bool → Except Err (Value × List Bool)}
    {dm0 : List Bool → Except Err (DNode × List Bool)} (h : DRel n d0 dm0)
    {bs : List Bool} {v : Value} {rest : List Bool}
    (hd : decOpen d0 bs = .ok (v, rest)) :
    ∃ nd, decOpen dm0 bs = .ok (nd, rest) ∧
      ∀ m, n ≤ m → stripMetadata m nd = v := by
  unfold decOpen at hd ⊢
  rcases hf : decFrag dGroup8 bs with e1 | pf
  · rw [hf] at hd; simp at hd
  · obtain ⟨groups, bs1⟩ := pf
    rw [hf] at hd
    simp only at hd
    rcases h0 : d0 groups.flatten with e1 | p0
    · rw [h0] at hd; simp at hd
    · obtain ⟨v0, r0⟩ := p0
      rw [h0] at hd
      simp only [Except.ok.injEq, Prod.mk.injEq] at hd
      obtain ⟨hv, hrest⟩ := hd
      subst hv hrest
      obtain ⟨nd, hnd, hstrip⟩ := h groups.flatten v0 r0 h0
      exact ⟨nd, by simp only [hnd], hstrip⟩

theorem extAbsentM_strip (m : Nat) (fields : List SeqField) :
    (extAbsentM fields).map (stripEntry m) = extAbsent fields := by
  induction fields with
  | nil => rfl
  | cons f fs ih =>
    obtain ⟨fn, fsch, fopt, fdef⟩ := f
    cases fdef <;>
      simp only [extAbsentM, extAbsent, extAbsentNode, List.map_cons, ih] <;>
      simp [stripEntry, DNode.meta, stripMetadata]

theorem decFieldsM_rel {n : Nat} {d : Schema → List Bool → Except Err (Value × List Bool)}
    {dm : Schema → List Bool → Except Err (DNode × List Bool)} (hrel : MRel n d dm) :
    ∀ (fields : List SeqField) (pre bs : List Bool)
      (vals : List (String × Option Value)) (rest : List Bool),
      decFields d fields pre bs = .ok (vals, rest) →
      ∃ nds, decFieldsM dm fields pre bs = .ok (nds, rest) ∧
        ∀ m, n ≤ m → nds.map (stripEntry m) = vals := by
  intro fields
  induction fields with
  | nil =>
    intro pre bs vals rest hd
    simp only [decFields, Except.ok.injEq, Prod.mk.injEq] at hd
    exact ⟨[], by simp [decFieldsM, hd.2], by simp [← hd.1]⟩
  | cons f fs ih =>
    obtain ⟨fn, fsch, fopt, fdef⟩ := f
    intro pre bs vals rest hd
    simp only [decFields] at hd
    cases fdef with
    | some dv =>
      cases pre with
      | nil => simp at hd
      | cons p preRest =>
        simp only [] at hd
        cases p with
        | true =>
          rw [if_pos rfl] at hd
          rcases hdc : d fsch bs with e1 | pc
          · rw [hdc] at hd; simp at hd
          · obtain ⟨v1, bs1⟩ := pc
            rw [hdc] at hd
            simp only [] at hd
            rcases hfs : decFields d fs preRest bs1 with e1 | pf
            · rw [hfs] at hd; simp at hd
            · obtain ⟨vs, bs2⟩ := pf
              rw [hfs] at hd
              simp only [Except.ok.injEq, Prod.mk.injEq] at hd
              obtain ⟨hvals, hrest⟩ := hd
              subst hvals hrest
              obtain ⟨nd, hnd, hstrip⟩ := hrel fsch bs v1 bs1 hdc
              obtain ⟨nds, hnds, hstrips⟩ := ih preRest bs1 vs bs2 hfs
              refine ⟨(fn, nd.withMeta ⟨true, true, false⟩) :: nds, ?_, ?_⟩
              · simp [decFieldsM, hnd, hnds]
              · intro m hm
                simp [stripEntry, meta_withMeta, stripMetadata_withMeta,
                  hstrip m hm, hstrips m hm]
        | false =>
          rw [if_neg (by simp)] at hd
          rcases hfs : decFields d fs preRest bs with e1 | pf
          · rw [hfs] at hd; simp at hd
          · obtain ⟨vs, bs2⟩ := pf
            rw [hfs] at hd
            simp only [Except.ok.injEq, Prod.mk.injEq] at hd
            obtain ⟨hvals, hrest⟩ := hd
            subst hvals hrest
            obtain ⟨nds, hnds, hstrips⟩ := ih preRest bs vs bs2 hfs
            refine ⟨(fn, .prim ⟨true, false, true⟩ dv) :: nds, ?_, ?_⟩
            · simp [decFieldsM, hnds]
            · intro m hm
              simp [stripEntry, DNode.meta, stripMetadata, hstrips m hm]
    | none =>
      simp only [] at hd
      cases fopt with
      | true =>
        first | rw [if_pos rfl] at hd | rw [if_pos trivial] at hd
        cases pre with
        | nil => simp at hd
        | cons p preRest =>
          simp only [] at hd
          cases p with
          | true =>
            rw [if_pos rfl] at hd
            rcases hdc : d fsch bs with e1 | pc
            · rw [hdc] at hd; simp at hd
            · obtain ⟨v1, bs1⟩ := pc
              rw [hdc] at hd
              simp only [] at hd
              rcases hfs : decFields d fs preRest bs1 with e1 | pf
              · rw [hfs] at hd; simp at hd
              · obtain ⟨vs, bs2⟩ := pf
                rw [hfs] at hd
                simp only [Except.ok.injEq, Prod.mk.injEq] at hd
                obtain ⟨hvals, hrest⟩ := hd
                subst hvals hrest
                obtain ⟨nd, hnd, hstrip⟩ := hrel fsch bs v1 bs1 hdc
                obtain ⟨nds, hnds, hstrips⟩ := ih preRest bs1 vs bs2 hfs
                refine ⟨(fn, nd.withMeta ⟨true, true, false⟩) :: nds, ?_, ?_⟩
                · simp [decFieldsM, hnd, hnds]
                · intro m hm
                  simp [stripEntry, meta_withMeta, stripMetadata_withMeta,
                    hstrip m hm, hstrips m hm]
          | false =>
            rw [if_neg (by simp)] at hd
            rcases hfs : decFields d fs preRest bs with e1 | pf
            · rw [hfs] at hd; simp at hd
            · obtain ⟨vs, bs2⟩ := pf
              rw [hfs] at hd
              simp only [Except.ok.injEq, Prod.mk.injEq] at hd
              obtain ⟨hvals, hrest⟩ := hd
              subst hvals hrest
              obtain ⟨nds, hnds, hstrips⟩ := ih preRest bs vs bs2 hfs
              refine ⟨(fn, .prim ⟨true, false, false⟩ .null) :: nds, ?_, ?_⟩
              · simp [decFieldsM, hnds]
              · intro m hm
                simp [stripEntry, DNode.meta, hstrips m hm]
      | false =>
        rw [if_neg (by simp)] at hd
        rcases hdc : d fsch bs with e1 | pc
        · rw [hdc] at hd; simp at hd
        · obtain ⟨v1, bs1⟩ := pc
          rw [hdc] at hd
          simp only [] at hd
          rcases hfs : decFields d fs pre bs1 with e1 | pf
          · rw [hfs] at hd; simp at hd
          · obtain ⟨vs, bs2⟩ := pf
            rw [hfs] at hd
            simp only [Except.ok.injEq, Prod.mk.injEq] at hd
            obtain ⟨hvals, hrest⟩ := hd
            subst hvals hrest
            obtain ⟨nd, hnd, hstrip⟩ := hrel fsch bs v1 bs1 hdc
            obtain ⟨nds, hnds, hstrips⟩ := ih pre bs1 vs bs2 hfs
            refine ⟨(fn, nd.withMeta ⟨false, true, false⟩) :: nds, ?_, ?_⟩
            · simp [decFieldsM, hnd, hnds]
            · intro m hm
              simp [stripEntry, meta_withMeta, stripMetadata_withMeta,
                hstrip m hm, hstrips m hm]

theorem decExtFieldsM_rel {n : Nat} {d : Schema → List Bool → Except Err (Value × List Bool)}
    {dm : Schema → List Bool → Except Err (DNode × List Bool)} (hrel : MRel n d dm) :
    ∀ (fields : List SeqField) (flags bs : List Bool)
      (vals : List (String × Option Value)) (rest : List Bool),
      decExtFields d fields flags bs = .ok (vals, rest) →
      ∃ nds, decExtFieldsM dm fields flags bs = .ok (nds, rest) ∧
        ∀ m, n ≤ m → nds.map (stripEntry m) = vals := by
  intro fields
  induction fields with
  | nil =>
    intro flags bs vals rest hd
    simp only [decExtFields, Except.ok.injEq, Prod.mk.injEq] at hd
    exact ⟨[], by simp [decExtFieldsM, hd.2], by simp [← hd.1]⟩
  | cons f fs ih =>
    obtain ⟨fn, fsch, fopt, fdef⟩ := f
    intro flags bs vals rest hd
    simp only [decExtFields] at hd
    match flags with
    | true :: flagsRest =>
      simp only [] at hd
      rcases hop : decOpen (d fsch) bs with e1 | po
      · rw [hop] at hd; simp at hd
      · obtain ⟨v1, bs1⟩ := po
        rw [hop] at hd
        simp only [] at hd
        rcases hfs : decExtFields d fs flagsRest bs1 with e1 | pf
        · rw [hfs] at hd; simp at hd
        · obtain ⟨vs, bs2⟩ := pf
          rw [hfs] at hd
          simp only [Except.ok.injEq, Prod.mk.injEq] at hd
          obtain ⟨hvals, hrest⟩ := hd
          subst hvals hrest
          obtain ⟨nd, hnd, hstrip⟩ := decOpen_rel (hrel fsch) hop
          obtain ⟨nds, hnds, hstrips⟩ := ih flagsRest bs1 vs bs2 hfs
          refine ⟨(fn, nd.withMeta ⟨true, true, false⟩) :: nds, ?_, ?_⟩
          · simp only [decExtFieldsM, hnd, hnds]
          · intro m hm
            simp [stripEntry, meta_withMeta, stripMetadata_withMeta,
              hstrip m hm, hstrips m hm]
    | false :: flagsRest =>
      simp only [] at hd
      rcases hfs : decExtFields d fs flagsRest bs with e1 | pf
      · rw [hfs] at hd; simp at hd
      · obtain ⟨vs, bs2⟩ := pf
        rw [hfs] at hd
        simp only [Except.ok.injEq, Prod.mk.injEq] at hd
        obtain ⟨hvals, hrest⟩ := hd
        subst hvals hrest
        obtain ⟨nds, hnds, hstrips⟩ := ih flagsRest bs vs bs2 hfs
        refine ⟨(fn, extAbsentNode fdef) :: nds, ?_, ?_⟩
        · simp only [decExtFieldsM, hnds]
        · intro m hm
          cases fdef <;>
            simp [stripEntry, extAbsentNode, DNode.meta, stripMetadata, hstrips m hm]
    | [] =>
      simp only [] at hd
      rcases hfs : decExtFields d fs [] bs with e1 | pf
      · rw [hfs] at hd; simp at hd
      · obtain ⟨vs, bs2⟩ := pf
        rw [hfs] at hd
        simp only [Except.ok.injEq, Prod.mk.injEq] at hd
        obtain ⟨hvals, hrest⟩ := hd
        subst hvals hrest
        obtain ⟨nds, hnds, hstrips⟩ := ih [] bs vs bs2 hfs
        refine ⟨(fn, extAbsentNode fdef) :: nds, ?_, ?_⟩
        · simp only [decExtFieldsM, hnds]
        · intro m hm
          cases fdef <;>
            simp [stripEntry, extAbsentNode, DNode.meta, stripMetadata, hstrips m hm]

theorem stripMetadata_prim (n : Nat) (m : Meta) (v : Value) :
    stripMetadata n (.prim m v) = v := by
  cases n <;> rfl

theorem decChoiceRootM_rel {n : Nat} {d : Schema → List Bool → Except Err (Value × List Bool)}
    {dm : Schema → List Bool → Except Err (DNode × List Bool)} (hrel : MRel n d dm)
    {alts : List (String × Schema)} {bs : List Bool} {v : Value} {rest : List Bool}
    (hd : decChoiceRoot d alts bs = .ok (v, rest)) :
    ∃ nd, decChoiceRootM dm alts bs = .ok (nd, rest) ∧
      ∀ m, n + 1 ≤ m → stripMetadata m nd = v := by
  unfold decChoiceRoot at hd
  unfold decChoiceRootM
  rcases hr : readBitsN (bitlen (alts.length - 1)) bs with e1 | pr
  · rw [hr] at hd; simp at hd
  · obtain ⟨i, bs1⟩ := pr
    rw [hr] at hd
    simp only [] at hd
    rcases ha : alts[i]? with _ | p
    · rw [ha] at hd; simp at hd
    · obtain ⟨nm, sch⟩ := p
      rw [ha] at hd
      simp only [] at hd
      rcases hc : d sch bs1 with e1 | pc
      · rw [hc] at hd; simp at hd
      · obtain ⟨v1, bs2⟩ := pc
        rw [hc] at hd
        simp only [Except.ok.injEq, Prod.mk.injEq] at hd
        obtain ⟨hv, hrest⟩ := hd
        subst hv hrest
        obtain ⟨nd, hnd, hstrip⟩ := hrel sch bs1 v1 bs2 hc
        refine ⟨.choiceN ⟨false, true, false⟩ nm nd, ?_, ?_⟩
        · simp only [ha, hnd]
        · intro m hm
          cases m with
          | zero => omega
          | succ m1 => simp [stripMetadata, hstrip m1 (by omega)]

/-- The strip simulation: whenever plain decode succeeds, the
metadata decode succeeds on the same bits with the same tail, and
stripping the node tree yields the plain decoded value. -/
theorem strip_sim (fuel : Nat) : ∀ (env : Registry),
    MRel fuel (decodeF fuel env) (decodeMF fuel env) := by
  induction fuel with
  | zero =>
    intro env s bs v rest hdec
    simp [decodeF] at hdec
  | succ n ih =>
    intro env s bs v rest hdec
    have hdec1 : decodeStep (decodeF n env) env s bs = .ok (v, rest) := hdec
    show ∃ nd, decodeMStep (decodeMF n env) (decodeF n env) env s bs = .ok (nd, rest) ∧
      ∀ m, n + 1 ≤ m → stripMetadata m nd = v
    cases s with
    | bool =>
      exact ⟨.prim ⟨false, true, false⟩ v, by simp only [decodeMStep, hdec1], fun m2 _ => stripMetadata_prim m2 ⟨false, true, false⟩ v⟩
    | int mn mx ext =>
      exact ⟨.prim ⟨false, true, false⟩ v, by simp only [decodeMStep, hdec1], fun m2 _ => stripMetadata_prim m2 ⟨false, true, false⟩ v⟩
    | enum roots extVals =>
      exact ⟨.prim ⟨false, true, false⟩ v, by simp only [decodeMStep, hdec1], fun m2 _ => stripMetadata_prim m2 ⟨false, true, false⟩ v⟩
    | bitstr size =>
      exact ⟨.prim ⟨false, true, false⟩ v, by simp only [decodeMStep, hdec1], fun m2 _ => stripMetadata_prim m2 ⟨false, true, false⟩ v⟩
    | octets size =>
      exact ⟨.prim ⟨false, true, false⟩ v, by simp only [decodeMStep, hdec1], fun m2 _ => stripMetadata_prim m2 ⟨false, true, false⟩ v⟩
    | charstr kind size alpha =>
      exact ⟨.prim ⟨false, true, false⟩ v, by simp only [decodeMStep, hdec1], fun m2 _ => stripMetadata_prim m2 ⟨false, true, false⟩ v⟩
    | oid =>
      exact ⟨.prim ⟨false, true, false⟩ v, by simp only [decodeMStep, hdec1], fun m2 _ => stripMetadata_prim m2 ⟨false, true, false⟩ v⟩
    | null =>
      exact ⟨.prim ⟨false, true, false⟩ v, by simp only [decodeMStep, hdec1], fun m2 _ => stripMetadata_prim m2 ⟨false, true, false⟩ v⟩
    | seq fields extF =>
      cases extF with
      | none =>
        simp only [decodeStep] at hdec1
        rcases hr : readBitList (countOpt fields) bs with e1 | pr
        · rw [hr] at hdec1; simp at hdec1
        · obtain ⟨preBits, bs1⟩ := pr
          rw [hr] at hdec1
          simp only [] at hdec1
          rcases hdf : decFields (decodeF n env) fields preBits bs1 with e1 | pf
          · rw [hdf] at hdec1; simp at hdec1
          · obtain ⟨vals, bs2⟩ := pf
            rw [hdf] at hdec1
            simp only [Except.ok.injEq, Prod.mk.injEq] at hdec1
            obtain ⟨hv, hrest⟩ := hdec1
            subst hv hrest
            obtain ⟨nds, hnds, hstrips⟩ := decFieldsM_rel (ih env) fields preBits bs1 vals bs2 hdf
            refine ⟨.seqN ⟨false, true, false⟩ nds, ?_, ?_⟩
            · simp only [decodeMStep, hr, hnds]
            · intro m hm
              cases m with
              | zero => omega
              | succ m1 => rw [stripMetadata_seqN, hstrips m1 (by omega)]
      | some efs =>
        simp only [decodeStep] at hdec1
        match bs with
        | [] => simp at hdec1
        | extBit :: bs0 =>
          simp only [] at hdec1
          rcases hr : readBitList (countOpt fields) bs0 with e1 | pr
          · rw [hr] at hdec1; simp at hdec1
          · obtain ⟨preBits, bs1⟩ := pr
            rw [hr] at hdec1
            simp only [] at hdec1
            rcases hdf : decFields (decodeF n env) fields preBits bs1 with e1 | pf
            · rw [hdf] at hdec1; simp at hdec1
            · obtain ⟨vals, bs2⟩ := pf
              rw [hdf] at hdec1
              simp only [] at hdec1
              obtain ⟨nds, hnds, hstrips⟩ :=
                decFieldsM_rel (ih env) fields preBits bs1 vals bs2 hdf
              cases extBit with
              | false =>
                rw [if_neg (by simp)] at hdec1
                simp only [Except.ok.injEq, Prod.mk.injEq] at hdec1
                obtain ⟨hv, hrest⟩ := hdec1
                subst hv hrest
                refine ⟨.seqN ⟨false, true, false⟩ (nds ++ extAbsentM efs), ?_, ?_⟩
                · simp only [decodeMStep, hr, hnds, if_neg (by simp : ¬ (false = true))]
                · intro m hm
                  cases m with
                  | zero => omega
                  | succ m1 =>
                    rw [stripMetadata_seqN, List.map_append, hstrips m1 (by omega),
                      extAbsentM_strip m1 efs]
              | true =>
                rw [if_pos rfl] at hdec1
                rcases hns : decNS bs2 with e1 | pn
                · rw [hns] at hdec1; simp at hdec1
                · obtain ⟨nsm1, bs3⟩ := pn
                  rw [hns] at hdec1
                  simp only [] at hdec1
                  rcases hfl : readBitList (nsm1 + 1) bs3 with e1 | pl
                  · rw [hfl] at hdec1; simp at hdec1
                  · obtain ⟨flags, bs4⟩ := pl
                    rw [hfl] at hdec1
                    simp only [] at hdec1
                    rcases hde : decExtFields (decodeF n env) efs (flags.take efs.length) bs4
                        with e1 | pe
                    · rw [hde] at hdec1; simp at hdec1
                    · obtain ⟨evals, bs5⟩ := pe
                      rw [hde] at hdec1
                      simp only [] at hdec1
                      rcases hsk : skipOpens (flags.drop efs.length) bs5 with e1 | bs6
                      · rw [hsk] at hdec1; simp at hdec1
                      · rw [hsk] at hdec1
                        simp only [Except.ok.injEq, Prod.mk.injEq] at hdec1
                        obtain ⟨hv, hrest⟩ := hdec1
                        subst hv hrest
                        obtain ⟨ends, hends, hstripe⟩ :=
                          decExtFieldsM_rel (ih env) efs (flags.take efs.length) bs4
                            evals bs5 hde
                        refine ⟨.seqN ⟨false, true, false⟩ (nds ++ ends), ?_, ?_⟩
                        · simp only [decodeMStep, hr, hnds, if_pos rfl, if_pos trivial,
                            hns, hfl, hends, hsk]
                        · intro m hm
                          cases m with
                          | zero => omega
                          | succ m1 =>
                            rw [stripMetadata_seqN, List.map_append, hstrips m1 (by omega),
                              hstripe m1 (by omega)]
    | seqOf item size =>
      simp only [decodeStep] at hdec1
      rcases hds : decSize (decodeF n env item) size bs with e1 | ps
      · rw [hds] at hdec1; simp [Except.map] at hdec1
      · obtain ⟨vs, bs1⟩ := ps
        rw [hds] at hdec1
        simp only [Except.map, Except.ok.injEq, Prod.mk.injEq] at hdec1
        obtain ⟨hv, hrest⟩ := hdec1
        subst hv hrest
        obtain ⟨nds, hnds, hstrips⟩ := decSize_rel (ih env item) size bs vs bs1 hds
        refine ⟨.seqOfN ⟨false, true, false⟩ nds, ?_, ?_⟩
        · simp only [decodeMStep, Except.map, hnds]
        · intro m hm
          cases m with
          | zero => omega
          | succ m1 => simp [stripMetadata, hstrips m1 (by omega)]
    | choice alts extAlts =>
      cases extAlts with
      | none =>
        simp only [decodeStep] at hdec1
        obtain ⟨nd, hnd, hstrip⟩ := decChoiceRootM_rel (ih env) hdec1
        exact ⟨nd, by simp only [decodeMStep, hnd], hstrip⟩
      | some ealts =>
        simp only [decodeStep] at hdec1
        match bs with
        | [] => simp at hdec1
        | false :: bs1 =>
          simp only [] at hdec1
          obtain ⟨nd, hnd, hstrip⟩ := decChoiceRootM_rel (ih env) hdec1
          exact ⟨nd, by simp only [decodeMStep, hnd], hstrip⟩
        | true :: bs1 =>
          simp only [] at hdec1
          rcases hns : decNS bs1 with e1 | pn
          · rw [hns] at hdec1; simp at hdec1
          · obtain ⟨j, bs2⟩ := pn
            rw [hns] at hdec1
            simp only [] at hdec1
            rcases ha : ealts[j]? with _ | p
            · rw [ha] at hdec1; simp at hdec1
            · obtain ⟨nm, sch⟩ := p
              rw [ha] at hdec1
              simp only [] at hdec1
              rcases hop : decOpen (decodeF n env sch) bs2 with e1 | po
              · rw [hop] at hdec1; simp at hdec1
              · obtain ⟨v1, bs3⟩ := po
                rw [hop] at hdec1
                simp only [Except.ok.injEq, Prod.mk.injEq] at hdec1
                obtain ⟨hv, hrest⟩ := hdec1
                subst hv hrest
                obtain ⟨nd, hnd, hstrip⟩ := decOpen_rel (ih env sch) hop
                refine ⟨.choiceN ⟨false, true, false⟩ nm nd, ?_, ?_⟩
                · simp only [decodeMStep, hns, ha, hnd]
                · intro m hm
                  cases m with
                  | zero => omega
                  | succ m1 => simp [stripMetadata, hstrip m1 (by omega)]
    | ref name =>
      simp only [decodeStep] at hdec1
      rcases hreg : lookupReg env name with _ | s1
      · rw [hreg] at hdec1; simp at hdec1
      · rw [hreg] at hdec1
        simp only [] at hdec1
        obtain ⟨nd, hnd, hstrip⟩ := ih env s1 bs v rest hdec1
        refine ⟨nd, ?_, fun m hm => hstrip m (by omega)⟩
        simp only [decodeMStep, hreg, hnd]

/-- C5: whenever plain decode succeeds on a buffer, `decodeWithMetadata`
succeeds on the same buffer consuming the same bits, and
`stripMetadata` of the resulting node tree is exactly the plain decode
result — primitive node values returned unchanged, SEQUENCE OF
children mapped, the chosen CHOICE value recursed into, and SEQUENCE
keys omitted exactly when the child is optional, not present and not a
default. -/
theorem c5_strip_equivalence (fuel : Nat) (env : Registry) (s : Schema) (bs : List Bool)
    (v : Value) (rest : List Bool) (hdec : decodeF fuel env s bs = .ok (v, rest)) :
    ∃ nd, decodeMF fuel env s bs = .ok (nd, rest) ∧ stripMetadata fuel nd = v := by
  obtain ⟨nd, hnd, hstrip⟩ := strip_sim fuel env s bs v rest hdec
  exact ⟨nd, hnd, hstrip fuel (le_refl fuel)⟩

/-- Witness for C5 at a concrete decode. -/
theorem c5_strip_equivalence_witness :
    ∃ nd, decodeMF 2 [] Schema.bool [true] = .ok (nd, []) ∧
      stripMetadata 2 nd = Value.bool true :=
  c5_strip_equivalence 2 [] Schema.bool [true] (Value.bool true) [] rfl

end Asn1Per
